import Mathlib

/-!
# SudokuSolver.c — a shallow embedding of the solving engine

The program keeps one *current* board and a stack of suspended boards.
`solveboard` sweeps the current board in row-major order, asks `getmoves`
for the values still available at every empty cell, writes forced values,
and otherwise guesses at the cell with the fewest available values, pushing
the board it leaves behind.  A cell without any available value makes it pop
the stack, or stop with "Invalid Board!" when the stack is empty.

The C arrays are modelled as total maps on the naturals, the two linked
lists (`tried`, `stack`) as Lean lists with the newest element first, and
the `goto Done` / `while(!solved)` loop as a step function `iteration`
that is driven by `solveboard` with an explicit bound on the number of
iterations.
-/

namespace SudokuSolver

/-! ## Data model -/

/-- The matrix `int arr[9][9]`, read as `arr x y`. Only indices below 9 are ever used. -/
abbrev Grid := Nat → Nat → Nat

/-- A grid given by its nine rows; cells outside the rows read 0. -/
def Grid.ofRows (rows : List (List Nat)) : Grid :=
  fun x y => (rows.getD x []).getD y 0

/-- The assignment `arr[x][y] = v`. -/
def Grid.set (g : Grid) (x y v : Nat) : Grid :=
  fun i j => if i = x ∧ j = y then v else g i j

/-- The struct `tried`: one guess that was already taken (the `next` pointer is the list tail). -/
structure tried where
  x : Nat
  y : Nat
  value : Nat
  deriving DecidableEq, Repr

/-- The struct `moves`: the values available for one cell. -/
structure moves where
  num : Nat
  array : List Nat
  deriving DecidableEq, Repr

/-- The struct `board`: the values, the per-cell `moves` pointers and the list of tried guesses. -/
structure board where
  arr : Grid
  moves : Nat → Nat → moves
  tried : List tried

/-- The content of a `moves` pointer that was never assigned (`boardcopy` leaves them so). -/
def nomoves : moves := ⟨0, []⟩

/-- The assignment `b->moves[x][y] = m`. -/
def setmoves (f : Nat → Nat → moves) (x y : Nat) (m : moves) : Nat → Nat → moves :=
  fun i j => if i = x ∧ j = y then m else f i j

/-! ## getmoves -/

/-- One `contains[v - 1] = 0` guarded by its condition. -/
def strike (c : List Nat) (cond : Bool) (v : Nat) : List Nat :=
  if cond then c.set (v - 1) 0 else c

/-- Body of the first loop of `getmoves`: row `x` and column `y` at offset `loop`. -/
def lineStep (arr : Grid) (x y : Nat) (c : List Nat) (loop : Nat) : List Nat :=
  let xval := arr x loop
  let c := strike c (xval != 0 && loop != y) xval
  let yval := arr loop y
  strike c (yval != 0 && loop != x) yval

/-- Body of the inner loop of the 3*3 scan of `getmoves`. -/
def boxStep (arr : Grid) (x y loop : Nat) (c : List Nat) (inn : Nat) : List Nat :=
  let zval := arr (x / 3 * 3 + loop) (y / 3 * 3 + inn)
  strike c (zval != 0 && x / 3 + loop != x && y / 3 + inn != y) zval

/-- The array `contains` of `getmoves` after the row/column loop and the 3*3 loop. -/
def getmovesContains (arr : Grid) (x y : Nat) : List Nat :=
  let c := [1, 2, 3, 4, 5, 6, 7, 8, 9]
  let c := (List.range 9).foldl (lineStep arr x y) c
  (List.range 3).foldl (fun c loop => (List.range 3).foldl (boxStep arr x y loop) c) c

/-- The function `getmoves(x, y)` on the current grid: `num` counts the entries of
`contains` that are still non-zero and `array` holds them in index order. -/
def getmoves (arr : Grid) (x y : Nat) : moves :=
  let c := getmovesContains arr x y
  { num := (c.filter (fun v => v != 0)).length
    array := c.filter (fun v => v != 0) }

/-! ## boardcopy, contains -/

/-- The function `boardcopy()`: the values are copied, `tried` is NULL, `moves` is not set. -/
def boardcopy (current : board) : board :=
  { arr := fun x y => current.arr x y, moves := fun _ _ => nomoves, tried := [] }

/-- The function `contains(x, y, guess)` on the current board. -/
def contains (current : board) (x y guess : Nat) : Bool :=
  current.tried.any (fun t => t.value == guess && t.x == x && t.y == y)

/-! ## solveboard -/

/-- The locals `solved`, `taken`, `small`, `smallx`, `smally` of `solveboard`. -/
structure locals where
  solved : Bool
  taken : Bool
  small : Nat
  smallx : Nat
  smally : Nat
  deriving DecidableEq, Repr

/-- How one sweep of the double loop ends. -/
inductive sweep where
  /-- Both `for` loops ran to their end. -/
  | completed (current : board) (l : locals)
  /-- A cell without moves, stack not empty: the stack was popped and control went to `Done`. -/
  | popped (current : board) (head : List board) (l : locals)
  /-- A cell without moves, stack empty: "Invalid Board!" and `exit(0)`. -/
  | invalid (current : board) (l : locals)

/-- The cells in the order of `for(x = 0; x < 9; x++) for(y = 0; y < 9; y++)`. -/
def cells : List (Nat × Nat) :=
  (List.range 9).flatMap (fun x => (List.range 9).map (fun y => (x, y)))

/-- The double loop of `solveboard` over the remaining cells `cs`. -/
def pass (head : List board) : List (Nat × Nat) → board → locals → sweep
  | [], current, l => .completed current l
  | (x, y) :: cs, current, l =>
    if current.arr x y = 0 then
      let current := { current with moves := setmoves current.moves x y (getmoves current.arr x y) }
      if (current.moves x y).num = 1 then
        pass head cs
          { current with arr := current.arr.set x y ((current.moves x y).array.getD 0 0) }
          { l with taken := true }
      else if (current.moves x y).num = 0 then
        match head with
        | [] => .invalid current l
        | top :: rest => .popped top rest l
      else
        let l := { l with solved := false }
        if (current.moves x y).num < l.small then
          pass head cs current { l with small := (current.moves x y).num, smallx := x, smally := y }
        else
          pass head cs current l
    else
      pass head cs current l

/-- The `do ... while(contains(smallx, smally, guess))` loop. The first argument is
`small - rand`, so that it is 0 exactly when `rand == small`; the result is the
guess the loop leaves with, or `none` when it hits `rand == small`. -/
def pickGuess (current : board) (smallx smally : Nat) : Nat → Nat → Option Nat
  | 0, _ => none
  | n + 1, rand =>
    let guess := (current.moves smallx smally).array.getD rand 0
    if contains current smallx smally guess then
      pickGuess current smallx smally n (rand + 1)
    else
      some guess

/-- The globals `current` and `head` with the two locals of `solveboard` that
survive from one pass to the next. -/
structure State where
  current : board
  head : List board
  smallx : Nat
  smally : Nat

/-- How one run through the body of `while(!solved)`, started at `Done`, ends. -/
inductive outcome where
  /-- Control is back at `Done` / the loop test with `solved == 0`. -/
  | again (s : State)
  /-- The loop test found `solved == 1`: `solveboard` returns. -/
  | solved (s : State)
  /-- "Invalid Board!" and `exit(0)`. -/
  | invalid (s : State)

/-- The branch taken when the stack has to be popped outside the sweep. -/
def backtrack (current : board) (head : List board) (l : locals) : outcome :=
  match head with
  | [] => .invalid ⟨current, [], l.smallx, l.smally⟩
  | top :: rest => .again ⟨top, rest, l.smallx, l.smally⟩

/-- The guess block: record the guess on the current board, copy it, push the
original and continue on the copy with the guess written. -/
def takeGuess (current : board) (head : List board) (l : locals) (guess : Nat) : State :=
  let current := { current with tried := ⟨l.smallx, l.smally, guess⟩ :: current.tried }
  let newb := boardcopy current
  { current := { newb with arr := newb.arr.set l.smallx l.smally guess }
    head := current :: head
    smallx := l.smallx
    smally := l.smally }

/-- One run through the loop body of `solveboard`, from the label `Done`. -/
def iteration (s : State) : outcome :=
  match pass s.head cells s.current ⟨true, false, 10, s.smallx, s.smally⟩ with
  | .invalid current l => .invalid ⟨current, [], l.smallx, l.smally⟩
  | .popped top rest l => .again ⟨top, rest, l.smallx, l.smally⟩
  | .completed current l =>
    if !l.solved && !l.taken then
      match pickGuess current l.smallx l.smally l.small 0 with
      | none => backtrack current s.head l
      | some guess => .again (takeGuess current s.head l guess)
    else if l.solved then
      .solved ⟨current, s.head, l.smallx, l.smally⟩
    else
      .again ⟨current, s.head, l.smallx, l.smally⟩

/-- The function `solveboard()` run for at most `fuel` passes: `none` when more are needed. -/
def solveboard : Nat → State → Option outcome
  | 0, _ => none
  | fuel + 1, s =>
    match iteration s with
    | .again s => solveboard fuel s
    | r => some r

/-- The state `main` hands to `solveboard`: the board read from the file, an empty stack. -/
def start (g : Grid) : State :=
  { current := { arr := g, moves := fun _ _ => nomoves, tried := [] }
    head := []
    smallx := 0
    smally := 0 }


/-! ## Specification vocabulary -/

/-- One forced placement: an empty cell with exactly one available value receives it. -/
def ForcedStep (g g' : Grid) : Prop :=
  ∃ x y, x < 9 ∧ y < 9 ∧ g x y = 0 ∧ (getmoves g x y).num = 1 ∧
    g' = g.set x y ((getmoves g x y).array.getD 0 0)

/-- The grid `g'` arises from `g` by `n` forced placements in a row. -/
inductive ForcedN : Nat → Grid → Grid → Prop
  | refl (g : Grid) : ForcedN 0 g g
  | step {n : Nat} {g g1 g2 : Grid} : ForcedStep g g1 → ForcedN n g1 g2 → ForcedN (n + 1) g g2

/-- Some empty cell of the grid has no available value. -/
def Stuck (g : Grid) : Prop :=
  ∃ x y, x < 9 ∧ y < 9 ∧ g x y = 0 ∧ (getmoves g x y).num = 0

/-- What the locals say about the selected cell while `cs` is still to be swept. -/
def Sel (cur : board) (l : locals) (cs : List (Nat × Nat)) : Prop :=
  (l.solved = true → 9 < l.small) ∧
  (l.solved = false →
    l.smallx < 9 ∧ l.smally < 9 ∧ 2 ≤ l.small ∧ (l.smallx, l.smally) ∉ cs ∧
    (cur.moves l.smallx l.smally).num = l.small ∧
    (l.taken = false → cur.arr l.smallx l.smally = 0 ∧
      cur.moves l.smallx l.smally = getmoves cur.arr l.smallx l.smally))

/-- What a sweep over the cells `cs`, started on `cur` with locals `l`, ends in. -/
def PassSpec (head : List board) (cs : List (Nat × Nat)) (cur : board) (l : locals) :
    sweep → Prop
  | .completed cur' l' =>
    cur'.tried = cur.tried ∧
    (∃ n, ForcedN n cur.arr cur'.arr ∧ l'.taken = (l.taken || decide (0 < n))) ∧
    (l'.solved = true → l.solved = true ∧ ∀ c ∈ cs, cur'.arr c.1 c.2 ≠ 0) ∧
    Sel cur' l' []
  | .popped top rest _ =>
    head = top :: rest ∧ ∃ n g', ForcedN n cur.arr g' ∧ Stuck g'
  | .invalid cur' _ =>
    head = [] ∧ cur'.tried = cur.tried ∧ ∃ n, ForcedN n cur.arr cur'.arr ∧ Stuck cur'.arr

/-- Why a board is given up: a forced placement chain runs into a cell without any
available value, or every value available at some empty cell was already tried. -/
def Dead (b : board) : Prop :=
  (∃ n g', ForcedN n b.arr g' ∧ Stuck g') ∨
  (∃ x y, x < 9 ∧ y < 9 ∧ b.arr x y = 0 ∧
    ∀ v ∈ (getmoves b.arr x y).array, (⟨x, y, v⟩ : tried) ∈ b.tried)

/-- The five ways one run through the loop body of `solveboard` can go. -/
inductive IterSpec (s : State) : outcome → Prop
  /-- The sweep filled the last empty cells (or met none). -/
  | solved (s' : State) (n : Nat) :
    s'.head = s.head → s'.current.tried = s.current.tried →
    ForcedN n s.current.arr s'.current.arr →
    (∀ x y, x < 9 → y < 9 → s'.current.arr x y ≠ 0) →
    IterSpec s (.solved s')
  /-- The sweep made at least one forced placement and left cells open. -/
  | progress (s' : State) (n : Nat) :
    s'.head = s.head → s'.current.tried = s.current.tried →
    ForcedN (n + 1) s.current.arr s'.current.arr →
    IterSpec s (.again s')
  /-- The sweep changed nothing; the value `v` is guessed at the cell `(x, y)`. -/
  | guess (s' : State) (x y v : Nat) (b : board) :
    x < 9 → y < 9 → s.current.arr x y = 0 →
    v ∈ (getmoves s.current.arr x y).array → 2 ≤ (getmoves s.current.arr x y).num →
    (⟨x, y, v⟩ : tried) ∉ s.current.tried →
    s'.head = b :: s.head → b.arr = s.current.arr → b.tried = ⟨x, y, v⟩ :: s.current.tried →
    s'.current.arr = s.current.arr.set x y v → s'.current.tried = [] →
    IterSpec s (.again s')
  /-- The current board is given up and the top of the stack takes its place. -/
  | pop (s' : State) :
    s.head = s'.current :: s'.head → Dead s.current →
    IterSpec s (.again s')
  /-- The current board is given up and the stack is empty. -/
  | invalid (s' : State) :
    s.head = [] → s'.head = [] → Dead s.current →
    IterSpec s (.invalid s')

/-! ## Runs -/

/-- The state at the label `Done` after `k` runs through the loop body, or `none`
when `solveboard` has left its loop before. -/
def iterate : Nat → State → Option State
  | 0, s => some s
  | k + 1, s =>
    match iteration s with
    | .again s' => iterate k s'
    | _ => none

/-- The part of a state the search depends on: the current grid with its list of tried
guesses, and the same for every board on the stack. -/
abbrev Config := Grid × List tried × List (Grid × List tried)

/-- The configuration of a state. -/
def config (s : State) : Config :=
  (s.current.arr, s.current.tried, s.head.map (fun b => (b.arr, b.tried)))

/-! ## Rows, columns and boxes -/

/-- The cells of row `x`. -/
def rowCells (x : Nat) : List (Nat × Nat) := (List.range 9).map (fun y => (x, y))

/-- The cells of column `y`. -/
def colCells (y : Nat) : List (Nat × Nat) := (List.range 9).map (fun x => (x, y))

/-- The cells of the 3*3 box number `k` (boxes counted row-major, 0..8). -/
def boxCells (k : Nat) : List (Nat × Nat) :=
  (List.range 9).map (fun i => (k / 3 * 3 + i / 3, k % 3 * 3 + i % 3))

/-- The 27 rows, columns and boxes. -/
def units : List (List (Nat × Nat)) :=
  (List.range 9).map rowCells ++ (List.range 9).map colCells ++ (List.range 9).map boxCells

/-- The values a grid holds in the cells of `u`. -/
def unitValues (g : Grid) (u : List (Nat × Nat)) : List Nat := u.map (fun c => g c.1 c.2)

/-- Every row, column and 3*3 box holds a permutation of 1..9. -/
def Valid (g : Grid) : Prop :=
  ∀ u ∈ units, List.Perm (unitValues g u) [1, 2, 3, 4, 5, 6, 7, 8, 9]

/-- No row, column or 3*3 box holds the same non-zero value twice. -/
def Consistent (g : Grid) : Prop :=
  ∀ u ∈ units, ((unitValues g u).filter (fun v => v != 0)).Nodup

/-- All 81 entries are in 0..9. -/
def InRange (g : Grid) : Prop := ∀ x, x < 9 → ∀ y, y < 9 → g x y ≤ 9

/-- No cell is empty. -/
def Full (g : Grid) : Prop := ∀ x, x < 9 → ∀ y, y < 9 → g x y ≠ 0

instance (g : Grid) : Decidable (Valid g) := by
  unfold Valid
  infer_instance

instance (g : Grid) : Decidable (Consistent g) := by
  unfold Consistent
  infer_instance

instance (g : Grid) : Decidable (InRange g) := by
  unfold InRange
  infer_instance

instance (g : Grid) : Decidable (Full g) := by
  unfold Full
  infer_instance

/-- Two cells lie in the same row, the same column or the same 3*3 box. -/
def SameUnit (x y x' y' : Nat) : Prop :=
  x = x' ∨ y = y' ∨ (x / 3 = x' / 3 ∧ y / 3 = y' / 3)

/-- No two filled cells of one row hold the same value. -/
def RowOK (g : Grid) : Prop :=
  ∀ x y y', x < 9 → y < 9 → y' < 9 → y ≠ y' → g x y ≠ 0 → g x y ≠ g x y'

/-- No two filled cells of one column hold the same value. -/
def ColOK (g : Grid) : Prop :=
  ∀ x x' y, x < 9 → x' < 9 → y < 9 → x ≠ x' → g x y ≠ 0 → g x y ≠ g x' y

/-- No two filled cells of the box in box-row `R` and box-column `C` hold the same value. -/
def BoxOK (g : Grid) (R C : Nat) : Prop :=
  ∀ x y x' y', x < 9 → y < 9 → x' < 9 → y' < 9 → x / 3 = R → y / 3 = C → x' / 3 = R →
    y' / 3 = C → ¬ (x = x' ∧ y = y') → g x y ≠ 0 → g x y ≠ g x' y'

/-- What every grid of a run keeps when the input has it: rows and columns without
repeated values, and the four corner boxes without repeated values. -/
def Sound (g : Grid) : Prop :=
  RowOK g ∧ ColOK g ∧ ∀ R C, R ≠ 1 → C ≠ 1 → BoxOK g R C

/-- The grid `g'` keeps every filled cell of `g`. -/
def Keeps (g g' : Grid) : Prop := ∀ x y, x < 9 → y < 9 → g x y ≠ 0 → g' x y = g x y

/-! ## A measure for termination -/

/-- The number of empty cells. -/
def emptyCount (g : Grid) : Nat := cells.countP (fun c => g c.1 c.2 == 0)

/-- All guesses there are: a cell and a value in 1..9. -/
def allTriples : List tried :=
  cells.flatMap (fun c => (List.range 9).map (fun v => (⟨c.1, c.2, v + 1⟩ : tried)))

/-- The number of guesses that are not in the list. -/
def untried (ts : List tried) : Nat := allTriples.countP (fun t => decide (t ∉ ts))

/-- The weight of a board with `e` empty cells and `u` guesses left. -/
def weight (e u : Nat) : Nat := (u + 1) * (2 * 731 ^ e)

/-- A number that gets smaller with every run through the loop body. -/
def potential (c : Config) : Nat :=
  weight (emptyCount c.1) (untried c.2.1) +
    (c.2.2.map (fun b => weight (emptyCount b.1) (untried b.2) + 1)).sum

/-! ## Vocabulary for the search -/

/-- A property of grids holds for the current board and for every board on the stack. -/
def GridInv (Q : Grid → Prop) (s : State) : Prop :=
  Q s.current.arr ∧ ∀ b ∈ s.head, Q b.arr

/-- Each board on the stack is tied to the grid above it: when the solution `S` fills
the board below and takes its last guess, `S` also fills the grid above. -/
def Linked (S : Grid) : Grid → List board → Prop
  | _, [] => True
  | c, p :: rest =>
    (∃ t tl, p.tried = t :: tl ∧ (Keeps p.arr S → S t.x t.y = t.value → Keeps c S)) ∧
      Linked S p.arr rest

/-- The solution `S` can still be reached from the stack: the topmost board that `S`
fills has not yet tried the value of `S` (its last guess apart, which is under way). -/
def AliveStack (S : Grid) : List board → Prop
  | [] => False
  | p :: rest =>
    (Keeps p.arr S ∧ ∀ t ∈ p.tried.tail, S t.x t.y ≠ t.value) ∨
      (¬ Keeps p.arr S ∧ AliveStack S rest)

/-- The solution `S` can still be reached from the state. -/
def Alive (S : Grid) (s : State) : Prop :=
  ((Keeps s.current.arr S ∧ ∀ t ∈ s.current.tried, S t.x t.y ≠ t.value) ∨
      (¬ Keeps s.current.arr S ∧ AliveStack S s.head)) ∧
    Linked S s.current.arr s.head

/-! ## Reading off an outcome -/

/-- The state an outcome carries. -/
def outcome.state : outcome → State
  | .again s => s
  | .solved s => s
  | .invalid s => s

/-- The loop was left with `solved == 1`. -/
def outcome.isSolved : outcome → Bool
  | .solved _ => true
  | _ => false

/-- The run ended with "Invalid Board!". -/
def outcome.isInvalid : outcome → Bool
  | .invalid _ => true
  | _ => false

instance (g g' : Grid) : Decidable (Keeps g g') :=
  decidable_of_iff (∀ x, x < 9 → ∀ y, y < 9 → g x y ≠ 0 → g' x y = g x y)
    ⟨fun h x y hx hy => h x hx y hy, fun h x hx y hy => h x y hx hy⟩

/-! ## Grids used below -/

/-- The solved reference grid of the specification. -/
def referenceGrid : Grid := Grid.ofRows
  [[5, 3, 4, 6, 7, 8, 9, 1, 2],
   [6, 7, 2, 1, 9, 5, 3, 4, 8],
   [1, 9, 8, 3, 4, 2, 5, 6, 7],
   [8, 5, 9, 7, 6, 1, 4, 2, 3],
   [4, 2, 6, 8, 5, 3, 7, 9, 1],
   [7, 1, 3, 9, 2, 4, 8, 5, 6],
   [9, 6, 1, 5, 3, 7, 2, 8, 4],
   [2, 8, 7, 4, 1, 9, 6, 3, 5],
   [3, 4, 5, 2, 8, 6, 1, 7, 9]]

/-- The reference grid with the cell (0,0) emptied. -/
def forcedSingleGrid : Grid := Grid.ofRows
  [[0, 3, 4, 6, 7, 8, 9, 1, 2],
   [6, 7, 2, 1, 9, 5, 3, 4, 8],
   [1, 9, 8, 3, 4, 2, 5, 6, 7],
   [8, 5, 9, 7, 6, 1, 4, 2, 3],
   [4, 2, 6, 8, 5, 3, 7, 9, 1],
   [7, 1, 3, 9, 2, 4, 8, 5, 6],
   [9, 6, 1, 5, 3, 7, 2, 8, 4],
   [2, 8, 7, 4, 1, 9, 6, 3, 5],
   [3, 4, 5, 2, 8, 6, 1, 7, 9]]

/-- The example input of the header comment of `SudokuSolver.c`. -/
def classicGrid : Grid := Grid.ofRows
  [[0, 0, 0, 0, 0, 0, 0, 7, 0],
   [0, 0, 6, 8, 0, 0, 0, 0, 4],
   [8, 0, 0, 0, 9, 0, 0, 6, 1],
   [0, 0, 5, 0, 0, 6, 0, 4, 0],
   [0, 0, 0, 5, 2, 4, 0, 0, 0],
   [0, 1, 0, 7, 0, 0, 5, 0, 0],
   [5, 2, 0, 0, 6, 0, 0, 0, 9],
   [4, 0, 0, 0, 0, 3, 8, 0, 0],
   [0, 3, 0, 0, 0, 0, 0, 0, 0]]

/-- A solved Sudoku that fills `classicGrid`. -/
def classicSolution : Grid := Grid.ofRows
  [[3, 5, 2, 6, 4, 1, 9, 7, 8],
   [1, 9, 6, 8, 7, 2, 3, 5, 4],
   [8, 4, 7, 3, 9, 5, 2, 6, 1],
   [2, 8, 5, 9, 1, 6, 7, 4, 3],
   [9, 7, 3, 5, 2, 4, 1, 8, 6],
   [6, 1, 4, 7, 3, 8, 5, 9, 2],
   [5, 2, 8, 1, 6, 7, 4, 3, 9],
   [4, 6, 9, 2, 5, 3, 8, 1, 7],
   [7, 3, 1, 4, 8, 9, 6, 2, 5]]

/-- A grid whose only filled cell is (5,1), holding 7. -/
def boxSlipGrid : Grid := Grid.ofRows
  [[0, 0, 0, 0, 0, 0, 0, 0, 0],
   [0, 0, 0, 0, 0, 0, 0, 0, 0],
   [0, 0, 0, 0, 0, 0, 0, 0, 0],
   [0, 0, 0, 0, 0, 0, 0, 0, 0],
   [0, 0, 0, 0, 0, 0, 0, 0, 0],
   [0, 7, 0, 0, 0, 0, 0, 0, 0],
   [0, 0, 0, 0, 0, 0, 0, 0, 0],
   [0, 0, 0, 0, 0, 0, 0, 0, 0],
   [0, 0, 0, 0, 0, 0, 0, 0, 0]]

/-- A grid without repeated values: row 3 holds 2..9 after an empty cell, and (5,1) holds 1. -/
def rowThreeGrid : Grid := Grid.ofRows
  [[0, 0, 0, 0, 0, 0, 0, 0, 0],
   [0, 0, 0, 0, 0, 0, 0, 0, 0],
   [0, 0, 0, 0, 0, 0, 0, 0, 0],
   [0, 2, 3, 4, 5, 6, 7, 8, 9],
   [0, 0, 0, 0, 0, 0, 0, 0, 0],
   [0, 1, 0, 0, 0, 0, 0, 0, 0],
   [0, 0, 0, 0, 0, 0, 0, 0, 0],
   [0, 0, 0, 0, 0, 0, 0, 0, 0],
   [0, 0, 0, 0, 0, 0, 0, 0, 0]]

/-- A full grid of ones. -/
def onesGrid : Grid := fun _ _ => 1

/-- The reference grid with a second 5 in row 0, at the cell (0,1). -/
def twoFivesGrid : Grid := Grid.ofRows
  [[5, 5, 4, 6, 7, 8, 9, 1, 2],
   [6, 7, 2, 1, 9, 5, 3, 4, 8],
   [1, 9, 8, 3, 4, 2, 5, 6, 7],
   [8, 5, 9, 7, 6, 1, 4, 2, 3],
   [4, 2, 6, 8, 5, 3, 7, 9, 1],
   [7, 1, 3, 9, 2, 4, 8, 5, 6],
   [9, 6, 1, 5, 3, 7, 2, 8, 4],
   [2, 8, 7, 4, 1, 9, 6, 3, 5],
   [3, 4, 5, 2, 8, 6, 1, 7, 9]]

/-! ## Reading off a sweep -/

/-- Both `for` loops ran to their end. -/
def sweep.isCompleted : sweep → Bool
  | .completed _ _ => true
  | _ => false

/-- The current board a sweep ends with. -/
def sweep.board : sweep → board
  | .completed b _ => b
  | .popped b _ _ => b
  | .invalid b _ => b

/-- The locals a sweep ends with. -/
def sweep.locals : sweep → locals
  | .completed _ l => l
  | .popped _ _ l => l
  | .invalid _ l => l

/-- No board of the state holds the same guess twice in its list of tried guesses. -/
def TriedNodup (s : State) : Prop :=
  s.current.tried.Nodup ∧ ∀ b ∈ s.head, b.tried.Nodup

/-! ## Vocabulary for the guess step -/

/-- The place of a cell in the row-major sweep. -/
def rank (c : Nat × Nat) : Nat := 9 * c.1 + c.2

/-- What the locals say, while the cells `V` have been swept and nothing was written:
every empty cell among them has at least `small` available values, and the selected
cell comes first among those with exactly `small`. -/
def MinInv (V : List (Nat × Nat)) (cur : board) (l : locals) : Prop :=
  (l.solved = true → 9 < l.small) ∧
  (l.solved = false → (l.smallx, l.smally) ∈ V) ∧
  (l.taken = false → ∀ c ∈ V, cur.arr c.1 c.2 = 0 →
    l.solved = false ∧ l.small ≤ (getmoves cur.arr c.1 c.2).num ∧
      ((getmoves cur.arr c.1 c.2).num = l.small → rank (l.smallx, l.smally) ≤ rank c))

/-- A grid on which a sweep neither writes nor gives up nor finds all cells filled: some
cell is empty and every empty cell has two or more available values. -/
def StalledGrid (g : Grid) : Prop :=
  (∀ x, x < 9 → ∀ y, y < 9 → g x y = 0 → 2 ≤ (getmoves g x y).num) ∧
    ∃ x, x < 9 ∧ ∃ y, y < 9 ∧ g x y = 0

/-- The cell `(x, y)` is the first empty cell, in row-major order, among the empty cells
with the fewest available values. -/
def IsSel (g : Grid) (x y : Nat) : Prop :=
  x < 9 ∧ y < 9 ∧ g x y = 0 ∧
    ∀ a, a < 9 → ∀ b, b < 9 → g a b = 0 →
      (getmoves g x y).num ≤ (getmoves g a b).num ∧
        ((getmoves g a b).num = (getmoves g x y).num → rank (x, y) ≤ rank (a, b))

/-- The sweep of the loop body that starts at `Done` in state `s`. -/
def sweepOf (s : State) : sweep :=
  pass s.head cells s.current ⟨true, false, 10, s.smallx, s.smally⟩

/-- The current board is given up in the loop body started in `s`: the sweep met a cell
without available value, or it changed nothing and every value available at the selected
cell was tried before. -/
def gaveUp (s : State) : Bool :=
  !(sweepOf s).isCompleted ||
    (!(sweepOf s).locals.solved && !(sweepOf s).locals.taken &&
      (pickGuess (sweepOf s).board (sweepOf s).locals.smallx (sweepOf s).locals.smally
        (sweepOf s).locals.small 0).isNone)

/-- The grid `g'` differs from `g` only in cells that are empty in `g` and hold a value of
1..9 in `g'`. -/
def WritesInto (g g' : Grid) : Prop :=
  ∀ x y, g' x y = g x y ∨ (g x y = 0 ∧ 1 ≤ g' x y ∧ g' x y ≤ 9)

/-- No two filled cells that share a row, a column or a 3*3 box hold the same value. -/
def NoClash (g : Grid) : Prop :=
  ∀ x y x' y', x < 9 → y < 9 → x' < 9 → y' < 9 → ¬ (x = x' ∧ y = y') →
    SameUnit x y x' y' → g x y ≠ 0 → g x y ≠ g x' y'

/-- The value `v` stands in no cell of row `x`, of column `y` and of the 3*3 box of `(x, y)`. -/
def Absent (g : Grid) (x y v : Nat) : Prop :=
  (∀ j, j < 9 → g x j ≠ v) ∧ (∀ i, i < 9 → g i y ≠ v) ∧
    ∀ i, i < 9 → ∀ j, j < 9 → i / 3 = x / 3 → j / 3 = y / 3 → g i j ≠ v

/-- The numbers of empty cells grow strictly from `e` along the stack, top to bottom. -/
def Descending : Nat → List board → Prop
  | _, [] => True
  | e, b :: rest => e < emptyCount b.arr ∧ Descending (emptyCount b.arr) rest

/-- A board on the stack, or a current board that came back from the stack: its grid is
one on which a sweep changes nothing, and every guess in its list of tried guesses was
made at the cell the sweep selects. -/
def Branched (b : board) : Prop :=
  StalledGrid b.arr ∧ ∀ t ∈ b.tried, IsSel b.arr t.x t.y ∧ t.value ∈ (getmoves b.arr t.x t.y).array

/-- Every board on the stack was branched on, holds at least one guess, and so does the
current board unless its list of tried guesses is empty. -/
def BranchInv (s : State) : Prop :=
  (s.current.tried ≠ [] → Branched s.current) ∧ ∀ b ∈ s.head, Branched b ∧ b.tried ≠ []

/-- A grid whose cell (0,0) is empty and has no available value: row 0 holds 1..8 and
column 0 holds 9. -/
def stuckGrid : Grid := Grid.ofRows
  [[0, 1, 2, 3, 4, 5, 6, 7, 8],
   [9, 0, 0, 0, 0, 0, 0, 0, 0],
   [0, 0, 0, 0, 0, 0, 0, 0, 0],
   [0, 0, 0, 0, 0, 0, 0, 0, 0],
   [0, 0, 0, 0, 0, 0, 0, 0, 0],
   [0, 0, 0, 0, 0, 0, 0, 0, 0],
   [0, 0, 0, 0, 0, 0, 0, 0, 0],
   [0, 0, 0, 0, 0, 0, 0, 0, 0],
   [0, 0, 0, 0, 0, 0, 0, 0, 0]]

/-! ## Facts about getmoves -/

/-- The array `contains` in which exactly the values selected by `Z` were struck out. -/
def maskOf (Z : Nat → Bool) : List Nat :=
  [1, 2, 3, 4, 5, 6, 7, 8, 9].map (fun w => if Z w then 0 else w)

/-- The values struck out by one round of the row/column loop. -/
def lineHit (arr : Grid) (x y loop w : Nat) : Bool :=
  (arr x loop == w && (arr x loop != 0 && loop != y)) ||
    (arr loop y == w && (arr loop y != 0 && loop != x))

/-- The values struck out by one round of the inner 3*3 loop. -/
def boxHit (arr : Grid) (x y loop inn w : Nat) : Bool :=
  arr (x / 3 * 3 + loop) (y / 3 * 3 + inn) == w &&
    (arr (x / 3 * 3 + loop) (y / 3 * 3 + inn) != 0 && x / 3 + loop != x && y / 3 + inn != y)

theorem maskOf_none : maskOf (fun _ => false) = [1, 2, 3, 4, 5, 6, 7, 8, 9] := by
  simp [maskOf]

theorem maskOf_congr {Z Z' : Nat → Bool} (h : ∀ w, Z w = Z' w) : maskOf Z = maskOf Z' := by
  have : Z = Z' := funext h
  rw [this]

theorem strike_maskOf (Z : Nat → Bool) (cond : Bool) (v : Nat) (hv : cond = true → v ≠ 0) :
    strike (maskOf Z) cond v = maskOf (fun w => Z w || (v == w && cond)) := by
  unfold strike
  cases cond with
  | false => simp
  | true =>
    have hv0 : v ≠ 0 := hv rfl
    simp only [if_true, Bool.and_true]
    by_cases h9 : v ≤ 9
    · interval_cases v <;> simp_all [maskOf]
    · rw [List.set_eq_of_length_le (by simp [maskOf]; omega)]
      unfold maskOf
      apply List.map_congr_left
      intro w hw
      have hw9 : w ≤ 9 := by
        simp at hw
        omega
      have : (v == w) = false := by
        simp
        omega
      simp [this]

theorem lineStep_maskOf (arr : Grid) (x y : Nat) (Z : Nat → Bool) (loop : Nat) :
    lineStep arr x y (maskOf Z) loop = maskOf (fun w => Z w || lineHit arr x y loop w) := by
  unfold lineStep
  simp only []
  rw [strike_maskOf _ _ _ (by intro h; simp at h; exact h.1),
    strike_maskOf _ _ _ (by intro h; simp at h; exact h.1)]
  apply maskOf_congr
  intro w
  simp [lineHit, Bool.or_assoc]

theorem boxStep_maskOf (arr : Grid) (x y loop : Nat) (Z : Nat → Bool) (inn : Nat) :
    boxStep arr x y loop (maskOf Z) inn = maskOf (fun w => Z w || boxHit arr x y loop inn w) := by
  unfold boxStep
  simp only []
  rw [strike_maskOf _ _ _ (by intro h; simp at h; exact h.1.1)]
  apply maskOf_congr
  intro w
  simp [boxHit, Bool.and_assoc]

theorem foldl_lineStep_maskOf (arr : Grid) (x y : Nat) (l : List Nat) (Z : Nat → Bool) :
    l.foldl (lineStep arr x y) (maskOf Z) =
      maskOf (fun w => Z w || l.any (fun loop => lineHit arr x y loop w)) := by
  induction l generalizing Z with
  | nil => simp
  | cons a l ih =>
    rw [List.foldl_cons, lineStep_maskOf, ih]
    apply maskOf_congr
    intro w
    simp [Bool.or_assoc]

theorem foldl_boxStep_maskOf (arr : Grid) (x y loop : Nat) (l : List Nat) (Z : Nat → Bool) :
    l.foldl (boxStep arr x y loop) (maskOf Z) =
      maskOf (fun w => Z w || l.any (fun inn => boxHit arr x y loop inn w)) := by
  induction l generalizing Z with
  | nil => simp
  | cons a l ih =>
    rw [List.foldl_cons, boxStep_maskOf, ih]
    apply maskOf_congr
    intro w
    simp [Bool.or_assoc]

theorem foldl_box_maskOf (arr : Grid) (x y : Nat) (li l : List Nat) (Z : Nat → Bool) :
    l.foldl (fun c loop => li.foldl (boxStep arr x y loop) c) (maskOf Z) =
      maskOf (fun w => Z w || l.any (fun loop => li.any (fun inn => boxHit arr x y loop inn w))) := by
  induction l generalizing Z with
  | nil => simp
  | cons a l ih =>
    rw [List.foldl_cons, foldl_boxStep_maskOf, ih]
    apply maskOf_congr
    intro w
    simp [Bool.or_assoc]

theorem getmovesContains_eq (arr : Grid) (x y : Nat) :
    getmovesContains arr x y =
      maskOf (fun w => (List.range 9).any (fun loop => lineHit arr x y loop w) ||
        (List.range 3).any (fun loop => (List.range 3).any (fun inn => boxHit arr x y loop inn w))) := by
  unfold getmovesContains
  simp only []
  rw [← maskOf_none, foldl_lineStep_maskOf, foldl_box_maskOf]
  apply maskOf_congr
  intro w
  simp

theorem mem_filter_maskOf (Z : Nat → Bool) (v : Nat) :
    v ∈ (maskOf Z).filter (fun v => v != 0) ↔ 1 ≤ v ∧ v ≤ 9 ∧ Z v = false := by
  simp only [maskOf, List.mem_filter, List.mem_map]
  constructor
  · rintro ⟨⟨w, hw, hwv⟩, hv⟩
    have hv0 : v ≠ 0 := by simpa using hv
    by_cases hZ : Z w = true
    · simp [hZ] at hwv
      omega
    · simp [hZ] at hwv
      subst hwv
      simp at hw
      refine ⟨by omega, by omega, by simpa using hZ⟩
  · rintro ⟨h1, h9, hZ⟩
    refine ⟨⟨v, ?_, by simp [hZ]⟩, by simp; omega⟩
    simp
    omega

/-- What `getmoves` returns: the values 1..9 met neither in the row, nor in the column,
nor in those cells of the 3*3 block that pass the test `x/3 + loop != x && y/3 + inn != y`. -/
theorem mem_getmoves (arr : Grid) (x y v : Nat) :
    v ∈ (getmoves arr x y).array ↔
      1 ≤ v ∧ v ≤ 9 ∧
      (∀ loop, loop < 9 → loop ≠ y → arr x loop ≠ v) ∧
      (∀ loop, loop < 9 → loop ≠ x → arr loop y ≠ v) ∧
      (∀ loop, loop < 3 → ∀ inn, inn < 3 → x / 3 + loop ≠ x → y / 3 + inn ≠ y →
        arr (x / 3 * 3 + loop) (y / 3 * 3 + inn) ≠ v) := by
  unfold getmoves
  simp only []
  rw [getmovesContains_eq, mem_filter_maskOf]
  constructor
  · rintro ⟨h1, h9, hZ⟩
    simp only [Bool.or_eq_false_iff, List.any_eq_false, List.mem_range, Bool.not_eq_true] at hZ
    refine ⟨h1, h9, ?_, ?_, ?_⟩
    · intro loop hl hy he
      have := hZ.1 loop hl
      simp [lineHit, he, hy] at this
      omega
    · intro loop hl hx he
      have := hZ.1 loop hl
      simp [lineHit, he, hx] at this
      omega
    · intro loop hl inn hi hx hy he
      have := hZ.2 loop hl inn hi
      simp [boxHit, he, hx, hy] at this
      omega
  · rintro ⟨h1, h9, hr, hc, hb⟩
    refine ⟨h1, h9, ?_⟩
    simp only [Bool.or_eq_false_iff, List.any_eq_false, List.mem_range, Bool.not_eq_true]
    constructor
    · intro loop hl
      rw [← Bool.not_eq_true]
      simp only [lineHit, Bool.or_eq_true, Bool.and_eq_true, beq_iff_eq, bne_iff_ne, not_or, not_and]
      exact ⟨fun he _ hy => hr loop hl hy he, fun he _ hx => hc loop hl hx he⟩
    · intro loop hl inn hi
      rw [← Bool.not_eq_true]
      simp only [boxHit, Bool.and_eq_true, beq_iff_eq, bne_iff_ne, not_and]
      intro he hx hy
      exact hb loop hl inn hi hx.2 hy he

theorem getmoves_num (arr : Grid) (x y : Nat) :
    (getmoves arr x y).num = (getmoves arr x y).array.length := rfl

/-! ## Forced placements -/

theorem getmoves_array_length_le (arr : Grid) (x y : Nat) :
    (getmoves arr x y).array.length ≤ 9 := by
  unfold getmoves
  simp only []
  rw [getmovesContains_eq]
  calc ((maskOf _).filter _).length ≤ (maskOf _).length := List.length_filter_le _ _
    _ = 9 := by simp [maskOf]

theorem getmoves_num_le (arr : Grid) (x y : Nat) : (getmoves arr x y).num ≤ 9 :=
  getmoves_array_length_le arr x y

/-- With `num == 1` the value `array[0]` is the one available value. -/
theorem getmoves_single (arr : Grid) (x y : Nat) (h : (getmoves arr x y).num = 1) :
    (getmoves arr x y).array = [(getmoves arr x y).array.getD 0 0] := by
  rw [getmoves_num] at h
  match hm : (getmoves arr x y).array, h with
  | [a], _ => simp

theorem getmoves_single_mem (arr : Grid) (x y : Nat) (h : (getmoves arr x y).num = 1) :
    (getmoves arr x y).array.getD 0 0 ∈ (getmoves arr x y).array := by
  have := getmoves_single arr x y h
  rw [this]
  simp

theorem setmoves_same (f : Nat → Nat → moves) (x y : Nat) (m : moves) :
    setmoves f x y m x y = m := by
  simp [setmoves]

theorem setmoves_other (f : Nat → Nat → moves) (x y : Nat) (m : moves) (i j : Nat)
    (h : ¬ (i = x ∧ j = y)) : setmoves f x y m i j = f i j := by
  simp [setmoves, h]

theorem Grid.set_same (g : Grid) (x y v : Nat) : g.set x y v x y = v := by
  simp [Grid.set]

theorem Grid.set_other (g : Grid) (x y v i j : Nat) (h : ¬ (i = x ∧ j = y)) :
    g.set x y v i j = g i j := by
  simp [Grid.set, h]

theorem ForcedStep.frame_step {g g' : Grid} (h : ForcedStep g g') (i j : Nat) (hij : g i j ≠ 0) :
    g' i j = g i j := by
  obtain ⟨x, y, _, _, h0, _, rfl⟩ := h
  apply Grid.set_other
  rintro ⟨rfl, rfl⟩
  exact hij h0

theorem ForcedN.frame {n : Nat} {g g' : Grid} (h : ForcedN n g g') (i j : Nat)
    (hij : g i j ≠ 0) : g' i j = g i j := by
  induction h with
  | refl => rfl
  | step hs _ ih =>
    have h1 := hs.frame_step i j hij
    rw [ih (by rw [h1]; exact hij), h1]

theorem ForcedN.zero_eq {g g' : Grid} (h : ForcedN 0 g g') : g' = g := by
  cases h
  rfl

/-! ## The sweep -/

theorem cells_nodup : cells.Nodup := by decide

theorem cells_lt : ∀ c ∈ cells, c.1 < 9 ∧ c.2 < 9 := by decide

theorem mem_cells (x y : Nat) (hx : x < 9) (hy : y < 9) : (x, y) ∈ cells := by
  simp only [cells, List.mem_flatMap, List.mem_map, List.mem_range]
  exact ⟨x, hx, y, hy, rfl⟩

theorem pass_spec (head : List board) (cs : List (Nat × Nat)) :
    ∀ (cur : board) (l : locals), cs.Nodup → (∀ c ∈ cs, c.1 < 9 ∧ c.2 < 9) → Sel cur l cs →
      PassSpec head cs cur l (pass head cs cur l) := by
  induction cs with
  | nil =>
    intro cur l _ _ hsel
    rw [pass]
    refine ⟨rfl, ⟨0, ForcedN.refl _, by simp⟩, ?_, hsel⟩
    intro h
    refine ⟨h, ?_⟩
    intro c hc
    simp at hc
  | cons c cs ih =>
    obtain ⟨x, y⟩ := c
    intro cur l hnd hlt hsel
    have hxy : x < 9 ∧ y < 9 := hlt (x, y) (List.mem_cons_self _ _)
    have hnd' : cs.Nodup := (List.nodup_cons.mp hnd).2
    have hnotin : (x, y) ∉ cs := (List.nodup_cons.mp hnd).1
    have hlt' : ∀ c ∈ cs, c.1 < 9 ∧ c.2 < 9 := fun c hc => hlt c (List.mem_cons_of_mem _ hc)
    rw [pass]
    by_cases h0 : cur.arr x y = 0
    · rw [if_pos h0]
      simp only [setmoves_same]
      by_cases h1 : (getmoves cur.arr x y).num = 1
      · -- a forced placement
        rw [if_pos h1]
        have hstep : ForcedStep cur.arr (cur.arr.set x y ((getmoves cur.arr x y).array.getD 0 0)) :=
          ⟨x, y, hxy.1, hxy.2, h0, h1, rfl⟩
        have hv : (getmoves cur.arr x y).array.getD 0 0 ≠ 0 := by
          have := (mem_getmoves _ _ _ _).mp (getmoves_single_mem cur.arr x y h1)
          omega
        have hsel1 : Sel
            { arr := cur.arr.set x y ((getmoves cur.arr x y).array.getD 0 0)
              moves := setmoves cur.moves x y (getmoves cur.arr x y)
              tried := cur.tried }
            { l with taken := true } cs := by
          refine ⟨hsel.1, ?_⟩
          intro hs
          obtain ⟨a1, a2, a3, a4, a5, _⟩ := hsel.2 hs
          have hne : ¬ (l.smallx = x ∧ l.smally = y) := by
            rintro ⟨rfl, rfl⟩
            exact a4 (List.mem_cons_self _ _)
          refine ⟨a1, a2, a3, fun hm => a4 (List.mem_cons_of_mem _ hm), ?_, ?_⟩
          · simp only [setmoves_other _ _ _ _ _ _ hne]
            exact a5
          · intro ht
            simp at ht
        have := ih _ _ hnd' hlt' hsel1
        revert this
        generalize pass head cs _ _ = r
        intro hr
        cases r with
        | completed cur' l' =>
          obtain ⟨t1, ⟨n, t2, t3⟩, t4, t5⟩ := hr
          refine ⟨t1, ⟨n + 1, ForcedN.step hstep t2, ?_⟩, ?_, t5⟩
          · rw [t3]
            simp
          · intro hs
            obtain ⟨s1, s2⟩ := t4 hs
            refine ⟨s1, ?_⟩
            intro c hc
            rcases List.mem_cons.mp hc with rfl | hc
            · have hf := t2.frame x y (by simpa [Grid.set_same] using hv)
              simp only [Grid.set_same] at hf ⊢
              rw [hf]
              exact hv
            · exact s2 c hc
        | popped top rest l' =>
          obtain ⟨t1, n, g', t2, t3⟩ := hr
          exact ⟨t1, n + 1, g', ForcedN.step hstep t2, t3⟩
        | invalid cur' l' =>
          obtain ⟨t1, t2, n, t3, t4⟩ := hr
          exact ⟨t1, t2, n + 1, ForcedN.step hstep t3, t4⟩
      · rw [if_neg h1]
        by_cases h2 : (getmoves cur.arr x y).num = 0
        · -- no value available
          rw [if_pos h2]
          have hstuck : Stuck cur.arr := ⟨x, y, hxy.1, hxy.2, h0, h2⟩
          cases head with
          | nil => exact ⟨rfl, rfl, 0, ForcedN.refl _, hstuck⟩
          | cons top rest => exact ⟨rfl, 0, cur.arr, ForcedN.refl _, hstuck⟩
        · -- two or more values available
          rw [if_neg h2]
          have hnum9 := getmoves_num_le cur.arr x y
          have key : ∀ l2 : locals, l2.solved = false →
              Sel
                { arr := cur.arr
                  moves := setmoves cur.moves x y (getmoves cur.arr x y)
                  tried := cur.tried } l2 cs →
              l2.taken = l.taken →
              PassSpec head ((x, y) :: cs) cur l
                (pass head cs
                  { arr := cur.arr
                    moves := setmoves cur.moves x y (getmoves cur.arr x y)
                    tried := cur.tried } l2) := by
            intro l2 hs2 hsel2 htk
            have := ih _ l2 hnd' hlt' hsel2
            revert this
            generalize pass head cs _ _ = r
            intro hr
            cases r with
            | completed cur' l' =>
              obtain ⟨t1, ⟨n, t2, t3⟩, t4, t5⟩ := hr
              refine ⟨t1, ⟨n, t2, by rw [t3, htk]⟩, ?_, t5⟩
              intro hs
              have := (t4 hs).1
              rw [hs2] at this
              exact absurd this (by simp)
            | popped top rest l' => exact hr
            | invalid cur' l' => exact hr
          by_cases h3 : (getmoves cur.arr x y).num < l.small
          · simp only [h3, if_true]
            refine key ⟨false, l.taken, (getmoves cur.arr x y).num, x, y⟩ rfl ?_ rfl
            refine ⟨by simp, ?_⟩
            intro _
            refine ⟨hxy.1, hxy.2, by simp only; omega, hnotin, by simp [setmoves_same], ?_⟩
            intro _
            simp [h0, setmoves_same]
          · simp only [h3, if_false]
            refine key ⟨false, l.taken, l.small, l.smallx, l.smally⟩ rfl ?_ rfl
            refine ⟨by simp, ?_⟩
            intro _
            have hsolved : l.solved = false := by
              cases hls : l.solved with
              | false => rfl
              | true =>
                have := hsel.1 hls
                omega
            obtain ⟨a1, a2, a3, a4, a5, a6⟩ := hsel.2 hsolved
            have hne : ¬ (l.smallx = x ∧ l.smally = y) := by
              rintro ⟨rfl, rfl⟩
              exact a4 (List.mem_cons_self _ _)
            refine ⟨a1, a2, a3, fun hm => a4 (List.mem_cons_of_mem _ hm), ?_, ?_⟩
            · simp only [setmoves_other _ _ _ _ _ _ hne]
              exact a5
            · intro ht
              simp only [setmoves_other _ _ _ _ _ _ hne]
              exact a6 ht
    · rw [if_neg h0]
      have hsel1 : Sel cur l cs := by
        refine ⟨hsel.1, fun hs => ?_⟩
        obtain ⟨a1, a2, a3, a4, a5, a6⟩ := hsel.2 hs
        exact ⟨a1, a2, a3, fun hm => a4 (List.mem_cons_of_mem _ hm), a5, a6⟩
      have := ih cur l hnd' hlt' hsel1
      revert this
      generalize pass head cs cur l = r
      intro hr
      cases r with
      | completed cur' l' =>
        obtain ⟨t1, ⟨n, t2, t3⟩, t4, t5⟩ := hr
        refine ⟨t1, ⟨n, t2, t3⟩, ?_, t5⟩
        intro hs
        obtain ⟨s1, s2⟩ := t4 hs
        refine ⟨s1, ?_⟩
        intro c hc
        rcases List.mem_cons.mp hc with rfl | hc
        · have hf := t2.frame x y h0
          simp only
          rw [hf]
          exact h0
        · exact s2 c hc
      | popped top rest l' => exact hr
      | invalid cur' l' => exact hr

/-! ## One run through the loop body -/

theorem contains_iff (cur : board) (x y v : Nat) :
    contains cur x y v = true ↔ (⟨x, y, v⟩ : tried) ∈ cur.tried := by
  unfold contains
  rw [List.any_eq_true]
  constructor
  · rintro ⟨t, ht, h⟩
    simp only [Bool.and_eq_true, beq_iff_eq] at h
    obtain ⟨⟨h1, h2⟩, h3⟩ := h
    obtain ⟨tx, ty, tv⟩ := t
    simp only at h1 h2 h3
    subst h1 h2 h3
    exact ht
  · intro h
    exact ⟨_, h, by simp⟩

theorem pickGuess_none (cur : board) (sx sy : Nat) :
    ∀ (n rand : Nat), pickGuess cur sx sy n rand = none →
      ∀ i, rand ≤ i → i < rand + n →
        contains cur sx sy ((cur.moves sx sy).array.getD i 0) = true := by
  intro n
  induction n with
  | zero =>
    intro rand _ i h1 h2
    omega
  | succ n ih =>
    intro rand h i h1 h2
    rw [pickGuess] at h
    by_cases hc : contains cur sx sy ((cur.moves sx sy).array.getD rand 0) = true
    · rw [if_pos hc] at h
      by_cases hi : i = rand
      · subst hi
        exact hc
      · exact ih (rand + 1) h i (by omega) (by omega)
    · rw [if_neg hc] at h
      exact absurd h (by simp)

theorem pickGuess_some (cur : board) (sx sy : Nat) :
    ∀ (n rand v : Nat), pickGuess cur sx sy n rand = some v →
      ∃ i, rand ≤ i ∧ i < rand + n ∧ v = (cur.moves sx sy).array.getD i 0 ∧
        contains cur sx sy v = false ∧
        ∀ j, rand ≤ j → j < i → contains cur sx sy ((cur.moves sx sy).array.getD j 0) = true := by
  intro n
  induction n with
  | zero =>
    intro rand v h
    rw [pickGuess] at h
    exact absurd h (by simp)
  | succ n ih =>
    intro rand v h
    rw [pickGuess] at h
    by_cases hc : contains cur sx sy ((cur.moves sx sy).array.getD rand 0) = true
    · rw [if_pos hc] at h
      obtain ⟨i, h1, h2, h3, h4, h5⟩ := ih (rand + 1) v h
      refine ⟨i, by omega, by omega, h3, h4, ?_⟩
      intro j hj1 hj2
      by_cases hj : j = rand
      · subst hj
        exact hc
      · exact h5 j (by omega) hj2
    · rw [if_neg hc] at h
      simp only [Option.some.injEq] at h
      subst h
      refine ⟨rand, le_refl _, by omega, rfl, by simpa using hc, ?_⟩
      intro j hj1 hj2
      omega

theorem mem_of_getD {l : List Nat} {i : Nat} (h : i < l.length) : l.getD i 0 ∈ l := by
  rw [List.getD_eq_getElem _ _ h]
  exact List.getElem_mem h

theorem exists_getD_of_mem {l : List Nat} {v : Nat} (h : v ∈ l) :
    ∃ i, i < l.length ∧ l.getD i 0 = v := by
  obtain ⟨i, hi, rfl⟩ := List.getElem_of_mem h
  exact ⟨i, hi, List.getD_eq_getElem _ _ hi⟩

/-- Every run through the loop body is one of the five cases of `IterSpec`. -/
theorem iteration_spec (s : State) : IterSpec s (iteration s) := by
  have hp := pass_spec s.head cells s.current ⟨true, false, 10, s.smallx, s.smally⟩
    cells_nodup cells_lt ⟨by simp, by simp⟩
  unfold iteration
  revert hp
  generalize pass s.head cells s.current ⟨true, false, 10, s.smallx, s.smally⟩ = r
  intro hp
  cases r with
  | invalid cur' l' =>
    obtain ⟨h1, _, n, h3, h4⟩ := hp
    exact IterSpec.invalid _ h1 rfl (Or.inl ⟨n, _, h3, h4⟩)
  | popped top rest l' =>
    obtain ⟨h1, n, g', h2, h3⟩ := hp
    exact IterSpec.pop _ h1 (Or.inl ⟨n, g', h2, h3⟩)
  | completed cur' l' =>
    obtain ⟨h1, ⟨n, h2, h3⟩, h4, h5⟩ := hp
    simp only [Bool.false_or] at h3
    simp only
    by_cases hg : (!l'.solved && !l'.taken) = true
    · rw [if_pos hg]
      simp only [Bool.and_eq_true, Bool.not_eq_true', Bool.not_eq_eq_eq_not, Bool.not_true] at hg
      obtain ⟨hs, ht⟩ := hg
      have hn : n = 0 := by
        rw [ht] at h3
        simpa using h3.symm
      subst hn
      have harr : cur'.arr = s.current.arr := h2.zero_eq
      obtain ⟨a1, a2, a3, _, a5, a6⟩ := h5.2 hs
      obtain ⟨a7, a8⟩ := a6 ht
      rw [harr] at a7 a8
      have hlen : (getmoves s.current.arr l'.smallx l'.smally).array.length = l'.small := by
        rw [← getmoves_num, ← a8]
        exact a5
      cases hpick : pickGuess cur' l'.smallx l'.smally l'.small 0 with
      | none =>
        have hall := pickGuess_none cur' _ _ _ _ hpick
        have hdead : Dead s.current := by
          refine Or.inr ⟨l'.smallx, l'.smally, a1, a2, a7, ?_⟩
          intro v hv
          obtain ⟨i, hi, rfl⟩ := exists_getD_of_mem hv
          have := hall i (Nat.zero_le _) (by omega)
          rw [a8, contains_iff, h1] at this
          exact this
        simp only [backtrack]
        cases hh : s.head with
        | nil => exact IterSpec.invalid _ hh rfl hdead
        | cons top rest => exact IterSpec.pop _ hh hdead
      | some v =>
        obtain ⟨i, _, hi, hv, hc, _⟩ := pickGuess_some cur' _ _ _ _ _ hpick
        rw [a8] at hv
        have hmem : v ∈ (getmoves s.current.arr l'.smallx l'.smally).array := by
          rw [hv]
          exact mem_of_getD (by omega)
        have hnot : (⟨l'.smallx, l'.smally, v⟩ : tried) ∉ s.current.tried := by
          rw [← h1, ← contains_iff]
          simp [hc]
        simp only
        refine IterSpec.guess _ l'.smallx l'.smally v
          { cur' with tried := ⟨l'.smallx, l'.smally, v⟩ :: cur'.tried }
          a1 a2 a7 hmem ?_ hnot rfl harr ?_ ?_ rfl
        · rw [← a8, a5]
          exact a3
        · simp only [h1]
        · simp only [takeGuess, boardcopy, harr]
    · rw [if_neg hg]
      by_cases hs : l'.solved = true
      · rw [if_pos hs]
        refine IterSpec.solved _ n rfl h1 h2 ?_
        intro x y hx hy
        exact (h4 hs).2 (x, y) (mem_cells x y hx hy)
      · rw [if_neg hs]
        have ht : l'.taken = true := by
          simp only [Bool.and_eq_true, Bool.not_eq_true', Bool.not_eq_eq_eq_not, Bool.not_true,
            not_and, Bool.not_eq_false] at hg
          exact hg (by simpa using hs)
        have hn : 0 < n := by
          rw [ht] at h3
          simpa using h3.symm
        obtain ⟨m, rfl⟩ : ∃ m, n = m + 1 := ⟨n - 1, by omega⟩
        exact IterSpec.progress _ m rfl h1 h2

/-! ## Runs of the loop -/

theorem iterate_succ_of_again {s s' : State} (h : iteration s = .again s') (k : Nat) :
    iterate (k + 1) s = iterate k s' := by
  rw [iterate, h]

theorem iterate_succ_none {s : State} (h : ∀ t, iteration s ≠ .again t) (k : Nat) :
    iterate (k + 1) s = none := by
  rw [iterate]
  cases hi : iteration s with
  | again t => exact absurd hi (h t)
  | solved t => rfl
  | invalid t => rfl

theorem solveboard_succ_of_again {s s' : State} (h : iteration s = .again s') (n : Nat) :
    solveboard (n + 1) s = solveboard n s' := by
  rw [solveboard, h]

theorem solveboard_succ_of_stop {s : State} (h : ∀ t, iteration s ≠ .again t) (n : Nat) :
    solveboard (n + 1) s = some (iteration s) := by
  rw [solveboard]
  cases hi : iteration s with
  | again t => exact absurd hi (h t)
  | solved t => rfl
  | invalid t => rfl

/-- A result of `solveboard` is the result of the last run through the loop body. -/
theorem solveboard_some {n : Nat} {s : State} {r : outcome} (h : solveboard n s = some r) :
    ∃ k s', k < n ∧ iterate k s = some s' ∧ iteration s' = r ∧ ∀ t, r ≠ .again t := by
  induction n generalizing s with
  | zero => simp [solveboard] at h
  | succ n ih =>
    cases hi : iteration s with
    | again t =>
      rw [solveboard_succ_of_again hi] at h
      obtain ⟨k, s', h1, h2, h3, h4⟩ := ih h
      exact ⟨k + 1, s', by omega, by rw [iterate_succ_of_again hi]; exact h2, h3, h4⟩
    | solved t =>
      rw [solveboard_succ_of_stop (by rw [hi]; simp), hi] at h
      simp only [Option.some.injEq] at h
      subst h
      exact ⟨0, s, by omega, rfl, hi, by simp⟩
    | invalid t =>
      rw [solveboard_succ_of_stop (by rw [hi]; simp), hi] at h
      simp only [Option.some.injEq] at h
      subst h
      exact ⟨0, s, by omega, rfl, hi, by simp⟩

theorem solveboard_of_iterate {k : Nat} {s s' : State} (h : iterate k s = some s')
    (hstop : ∀ t, iteration s' ≠ .again t) : solveboard (k + 1) s = some (iteration s') := by
  induction k generalizing s with
  | zero =>
    simp only [iterate, Option.some.injEq] at h
    subst h
    exact solveboard_succ_of_stop hstop 0
  | succ k ih =>
    cases hi : iteration s with
    | again t =>
      rw [iterate_succ_of_again hi] at h
      rw [solveboard_succ_of_again hi]
      exact ih h
    | solved t =>
      rw [iterate_succ_none (by rw [hi]; simp)] at h
      simp at h
    | invalid t =>
      rw [iterate_succ_none (by rw [hi]; simp)] at h
      simp at h

/-- A property of the start state that every run through the loop body keeps holds
at every state of the run. -/
theorem iterate_invariant (P : State → Prop)
    (hstep : ∀ a b, P a → iteration a = .again b → P b) :
    ∀ (k : Nat) (s s' : State), P s → iterate k s = some s' → P s' := by
  intro k
  induction k with
  | zero =>
    intro s s' hs h
    simp only [iterate, Option.some.injEq] at h
    subst h
    exact hs
  | succ k ih =>
    intro s s' hs h
    cases hi : iteration s with
    | again t =>
      rw [iterate_succ_of_again hi] at h
      exact ih t s' (hstep s t hs hi) h
    | solved t =>
      rw [iterate_succ_none (by rw [hi]; simp)] at h
      simp at h
    | invalid t =>
      rw [iterate_succ_none (by rw [hi]; simp)] at h
      simp at h

theorem iterate_add (i j : Nat) (s : State) :
    iterate (i + j) s = (iterate i s).bind (iterate j) := by
  induction i generalizing s with
  | zero => simp [iterate]
  | succ i ih =>
    rw [Nat.add_right_comm]
    cases hi : iteration s with
    | again t =>
      rw [iterate_succ_of_again hi, iterate_succ_of_again hi]
      exact ih t
    | solved t =>
      rw [iterate_succ_none (by rw [hi]; simp), iterate_succ_none (by rw [hi]; simp)]
      rfl
    | invalid t =>
      rw [iterate_succ_none (by rw [hi]; simp), iterate_succ_none (by rw [hi]; simp)]
      rfl

/-! ## Counting empty cells and untried guesses -/

theorem countP_flip {α : Type} [DecidableEq α] (p p' : α → Bool) (c : α) :
    ∀ (l : List α), l.Nodup → c ∈ l → (∀ a ∈ l, a ≠ c → p' a = p a) → p c = true →
      p' c = false → l.countP p' + 1 = l.countP p := by
  intro l
  induction l with
  | nil =>
    intro _ hc
    simp at hc
  | cons a l ih =>
    intro hnd hc hsame hp hp'
    obtain ⟨hal, hnd'⟩ := List.nodup_cons.mp hnd
    by_cases hac : a = c
    · subst hac
      have hrest : l.countP p' = l.countP p := by
        apply List.countP_congr
        intro b hb
        have hne : b ≠ a := by
          rintro rfl
          exact hal hb
        rw [hsame b (List.mem_cons_of_mem _ hb) hne]
      rw [List.countP_cons_of_pos _ _ hp, List.countP_cons_of_neg _ _ (by simp [hp']), hrest]
    · have hcl : c ∈ l := by
        rcases List.mem_cons.mp hc with h | h
        · exact absurd h.symm hac
        · exact h
      have ih' := ih hnd' hcl (fun b hb hne => hsame b (List.mem_cons_of_mem _ hb) hne) hp hp'
      have ha : p' a = p a := hsame a (List.mem_cons_self _ _) hac
      rw [List.countP_cons, List.countP_cons, ha]
      omega

theorem emptyCount_set (g : Grid) (x y v : Nat) (hx : x < 9) (hy : y < 9) (h0 : g x y = 0)
    (hv : v ≠ 0) : emptyCount (g.set x y v) + 1 = emptyCount g := by
  unfold emptyCount
  apply countP_flip _ _ (x, y) cells cells_nodup (mem_cells x y hx hy)
  · intro a _ hne
    have : ¬ (a.1 = x ∧ a.2 = y) := by
      rintro ⟨h1, h2⟩
      exact hne (Prod.ext h1 h2)
    simp only [Grid.set_other _ _ _ _ _ _ this]
  · simp [h0]
  · simp [Grid.set_same, hv]

theorem getmoves_single_ne_zero (g : Grid) (x y : Nat) (h : (getmoves g x y).num = 1) :
    (getmoves g x y).array.getD 0 0 ≠ 0 := by
  have := (mem_getmoves _ _ _ _).mp (getmoves_single_mem g x y h)
  omega

theorem ForcedStep.emptyCount_succ {g g' : Grid} (h : ForcedStep g g') :
    SudokuSolver.emptyCount g' + 1 = SudokuSolver.emptyCount g := by
  obtain ⟨x, y, hx, hy, h0, h1, rfl⟩ := h
  exact emptyCount_set g x y _ hx hy h0 (getmoves_single_ne_zero g x y h1)

theorem ForcedN.emptyCount_add {n : Nat} {g g' : Grid} (h : ForcedN n g g') :
    SudokuSolver.emptyCount g' + n = SudokuSolver.emptyCount g := by
  induction h with
  | refl => rfl
  | step hs _ ih =>
    have := hs.emptyCount_succ
    omega

theorem mem_allTriples (x y v : Nat) (hx : x < 9) (hy : y < 9) (h1 : 1 ≤ v) (h9 : v ≤ 9) :
    (⟨x, y, v⟩ : tried) ∈ allTriples := by
  simp only [allTriples, List.mem_flatMap, List.mem_map, List.mem_range]
  exact ⟨(x, y), mem_cells x y hx hy, v - 1, by omega, by simp; omega⟩

set_option maxRecDepth 100000 in
theorem allTriples_length : allTriples.length = 729 := by
  decide

theorem untried_le (ts : List tried) : untried ts ≤ 729 := by
  unfold untried
  calc allTriples.countP _ ≤ allTriples.length := List.countP_le_length _
    _ = 729 := allTriples_length

theorem countP_lt_of_witness {α : Type} (p p' : α → Bool) (c : α) :
    ∀ (l : List α), c ∈ l → (∀ a, p' a = true → p a = true) → p c = true → p' c = false →
      l.countP p' + 1 ≤ l.countP p := by
  intro l
  induction l with
  | nil =>
    intro hc
    simp at hc
  | cons a l ih =>
    intro hc hsub hp hp'
    have hmono : l.countP p' ≤ l.countP p := List.countP_mono_left (fun b _ => hsub b) 
    rcases List.mem_cons.mp hc with h | h
    · subst h
      rw [List.countP_cons_of_pos _ _ hp, List.countP_cons_of_neg _ _ (by simp [hp'])]
      omega
    · have ih' := ih h hsub hp hp'
      by_cases ha : p' a = true
      · rw [List.countP_cons_of_pos _ _ ha, List.countP_cons_of_pos _ _ (hsub a ha)]
        omega
      · rw [List.countP_cons_of_neg _ _ ha, List.countP_cons]
        omega

theorem untried_cons (t : tried) (ts : List tried) (hmem : t ∈ allTriples) (hnew : t ∉ ts) :
    untried (t :: ts) + 1 ≤ untried ts := by
  unfold untried
  apply countP_lt_of_witness _ _ t allTriples hmem
  · intro a ha
    simp only [decide_eq_true_eq, List.mem_cons, not_or] at ha ⊢
    exact ha.2
  · simpa using hnew
  · simp

/-! ## The potential gets smaller -/

theorem weight_lt_of_lt {e e' : Nat} (h : e' < e) (u : Nat) : weight e' u < weight e u := by
  unfold weight
  have hp : 731 ^ e' < 731 ^ e := Nat.pow_lt_pow_right (by norm_num) h
  have : 2 * 731 ^ e' < 2 * 731 ^ e := by omega
  exact Nat.mul_lt_mul_of_pos_left this (by omega)

theorem weight_guess (e u u' uc : Nat) (hu : u' + 1 ≤ u) (hc : uc ≤ 729) :
    weight e uc + (weight (e + 1) u' + 1) < weight (e + 1) u := by
  unfold weight
  have hA : 1 ≤ 731 ^ e := Nat.one_le_pow _ _ (by norm_num)
  have h1 : (uc + 1) * (2 * 731 ^ e) ≤ 730 * (2 * 731 ^ e) := Nat.mul_le_mul_right _ (by omega)
  have h2 : (u' + 1) * (2 * 731 ^ (e + 1)) ≤ u * (2 * 731 ^ (e + 1)) :=
    Nat.mul_le_mul_right _ hu
  have h3 : (u + 1) * (2 * 731 ^ (e + 1)) = u * (2 * 731 ^ (e + 1)) + 2 * 731 ^ (e + 1) := by
    ring
  have h4 : 731 ^ (e + 1) = 731 * 731 ^ e := by ring
  rw [h3]
  generalize u * (2 * 731 ^ (e + 1)) = U at h2 ⊢
  generalize (u' + 1) * (2 * 731 ^ (e + 1)) = V at h2 ⊢
  generalize (uc + 1) * (2 * 731 ^ e) = W at h1 ⊢
  rw [h4]
  generalize 731 ^ e = A at hA h1 ⊢
  omega

theorem potential_pop (g : Grid) (ts : List tried) (b : board) (rest : List board) :
    potential (b.arr, b.tried, rest.map (fun b => (b.arr, b.tried))) <
      potential (g, ts, (b :: rest).map (fun b => (b.arr, b.tried))) := by
  simp only [potential, List.map_cons, List.sum_cons]
  omega

/-- Every run through the loop body that comes back to `Done` lowers the potential. -/
theorem potential_decreases {s s' : State} (h : iteration s = .again s') :
    potential (config s') < potential (config s) := by
  have hspec := iteration_spec s
  rw [h] at hspec
  cases hspec with
  | progress _ n h1 h2 h3 =>
    have he := h3.emptyCount_add
    simp only [potential, config, h1, h2]
    have := weight_lt_of_lt (show emptyCount s'.current.arr < emptyCount s.current.arr by omega)
      (untried s.current.tried)
    omega
  | guess _ x y v b hx hy h0 hv _ hnew hhead harr htried hcur hcurt =>
    have hv' := (mem_getmoves _ _ _ _).mp hv
    have he := emptyCount_set s.current.arr x y v hx hy h0 (by omega)
    have hu := untried_cons ⟨x, y, v⟩ s.current.tried
      (mem_allTriples x y v hx hy hv'.1 hv'.2.1) hnew
    have hw := weight_guess (emptyCount (s.current.arr.set x y v)) (untried s.current.tried)
      (untried (⟨x, y, v⟩ :: s.current.tried)) (untried []) hu (untried_le _)
    rw [he] at hw
    simp only [potential, config, hhead, hcur, hcurt, List.map_cons, List.sum_cons, harr, htried]
    omega
  | pop _ hhead _ =>
    simp only [config, hhead]
    exact potential_pop _ _ _ _

/-- The loop of `solveboard` is left after finitely many runs through its body. -/
theorem solveboard_terminates (s : State) : ∃ n r, solveboard n s = some r := by
  generalize hm : potential (config s) = m
  induction m using Nat.strong_induction_on generalizing s with
  | _ m ih =>
    cases hi : iteration s with
    | again t =>
      have hlt := potential_decreases hi
      rw [hm] at hlt
      obtain ⟨n, r, hr⟩ := ih _ hlt t rfl
      exact ⟨n + 1, r, by rw [solveboard_succ_of_again hi]; exact hr⟩
    | solved t =>
      exact ⟨1, _, solveboard_succ_of_stop (by rw [hi]; simp) 0⟩
    | invalid t =>
      exact ⟨1, _, solveboard_succ_of_stop (by rw [hi]; simp) 0⟩

/-- Later states of a run have a smaller potential. -/
theorem potential_iterate_lt {s si sj : State} {i j : Nat} (hij : i < j)
    (hi : iterate i s = some si) (hj : iterate j s = some sj) :
    potential (config sj) < potential (config si) := by
  obtain ⟨d, rfl⟩ : ∃ d, j = i + (d + 1) := ⟨j - i - 1, by omega⟩
  rw [iterate_add, hi] at hj
  change iterate (d + 1) si = some sj at hj
  clear hi hij
  induction d generalizing si with
  | zero =>
    cases hit : iteration si with
    | again t =>
      rw [iterate_succ_of_again hit] at hj
      simp only [iterate, Option.some.injEq] at hj
      subst hj
      exact potential_decreases hit
    | solved t =>
      rw [iterate_succ_none (by rw [hit]; simp)] at hj
      simp at hj
    | invalid t =>
      rw [iterate_succ_none (by rw [hit]; simp)] at hj
      simp at hj
  | succ d ih =>
    cases hit : iteration si with
    | again t =>
      rw [iterate_succ_of_again hit] at hj
      exact lt_trans (ih hj) (potential_decreases hit)
    | solved t =>
      rw [iterate_succ_none (by rw [hit]; simp)] at hj
      simp at hj
    | invalid t =>
      rw [iterate_succ_none (by rw [hit]; simp)] at hj
      simp at hj

/-! ## What a placement keeps -/

theorem Keeps.refl (g : Grid) : Keeps g g := fun _ _ _ _ _ => rfl

theorem Keeps.trans {g1 g2 g3 : Grid} (h12 : Keeps g1 g2) (h23 : Keeps g2 g3) : Keeps g1 g3 := by
  intro x y hx hy h
  have h1 := h12 x y hx hy h
  rw [h23 x y hx hy (by rw [h1]; exact h), h1]

theorem Keeps.set_empty (g : Grid) (x y v : Nat) (h0 : g x y = 0) : Keeps g (g.set x y v) := by
  intro i j _ _ h
  apply Grid.set_other
  rintro ⟨rfl, rfl⟩
  exact h h0

theorem ForcedN.keeps {n : Nat} {g g' : Grid} (h : ForcedN n g g') : Keeps g g' :=
  fun x y _ _ hxy => h.frame x y hxy

/-- The offset of a cell within the box of another cell of the same box. -/
theorem box_offset {R x p : Nat} (hx : x / 3 = R) (hp : p / 3 = R) :
    p - x / 3 * 3 < 3 ∧ x / 3 * 3 + (p - x / 3 * 3) = p := by
  omega

/-- Outside the middle band the test `x/3 + loop != x` of `getmoves` lets every other
row of the box pass. -/
theorem corner_test {R x p : Nat} (hx : x / 3 = R) (hp : p / 3 = R) (hR : R ≠ 1) (hne : p ≠ x)
    (hx9 : x < 9) : x / 3 + (p - x / 3 * 3) ≠ x := by
  omega

/-- Writing a value that `getmoves` offers for an empty cell keeps rows, columns and
corner boxes free of repeated values. -/
theorem Sound.set_offered {g : Grid} (hs : Sound g) {x y v : Nat} (hx9 : x < 9) (hy9 : y < 9)
    (hv : v ∈ (getmoves g x y).array) : Sound (g.set x y v) := by
  obtain ⟨hrow, hcol, hbox⟩ := hs
  obtain ⟨v1, _, hr, hc, hb⟩ := (mem_getmoves _ _ _ _).mp hv
  refine ⟨?_, ?_, ?_⟩
  · intro a b b' ha hb1 hb2 hne hnz
    by_cases h1 : a = x ∧ b = y
    · obtain ⟨rfl, rfl⟩ := h1
      rw [Grid.set_same, Grid.set_other _ _ _ _ _ _ (by omega)]
      exact fun h => hr b' hb2 (by omega) h.symm
    · rw [Grid.set_other _ _ _ _ _ _ h1] at hnz ⊢
      by_cases h2 : a = x ∧ b' = y
      · obtain ⟨rfl, rfl⟩ := h2
        rw [Grid.set_same]
        exact hr b hb1 hne
      · rw [Grid.set_other _ _ _ _ _ _ h2]
        exact hrow a b b' ha hb1 hb2 hne hnz
  · intro a a' b ha ha' hb1 hne hnz
    by_cases h1 : a = x ∧ b = y
    · obtain ⟨rfl, rfl⟩ := h1
      rw [Grid.set_same, Grid.set_other _ _ _ _ _ _ (by omega)]
      exact fun h => hc a' ha' (by omega) h.symm
    · rw [Grid.set_other _ _ _ _ _ _ h1] at hnz ⊢
      by_cases h2 : a' = x ∧ b = y
      · obtain ⟨rfl, rfl⟩ := h2
        rw [Grid.set_same]
        exact hc a ha hne
      · rw [Grid.set_other _ _ _ _ _ _ h2]
        exact hcol a a' b ha ha' hb1 hne hnz
  · intro R C hR hC a b a' b' ha hb1 ha' hb' haR hbC haR' hbC' hne hnz
    have key : ∀ p q, p < 9 → q < 9 → p / 3 = R → q / 3 = C → ¬ (p = x ∧ q = y) →
        x / 3 = R → y / 3 = C → g p q ≠ v := by
      intro p q hp hq hpR hqC hpq hxR hyC
      by_cases hpx : p = x
      · subst hpx
        exact hr q hq (by omega)
      · by_cases hqy : q = y
        · subst hqy
          exact hc p hp hpx
        · have o1 := box_offset hxR hpR
          have o2 := box_offset hyC hqC
          have := hb (p - x / 3 * 3) o1.1 (q - y / 3 * 3) o2.1
            (corner_test hxR hpR hR hpx hx9) (corner_test hyC hqC hC hqy hy9)
          rw [o1.2, o2.2] at this
          exact this
    by_cases h1 : a = x ∧ b = y
    · obtain ⟨rfl, rfl⟩ := h1
      rw [Grid.set_same, Grid.set_other _ _ _ _ _ _ (by omega)]
      exact fun h => key a' b' ha' hb' haR' hbC' (by omega) haR hbC h.symm
    · rw [Grid.set_other _ _ _ _ _ _ h1] at hnz ⊢
      by_cases h2 : a' = x ∧ b' = y
      · obtain ⟨rfl, rfl⟩ := h2
        rw [Grid.set_same]
        exact key a b ha hb1 haR hbC h1 haR' hbC'
      · rw [Grid.set_other _ _ _ _ _ _ h2]
        exact hbox R C hR hC a b a' b' ha hb1 ha' hb' haR hbC haR' hbC' hne hnz

theorem ForcedStep.sound_step {g g' : Grid} (h : ForcedStep g g') (hs : Sound g) : Sound g' := by
  obtain ⟨x, y, hx, hy, _, h1, rfl⟩ := h
  exact hs.set_offered hx hy (getmoves_single_mem g x y h1)

theorem ForcedN.sound_chain {n : Nat} {g g' : Grid} (h : ForcedN n g g') (hs : Sound g) :
    Sound g' := by
  induction h with
  | refl => exact hs
  | step h1 _ ih => exact ih (h1.sound_step hs)

theorem InRange.set_in_range {g : Grid} (hr : InRange g) {x y v : Nat}
    (hv : v ∈ (getmoves g x y).array) : InRange (g.set x y v) := by
  intro i hi j hj
  have hv' := (mem_getmoves _ _ _ _).mp hv
  by_cases h : i = x ∧ j = y
  · obtain ⟨rfl, rfl⟩ := h
    rw [Grid.set_same]
    exact hv'.2.1
  · rw [Grid.set_other _ _ _ _ _ _ h]
    exact hr i hi j hj

theorem ForcedN.inRange {n : Nat} {g g' : Grid} (h : ForcedN n g g') (hr : InRange g) :
    InRange g' := by
  induction h with
  | refl => exact hr
  | step h1 _ ih =>
    obtain ⟨x, y, _, _, _, hn, rfl⟩ := h1
    exact ih (hr.set_in_range (getmoves_single_mem _ x y hn))

/-! ## From unit lists to cells and back -/

theorem units_nodup : ∀ u ∈ units, u.Nodup := by decide

theorem units_length : ∀ u ∈ units, u.length = 9 := by decide

theorem units_lt : ∀ u ∈ units, ∀ c ∈ u, c.1 < 9 ∧ c.2 < 9 := by decide

theorem units_same : ∀ u ∈ units, ∀ p ∈ u, ∀ q ∈ u,
    p.1 = q.1 ∨ p.2 = q.2 ∨ (p.1 / 3 = q.1 / 3 ∧ p.2 / 3 = q.2 / 3) := by decide

theorem rowCells_mem_units {x : Nat} (hx : x < 9) : rowCells x ∈ units := by
  simp only [units, List.mem_append, List.mem_map, List.mem_range]
  exact Or.inl (Or.inl ⟨x, hx, rfl⟩)

theorem colCells_mem_units {y : Nat} (hy : y < 9) : colCells y ∈ units := by
  simp only [units, List.mem_append, List.mem_map, List.mem_range]
  exact Or.inl (Or.inr ⟨y, hy, rfl⟩)

theorem boxCells_mem_units {k : Nat} (hk : k < 9) : boxCells k ∈ units := by
  simp only [units, List.mem_append, List.mem_map, List.mem_range]
  exact Or.inr ⟨k, hk, rfl⟩

theorem mem_rowCells {x y : Nat} (hy : y < 9) : (x, y) ∈ rowCells x := by
  simp only [rowCells, List.mem_map, List.mem_range]
  exact ⟨y, hy, rfl⟩

theorem mem_colCells {x y : Nat} (hx : x < 9) : (x, y) ∈ colCells y := by
  simp only [colCells, List.mem_map, List.mem_range]
  exact ⟨x, hx, rfl⟩

theorem mem_boxCells {x y : Nat} (_hx : x < 9) (hy : y < 9) :
    (x, y) ∈ boxCells (x / 3 * 3 + y / 3) := by
  simp only [boxCells, List.mem_map, List.mem_range]
  refine ⟨x % 3 * 3 + y % 3, by omega, ?_⟩
  apply Prod.ext <;> simp only <;> omega

/-- In a list without repeated non-zero values two different places hold different values. -/
theorem filter_nodup_inj {α : Type} (f : α → Nat) :
    ∀ (l : List α), ((l.map f).filter (fun v => v != 0)).Nodup →
      ∀ p ∈ l, ∀ q ∈ l, p ≠ q → f p ≠ 0 → f p ≠ f q := by
  intro l
  induction l with
  | nil =>
    intro _ p hp
    simp at hp
  | cons a l ih =>
    intro hnd p hp q hq hpq hfp hfq
    rw [List.map_cons] at hnd
    by_cases ha : f a = 0
    · rw [List.filter_cons_of_neg (by simp [ha])] at hnd
      have hp' : p ∈ l := by
        rcases List.mem_cons.mp hp with h | h
        · subst h
          exact absurd ha hfp
        · exact h
      have hq' : q ∈ l := by
        rcases List.mem_cons.mp hq with h | h
        · subst h
          exact absurd (hfq ▸ ha) hfp
        · exact h
      exact ih hnd p hp' q hq' hpq hfp hfq
    · rw [List.filter_cons_of_pos (by simp [ha])] at hnd
      obtain ⟨hnot, hnd'⟩ := List.nodup_cons.mp hnd
      have hin : ∀ c ∈ l, f c = f a → False := by
        intro c hc hca
        apply hnot
        rw [List.mem_filter]
        exact ⟨List.mem_map.mpr ⟨c, hc, hca⟩, by simp [ha]⟩
      rcases List.mem_cons.mp hp with h | h
      · subst h
        rcases List.mem_cons.mp hq with h' | h'
        · exact hpq h'.symm
        · exact hin q h' hfq.symm
      · rcases List.mem_cons.mp hq with h' | h'
        · subst h'
          exact hin p h hfq
        · exact ih hnd' p h q h' hpq hfp hfq

theorem Consistent.rowOK {g : Grid} (h : Consistent g) : RowOK g := by
  intro x y y' hx hy hy' hne hnz
  exact filter_nodup_inj (fun c : Nat × Nat => g c.1 c.2) _ (h _ (rowCells_mem_units hx))
    (x, y) (mem_rowCells hy) (x, y') (mem_rowCells hy') (by simpa using hne) hnz

theorem Consistent.colOK {g : Grid} (h : Consistent g) : ColOK g := by
  intro x x' y hx hx' hy hne hnz
  exact filter_nodup_inj (fun c : Nat × Nat => g c.1 c.2) _ (h _ (colCells_mem_units hy))
    (x, y) (mem_colCells hx) (x', y) (mem_colCells hx') (by simpa using hne) hnz

theorem Consistent.boxOK {g : Grid} (h : Consistent g) (R C : Nat) : BoxOK g R C := by
  intro x y x' y' hx hy hx' hy' hR hC hR' hC' hne hnz
  have hk : x / 3 * 3 + y / 3 < 9 := by omega
  have hm' := mem_boxCells hx' hy'
  have e : x' / 3 * 3 + y' / 3 = x / 3 * 3 + y / 3 := by omega
  rw [e] at hm'
  exact filter_nodup_inj (fun c : Nat × Nat => g c.1 c.2) _ (h _ (boxCells_mem_units hk))
    (x, y) (mem_boxCells hx hy) (x', y') hm' (by simpa using hne) hnz

theorem Consistent.sound {g : Grid} (h : Consistent g) : Sound g :=
  ⟨h.rowOK, h.colOK, fun R C _ _ => h.boxOK R C⟩

/-! ## A full grid: from rows, columns and corner boxes to all boxes -/

/-- Nine different values from 1..9 are a permutation of 1..9. -/
theorem perm_of_nodup_range {l : List Nat} (hnd : l.Nodup) (hlen : l.length = 9)
    (hr : ∀ a ∈ l, 1 ≤ a ∧ a ≤ 9) : List.Perm l [1, 2, 3, 4, 5, 6, 7, 8, 9] := by
  have hsub : l ⊆ [1, 2, 3, 4, 5, 6, 7, 8, 9] := by
    intro a ha
    have := hr a ha
    simp only [List.mem_cons, List.mem_singleton, List.not_mem_nil, or_false]
    omega
  exact (List.subperm_of_subset hnd hsub).perm_of_length_le (by simp [hlen])

theorem unitValues_nodup {g : Grid} {u : List (Nat × Nat)} (hu : u.Nodup)
    (hinj : ∀ p ∈ u, ∀ q ∈ u, g p.1 p.2 = g q.1 q.2 → p = q) : (unitValues g u).Nodup :=
  List.Nodup.map_on hinj hu

/-- A box of a full grid without repeated values holds every value of 1..9. -/
theorem box_has_all {g : Grid} (hf : Full g) (hr : InRange g) {R C : Nat} (hR : R < 3)
    (hC : C < 3) (hb : BoxOK g R C) (v : Nat) (h1 : 1 ≤ v) (h9 : v ≤ 9) :
    ∃ x y, x < 9 ∧ y < 9 ∧ x / 3 = R ∧ y / 3 = C ∧ g x y = v := by
  have hk : R * 3 + C < 9 := by omega
  have hu := boxCells_mem_units hk
  have hin : ∀ c ∈ boxCells (R * 3 + C), c.1 < 9 ∧ c.2 < 9 ∧ c.1 / 3 = R ∧ c.2 / 3 = C := by
    intro c hc
    simp only [boxCells, List.mem_map, List.mem_range] at hc
    obtain ⟨i, hi, rfl⟩ := hc
    simp only
    omega
  have hnd : (unitValues g (boxCells (R * 3 + C))).Nodup := by
    apply unitValues_nodup (units_nodup _ hu)
    intro p hp q hq hpq
    by_contra hne
    obtain ⟨p1, p2, p3, p4⟩ := hin p hp
    obtain ⟨q1, q2, q3, q4⟩ := hin q hq
    refine hb p.1 p.2 q.1 q.2 p1 p2 q1 q2 p3 p4 q3 q4 ?_ (hf _ p1 _ p2) hpq
    rintro ⟨e1, e2⟩
    exact hne (Prod.ext e1 e2)
  have hperm := perm_of_nodup_range hnd (by simp [unitValues, units_length _ hu]) (by
    intro a ha
    simp only [unitValues, List.mem_map] at ha
    obtain ⟨c, hc, rfl⟩ := ha
    obtain ⟨c1, c2, _, _⟩ := hin c hc
    have := hf _ c1 _ c2
    have := hr _ c1 _ c2
    omega)
  have hv : v ∈ unitValues g (boxCells (R * 3 + C)) := by
    rw [hperm.mem_iff]
    simp only [List.mem_cons, List.mem_singleton, List.not_mem_nil, or_false]
    omega
  simp only [unitValues, List.mem_map] at hv
  obtain ⟨c, hc, hcv⟩ := hv
  obtain ⟨c1, c2, c3, c4⟩ := hin c hc
  exact ⟨c.1, c.2, c1, c2, c3, c4, hcv⟩

theorem ne_of_div_ne {b y C C' : Nat} (hb : b / 3 = C) (hy : y / 3 = C') (h : C ≠ C') :
    b ≠ y := by
  rintro rfl
  omega

/-- Among four rows of one band, of which two differ from each other and from the other
two, those other two are the same. -/
theorem third_of_three {R a a' x x' : Nat} (h1 : a / 3 = R) (h2 : a' / 3 = R) (h3 : x / 3 = R)
    (h4 : x' / 3 = R) (n1 : x ≠ x') (n2 : a ≠ x) (n3 : a ≠ x') (n4 : a' ≠ x) (n5 : a' ≠ x') :
    a = a' := by
  omega

/-- Three boxes side by side: when the rows hold no value twice and two of the boxes
hold every value, the third box holds no value twice. -/
theorem band_boxOK {g : Grid} (hrow : RowOK g) (hf : Full g) {R C1 C2 C3 : Nat}
    (h12 : C1 ≠ C2) (h13 : C1 ≠ C3) (h23 : C2 ≠ C3)
    (ha1 : ∀ v, 1 ≤ v → v ≤ 9 → ∃ x y, x < 9 ∧ y < 9 ∧ x / 3 = R ∧ y / 3 = C1 ∧ g x y = v)
    (ha2 : ∀ v, 1 ≤ v → v ≤ 9 → ∃ x y, x < 9 ∧ y < 9 ∧ x / 3 = R ∧ y / 3 = C2 ∧ g x y = v)
    (hr : InRange g) : BoxOK g R C3 := by
  intro x y x' y' hx hy hx' hy' hR hC hR' hC' hne hnz heq
  have hv1 : 1 ≤ g x y := Nat.one_le_iff_ne_zero.mpr hnz
  have hv9 := hr x hx y hy
  obtain ⟨a, b, ha, hb, haR, hbC, hab⟩ := ha1 _ hv1 hv9
  obtain ⟨a', b', ha', hb', haR', hbC', hab'⟩ := ha2 _ hv1 hv9
  have n1 : x ≠ x' := by
    rintro rfl
    exact hrow x y y' hx hy hy' (fun e => hne ⟨rfl, e⟩) hnz heq
  have n2 : a ≠ x := by
    rintro rfl
    exact hrow a b y ha hb hy (ne_of_div_ne hbC hC h13) (hf a ha b hb) hab
  have n3 : a ≠ x' := by
    rintro rfl
    exact hrow a b y' ha hb hy' (ne_of_div_ne hbC hC' h13) (hf a ha b hb) (hab.trans heq)
  have n4 : a' ≠ x := by
    rintro rfl
    exact hrow a' b' y ha' hb' hy (ne_of_div_ne hbC' hC h23) (hf a' ha' b' hb') hab'
  have n5 : a' ≠ x' := by
    rintro rfl
    exact hrow a' b' y' ha' hb' hy' (ne_of_div_ne hbC' hC' h23) (hf a' ha' b' hb') (hab'.trans heq)
  have e : a = a' := third_of_three haR haR' hR hR' n1 n2 n3 n4 n5
  subst e
  exact hrow a b b' ha hb hb' (ne_of_div_ne hbC hbC' h12) (hf a ha b hb) (hab.trans hab'.symm)

/-- Three boxes on top of each other: the same with columns. -/
theorem stack_boxOK {g : Grid} (hcol : ColOK g) (hf : Full g) {C R1 R2 R3 : Nat}
    (h12 : R1 ≠ R2) (h13 : R1 ≠ R3) (h23 : R2 ≠ R3)
    (ha1 : ∀ v, 1 ≤ v → v ≤ 9 → ∃ x y, x < 9 ∧ y < 9 ∧ x / 3 = R1 ∧ y / 3 = C ∧ g x y = v)
    (ha2 : ∀ v, 1 ≤ v → v ≤ 9 → ∃ x y, x < 9 ∧ y < 9 ∧ x / 3 = R2 ∧ y / 3 = C ∧ g x y = v)
    (hr : InRange g) : BoxOK g R3 C := by
  intro x y x' y' hx hy hx' hy' hR hC hR' hC' hne hnz heq
  have hv1 : 1 ≤ g x y := Nat.one_le_iff_ne_zero.mpr hnz
  have hv9 := hr x hx y hy
  obtain ⟨a, b, ha, hb, haR, hbC, hab⟩ := ha1 _ hv1 hv9
  obtain ⟨a', b', ha', hb', haR', hbC', hab'⟩ := ha2 _ hv1 hv9
  have n1 : y ≠ y' := by
    rintro rfl
    exact hcol x x' y hx hx' hy (fun e => hne ⟨e, rfl⟩) hnz heq
  have n2 : b ≠ y := by
    rintro rfl
    exact hcol a x b ha hx hb (ne_of_div_ne haR hR h13) (hf a ha b hb) hab
  have n3 : b ≠ y' := by
    rintro rfl
    exact hcol a x' b ha hx' hb (ne_of_div_ne haR hR' h13) (hf a ha b hb) (hab.trans heq)
  have n4 : b' ≠ y := by
    rintro rfl
    exact hcol a' x b' ha' hx hb' (ne_of_div_ne haR' hR h23) (hf a' ha' b' hb') hab'
  have n5 : b' ≠ y' := by
    rintro rfl
    exact hcol a' x' b' ha' hx' hb' (ne_of_div_ne haR' hR' h23) (hf a' ha' b' hb') (hab'.trans heq)
  have e : b = b' := third_of_three hbC hbC' hC hC' n1 n2 n3 n4 n5
  subst e
  exact hcol a a' b ha ha' hb (ne_of_div_ne haR haR' h12) (hf a ha b hb) (hab.trans hab'.symm)

/-- In a full grid the rows, the columns and the four corner boxes decide all boxes. -/
theorem Sound.boxOK_of_full {g : Grid} (hs : Sound g) (hf : Full g) (hr : InRange g)
    (R C : Nat) : BoxOK g R C := by
  obtain ⟨hrow, hcol, hcorner⟩ := hs
  have b00 := box_has_all hf hr (by omega) (by omega) (hcorner 0 0 (by omega) (by omega))
  have b02 := box_has_all hf hr (by omega) (by omega) (hcorner 0 2 (by omega) (by omega))
  have b20 := box_has_all hf hr (by omega) (by omega) (hcorner 2 0 (by omega) (by omega))
  have b22 := box_has_all hf hr (by omega) (by omega) (hcorner 2 2 (by omega) (by omega))
  have k10 : BoxOK g 1 0 :=
    stack_boxOK hcol hf (by omega) (by omega) (by omega) b00 b20 hr
  have k12 : BoxOK g 1 2 :=
    stack_boxOK hcol hf (by omega) (by omega) (by omega) b02 b22 hr
  have b10 := box_has_all hf hr (by omega) (by omega) k10
  have b12 := box_has_all hf hr (by omega) (by omega) k12
  by_cases hC : C = 1
  · subst hC
    by_cases hR0 : R = 0
    · subst hR0
      exact band_boxOK hrow hf (by omega) (by omega) (by omega) b00 b02 hr
    · by_cases hR1 : R = 1
      · subst hR1
        exact band_boxOK hrow hf (by omega) (by omega) (by omega) b10 b12 hr
      · by_cases hR2 : R = 2
        · subst hR2
          exact band_boxOK hrow hf (by omega) (by omega) (by omega) b20 b22 hr
        · intro x y x' y' hx _ _ _ hxR
          omega
  · by_cases hR : R = 1
    · subst hR
      by_cases hC0 : C = 0
      · subst hC0
        exact k10
      · by_cases hC2 : C = 2
        · subst hC2
          exact k12
        · intro x y x' y' _ hy _ _ _ hyC
          omega
    · exact hcorner R C hR hC

/-- A full grid with entries in 1..9 whose rows, columns and corner boxes hold no value
twice is a solved Sudoku. -/
theorem Sound.valid {g : Grid} (hs : Sound g) (hf : Full g) (hr : InRange g) : Valid g := by
  intro u hu
  apply perm_of_nodup_range
  · apply unitValues_nodup (units_nodup u hu)
    intro p hp q hq hpq
    by_contra hne
    obtain ⟨p1, p2⟩ := units_lt u hu p hp
    obtain ⟨q1, q2⟩ := units_lt u hu q hq
    have hnz := hf _ p1 _ p2
    rcases units_same u hu p hp q hq with h | h | ⟨h1, h2⟩
    · refine hs.1 p.1 p.2 q.2 p1 p2 q2 ?_ hnz (by rw [hpq, h])
      intro e
      exact hne (Prod.ext h e)
    · refine hs.2.1 p.1 q.1 p.2 p1 q1 p2 ?_ hnz (by rw [hpq, h])
      intro e
      exact hne (Prod.ext e h)
    · refine hs.boxOK_of_full hf hr (p.1 / 3) (p.2 / 3) p.1 p.2 q.1 q.2 p1 p2 q1 q2 rfl rfl
        h1.symm h2.symm ?_ hnz hpq
      rintro ⟨e1, e2⟩
      exact hne (Prod.ext e1 e2)
  · simp [unitValues, units_length u hu]
  · intro a ha
    simp only [unitValues, List.mem_map] at ha
    obtain ⟨c, hc, rfl⟩ := ha
    obtain ⟨c1, c2⟩ := units_lt u hu c hc
    have := hf _ c1 _ c2
    have := hr _ c1 _ c2
    omega

/-! ## Properties of all grids of a run -/

theorem ForcedN.lift (Q : Grid → Prop)
    (hset : ∀ g x y v, x < 9 → y < 9 → g x y = 0 → v ∈ (getmoves g x y).array → Q g →
      Q (g.set x y v)) {n : Nat} {g g' : Grid} (h : ForcedN n g g') (hg : Q g) : Q g' := by
  induction h with
  | refl => exact hg
  | step h1 _ ih =>
    obtain ⟨x, y, hx, hy, h0, hn, rfl⟩ := h1
    exact ih (hset _ x y _ hx hy h0 (getmoves_single_mem _ x y hn) hg)

/-- A property of grids that survives every write of an offered value into an empty cell
holds for all boards after a run through the loop body when it held before. -/
theorem gridInv_step (Q : Grid → Prop)
    (hset : ∀ g x y v, x < 9 → y < 9 → g x y = 0 → v ∈ (getmoves g x y).array → Q g →
      Q (g.set x y v)) {s s' : State} (hinv : GridInv Q s) :
    (iteration s = .again s' ∨ iteration s = .solved s') → GridInv Q s' := by
  intro h
  have hspec := iteration_spec s
  rcases h with h | h
  · rw [h] at hspec
    cases hspec with
    | progress _ n h1 h2 h3 =>
      refine ⟨h3.lift Q hset hinv.1, ?_⟩
      rw [h1]
      exact hinv.2
    | guess _ x y v b hx hy h0 hv _ _ hhead harr _ hcur _ =>
      refine ⟨?_, ?_⟩
      · rw [hcur]
        exact hset _ x y v hx hy h0 hv hinv.1
      · rw [hhead]
        intro c hc
        rcases List.mem_cons.mp hc with rfl | hc
        · rw [harr]
          exact hinv.1
        · exact hinv.2 c hc
    | pop _ hhead _ =>
      have h2 := hinv.2
      rw [hhead] at h2
      exact ⟨h2 _ (List.mem_cons_self _ _), fun c hc => h2 c (List.mem_cons_of_mem _ hc)⟩
  · rw [h] at hspec
    cases hspec with
    | solved _ n h1 _ h3 _ =>
      refine ⟨h3.lift Q hset hinv.1, ?_⟩
      rw [h1]
      exact hinv.2

theorem gridInv_start (Q : Grid → Prop) (g : Grid) (h : Q g) : GridInv Q (start g) :=
  ⟨h, fun b hb => by simp [start] at hb⟩

theorem gridInv_iterate (Q : Grid → Prop)
    (hset : ∀ g x y v, x < 9 → y < 9 → g x y = 0 → v ∈ (getmoves g x y).array → Q g →
      Q (g.set x y v)) {g : Grid} (hg : Q g) {k : Nat} {s : State}
    (h : iterate k (start g) = some s) : GridInv Q s :=
  iterate_invariant (GridInv Q) (fun _ _ ha hab => gridInv_step Q hset ha (Or.inl hab))
    k (start g) s (gridInv_start Q g hg) h

theorem keeps_set_step (g0 : Grid) :
    ∀ g x y v, x < 9 → y < 9 → g x y = 0 → v ∈ (getmoves g x y).array → Keeps g0 g →
      Keeps g0 (g.set x y v) :=
  fun g x y v _ _ h0 _ hk => hk.trans (Keeps.set_empty g x y v h0)

theorem sound_set_step :
    ∀ g x y v, x < 9 → y < 9 → g x y = 0 → v ∈ (getmoves g x y).array →
      (Sound g ∧ InRange g) → (Sound (g.set x y v) ∧ InRange (g.set x y v)) :=
  fun _ _ _ _ hx hy _ hv h => ⟨h.1.set_offered hx hy hv, h.2.set_in_range hv⟩

/-- The grid `solveboard` returns with is full. -/
theorem solved_full {s s' : State} (h : iteration s = .solved s') : Full s'.current.arr := by
  have hspec := iteration_spec s
  rw [h] at hspec
  cases hspec with
  | solved _ n _ _ _ h4 => exact fun x hx y hy => h4 x y hx hy

/-- On an input without repeated values in any row, column or box, the grid
`solveboard` returns with is a solved Sudoku. -/
theorem solved_valid {g : Grid} (hr : InRange g) (hc : Consistent g) {n : Nat} {s : State}
    (h : solveboard n (start g) = some (.solved s)) : Valid s.current.arr := by
  obtain ⟨k, s0, _, hk, hit, _⟩ := solveboard_some h
  have hinv := gridInv_iterate (fun g => Sound g ∧ InRange g) sound_set_step ⟨hc.sound, hr⟩ hk
  have hfin := gridInv_step (fun g => Sound g ∧ InRange g) sound_set_step hinv (Or.inr hit)
  exact hfin.1.1.valid (solved_full hit) hfin.1.2

/-- The grid `solveboard` returns with keeps every filled cell of the input. -/
theorem solved_keeps {g : Grid} {n : Nat} {s : State}
    (h : solveboard n (start g) = some (.solved s)) : Keeps g s.current.arr := by
  obtain ⟨k, s0, _, hk, hit, _⟩ := solveboard_some h
  have hinv := gridInv_iterate (Keeps g) (keeps_set_step g) (Keeps.refl g) hk
  exact (gridInv_step (Keeps g) (keeps_set_step g) hinv (Or.inr hit)).1

/-! ## The search loses no solution -/

theorem Valid.consistent {S : Grid} (h : Valid S) : Consistent S := by
  intro u hu
  apply List.Nodup.filter
  rw [(h u hu).nodup_iff]
  decide

theorem Valid.range {S : Grid} (h : Valid S) {x y : Nat} (hx : x < 9) (hy : y < 9) :
    1 ≤ S x y ∧ S x y ≤ 9 := by
  have hm : S x y ∈ unitValues S (rowCells x) := by
    simp only [unitValues, List.mem_map]
    exact ⟨(x, y), mem_rowCells hy, rfl⟩
  rw [(h _ (rowCells_mem_units hx)).mem_iff] at hm
  simp only [List.mem_cons, List.mem_singleton, List.not_mem_nil, or_false] at hm
  omega

/-- The value a solution holds at an empty cell of a grid it fills is among the
values `getmoves` returns for the cell. -/
theorem solution_mem_getmoves {S g : Grid} (hS : Valid S) (hk : Keeps g S) {x y : Nat}
    (hx : x < 9) (hy : y < 9) (h0 : g x y = 0) : S x y ∈ (getmoves g x y).array := by
  have hr := hS.range hx hy
  have hc := hS.consistent
  rw [mem_getmoves]
  refine ⟨hr.1, hr.2, ?_, ?_, ?_⟩
  · intro loop hl hne he
    have hnz : g x loop ≠ 0 := by omega
    have := hk x loop hx hl hnz
    exact hc.rowOK x y loop hx hy hl (fun e => hne e.symm) (by omega) (by rw [this, he])
  · intro loop hl hne he
    have hnz : g loop y ≠ 0 := by omega
    have := hk loop y hl hy hnz
    exact hc.colOK x loop y hx hl hy (fun e => hne e.symm) (by omega) (by rw [this, he])
  · intro loop hl inn hi _ _ he
    have hnz : g (x / 3 * 3 + loop) (y / 3 * 3 + inn) ≠ 0 := by omega
    have hp : x / 3 * 3 + loop < 9 := by omega
    have hq : y / 3 * 3 + inn < 9 := by omega
    have := hk _ _ hp hq hnz
    refine hc.boxOK (x / 3) (y / 3) x y _ _ hx hy hp hq rfl rfl (by omega) (by omega) ?_
      (by omega) (by rw [this, he])
    rintro ⟨e1, e2⟩
    rw [← e1, ← e2] at hnz
    exact hnz h0

theorem ForcedStep.keeps_solution_step {S g g' : Grid} (hS : Valid S) (h : ForcedStep g g')
    (hk : Keeps g S) : Keeps g' S := by
  obtain ⟨x, y, hx, hy, h0, h1, rfl⟩ := h
  have hm := solution_mem_getmoves hS hk hx hy h0
  rw [getmoves_single g x y h1, List.mem_singleton] at hm
  intro i j hi hj hnz
  by_cases hij : i = x ∧ j = y
  · obtain ⟨rfl, rfl⟩ := hij
    rw [Grid.set_same]
    exact hm
  · rw [Grid.set_other _ _ _ _ _ _ hij] at hnz ⊢
    exact hk i j hi hj hnz

theorem ForcedN.keeps_solution {S : Grid} (hS : Valid S) {n : Nat} {g g' : Grid}
    (h : ForcedN n g g') (hk : Keeps g S) : Keeps g' S := by
  induction h with
  | refl => exact hk
  | step h1 _ ih => exact ih (h1.keeps_solution_step hS hk)

theorem Stuck.not_keeps {S g : Grid} (hS : Valid S) (h : Stuck g) : ¬ Keeps g S := by
  intro hk
  obtain ⟨x, y, hx, hy, h0, hn⟩ := h
  have hm := solution_mem_getmoves hS hk hx hy h0
  rw [getmoves_num] at hn
  rw [List.length_eq_zero.mp hn] at hm
  simp at hm

/-- A board that is given up is not one from which the solution is still to be found. -/
theorem Dead.no_solution {S : Grid} (hS : Valid S) {b : board} (h : Dead b)
    (hk : Keeps b.arr S) (ht : ∀ t ∈ b.tried, S t.x t.y ≠ t.value) : False := by
  rcases h with ⟨n, g', h1, h2⟩ | ⟨x, y, hx, hy, h0, hall⟩
  · exact h2.not_keeps hS (h1.keeps_solution hS hk)
  · exact ht _ (hall _ (solution_mem_getmoves hS hk hx hy h0)) rfl

theorem Linked.mono {S : Grid} {c c' : Grid} (hcc : Keeps c S → Keeps c' S) :
    ∀ {l : List board}, Linked S c l → Linked S c' l := by
  intro l h
  cases l with
  | nil => trivial
  | cons p rest =>
    obtain ⟨⟨t, tl, h1, h2⟩, h3⟩ := h
    exact ⟨⟨t, tl, h1, fun a b => hcc (h2 a b)⟩, h3⟩

theorem alive_start {S g : Grid} (hk : Keeps g S) : Alive S (start g) := by
  refine ⟨Or.inl ⟨hk, ?_⟩, trivial⟩
  intro t ht
  simp [start] at ht

/-- While a solution of the input can be reached, a run through the loop body does not
end in "Invalid Board!", and the solution can still be reached afterwards. -/
theorem alive_step {S : Grid} (hS : Valid S) {s : State} (ha : Alive S s) :
    (∀ s', iteration s = .again s' → Alive S s') ∧ (∀ s', iteration s ≠ .invalid s') := by
  have hspec := iteration_spec s
  obtain ⟨htop, hlink⟩ := ha
  constructor
  · intro s' h
    rw [h] at hspec
    cases hspec with
    | progress _ n h1 h2 h3 =>
      refine ⟨?_, ?_⟩
      · rcases htop with ⟨a1, a2⟩ | ⟨a1, a2⟩
        · exact Or.inl ⟨h3.keeps_solution hS a1, by rw [h2]; exact a2⟩
        · exact Or.inr ⟨fun hk => a1 (h3.keeps.trans hk), by rw [h1]; exact a2⟩
      · rw [h1]
        exact hlink.mono (h3.keeps_solution hS)
    | guess _ x y v b hx hy h0 hv _ _ hhead harr htried hcur hcurt =>
      have hv1 := ((mem_getmoves _ _ _ _).mp hv).1
      have hback : Keeps (s.current.arr.set x y v) S → Keeps s.current.arr S :=
        fun hk => (Keeps.set_empty _ x y v h0).trans hk
      have hfwd : Keeps s.current.arr S → S x y = v → Keeps (s.current.arr.set x y v) S := by
        intro hk hv i j hi hj hnz
        by_cases hij : i = x ∧ j = y
        · obtain ⟨rfl, rfl⟩ := hij
          rw [Grid.set_same]
          exact hv
        · rw [Grid.set_other _ _ _ _ _ _ hij] at hnz ⊢
          exact hk i j hi hj hnz
      refine ⟨?_, ?_⟩
      · rw [hcur, hcurt, hhead]
        rcases htop with ⟨a1, a2⟩ | ⟨a1, a2⟩
        · by_cases hSv : S x y = v
          · exact Or.inl ⟨hfwd a1 hSv, by simp⟩
          · refine Or.inr ⟨?_, Or.inl ⟨by rw [harr]; exact a1, by rw [htried]; exact a2⟩⟩
            intro hk
            have := hk x y hx hy (by rw [Grid.set_same]; omega)
            rw [Grid.set_same] at this
            exact hSv this
        · exact Or.inr ⟨fun hk => a1 (hback hk), Or.inr ⟨by rw [harr]; exact a1, a2⟩⟩
      · rw [hcur, hhead]
        refine ⟨⟨⟨x, y, v⟩, s.current.tried, htried, ?_⟩, ?_⟩
        · rw [harr]
          exact hfwd
        · rw [harr]
          exact hlink
    | pop _ hhead hdead =>
      rw [hhead] at hlink
      obtain ⟨⟨t, tl, l1, l2⟩, l3⟩ := hlink
      refine ⟨?_, l3⟩
      rcases htop with ⟨a1, a2⟩ | ⟨a1, a2⟩
      · exact (hdead.no_solution hS a1 a2).elim
      · rw [hhead] at a2
        rcases a2 with ⟨b1, b2⟩ | ⟨b1, b2⟩
        · refine Or.inl ⟨b1, ?_⟩
          rw [l1] at b2 ⊢
          intro t' ht'
          rcases List.mem_cons.mp ht' with rfl | ht'
          · exact fun e => a1 (l2 b1 e)
          · exact b2 t' ht'
        · exact Or.inr ⟨b1, b2⟩
  · intro s' h
    rw [h] at hspec
    cases hspec with
    | invalid _ hhead _ hdead =>
      rcases htop with ⟨a1, a2⟩ | ⟨_, a2⟩
      · exact hdead.no_solution hS a1 a2
      · rw [hhead] at a2
        exact a2

/-- An input that a solved Sudoku fills is never reported as "Invalid Board!". -/
theorem not_invalid_of_solution {S g : Grid} (hS : Valid S) (hk : Keeps g S) {n : Nat}
    {r : outcome} (h : solveboard n (start g) = some r) : ∀ t, r ≠ .invalid t := by
  obtain ⟨k, s0, _, hk0, hit, _⟩ := solveboard_some h
  have ha : Alive S s0 :=
    iterate_invariant (Alive S) (fun a b hab hi => (alive_step hS hab).1 b hi) k (start g) s0
      (alive_start hk) hk0
  intro t ht
  rw [ht] at hit
  exact (alive_step hS ha).2 t hit

/-- On an input that a solved Sudoku fills, `solveboard` returns, and it returns with a
solved Sudoku when the input holds no value twice in a row, column or box. -/
theorem solves_of_solution {S g : Grid} (hS : Valid S) (hk : Keeps g S) :
    ∃ n s, solveboard n (start g) = some (.solved s) := by
  obtain ⟨n, r, h⟩ := solveboard_terminates (start g)
  obtain ⟨k, s0, _, _, hit, hna⟩ := solveboard_some h
  cases r with
  | again t => exact absurd rfl (hna t)
  | invalid t => exact absurd rfl (not_invalid_of_solution hS hk h t)
  | solved t => exact ⟨n, t, h⟩

/-! ## Reading off an outcome -/

theorem outcome.eq_solved_of_isSolved {r : outcome} (h : r.isSolved = true) :
    r = .solved r.state := by
  cases r with
  | solved s => rfl
  | again s => simp [outcome.isSolved] at h
  | invalid s => simp [outcome.isSolved] at h

theorem solveboard_one_of_isSolved {s : State} (h : (iteration s).isSolved = true) :
    solveboard 1 s = some (.solved (iteration s).state) := by
  have h1 := outcome.eq_solved_of_isSolved h
  rw [solveboard_succ_of_stop (by rw [h1]; simp) 0]
  exact congrArg some h1

/-- A sweep over filled cells changes nothing. -/
theorem pass_filled (head : List board) (cs : List (Nat × Nat)) (cur : board) (l : locals)
    (h : ∀ c ∈ cs, cur.arr c.1 c.2 ≠ 0) : pass head cs cur l = .completed cur l := by
  induction cs with
  | nil => rw [pass]
  | cons c cs ih =>
    obtain ⟨x, y⟩ := c
    rw [pass, if_neg (h (x, y) (List.mem_cons_self _ _))]
    exact ih (fun c hc => h c (List.mem_cons_of_mem _ hc))

/-- On a full board the loop body is run once and leaves everything as it is. -/
theorem iteration_full (s : State) (h : Full s.current.arr) : iteration s = .solved s := by
  unfold iteration
  rw [pass_filled _ _ _ _ (fun c hc => h _ (cells_lt c hc).1 _ (cells_lt c hc).2)]
  rfl

theorem sweep.eq_completed_of_isCompleted {r : sweep} (h : r.isCompleted = true) :
    r = .completed r.board r.locals := by
  cases r with
  | completed b l => rfl
  | popped b hs l => simp [sweep.isCompleted] at h
  | invalid b l => simp [sweep.isCompleted] at h

theorem outcome.stopped {n : Nat} {s : State} {r : outcome} (h : solveboard n s = some r) :
    r.isSolved = true ∨ r.isInvalid = true := by
  obtain ⟨_, _, _, _, _, hna⟩ := solveboard_some h
  cases r with
  | again t => exact absurd rfl (hna t)
  | solved t => exact Or.inl rfl
  | invalid t => exact Or.inr rfl

/-- A grid that keeps the filled cells of a grid with a repeated value has it as well. -/
theorem Consistent.of_keeps {g g' : Grid} (hk : Keeps g g') (h : Consistent g') :
    Consistent g := by
  intro u hu
  have hlt := units_lt u hu
  have hsub : ∀ (l : List (Nat × Nat)), (∀ c ∈ l, c.1 < 9 ∧ c.2 < 9) →
      List.Sublist ((unitValues g l).filter (fun v => v != 0))
        ((unitValues g' l).filter (fun v => v != 0)) := by
    intro l
    induction l with
    | nil =>
      intro _
      exact List.Sublist.refl _
    | cons c l ih =>
      intro hl
      have ih' := ih (fun d hd => hl d (List.mem_cons_of_mem _ hd))
      obtain ⟨c1, c2⟩ := hl c (List.mem_cons_self _ _)
      simp only [unitValues, List.map_cons] at ih' ⊢
      by_cases hc : g c.1 c.2 = 0
      · rw [List.filter_cons_of_neg (by simp [hc])]
        by_cases hc' : g' c.1 c.2 = 0
        · rw [List.filter_cons_of_neg (by simp [hc'])]
          exact ih'
        · rw [List.filter_cons_of_pos (by simp [hc'])]
          exact List.Sublist.cons _ ih'
      · have e := hk c.1 c.2 c1 c2 hc
        rw [e, List.filter_cons_of_pos (by simp [hc]), List.filter_cons_of_pos (by simp [hc])]
        exact List.Sublist.cons₂ _ ih'
  exact (h u hu).sublist (hsub u hlt)

theorem triedNodup_step {s s' : State} (hinv : TriedNodup s) (h : iteration s = .again s') :
    TriedNodup s' := by
  have hspec := iteration_spec s
  rw [h] at hspec
  cases hspec with
  | progress _ n h1 h2 _ =>
    refine ⟨by rw [h2]; exact hinv.1, ?_⟩
    rw [h1]
    exact hinv.2
  | guess _ x y v b _ _ _ _ _ hnew hhead _ htried _ hcurt =>
    refine ⟨by rw [hcurt]; exact List.nodup_nil, ?_⟩
    rw [hhead]
    intro c hc
    rcases List.mem_cons.mp hc with rfl | hc
    · rw [htried]
      exact List.nodup_cons.mpr ⟨hnew, hinv.1⟩
    · exact hinv.2 c hc
  | pop _ hhead _ =>
    have h2 := hinv.2
    rw [hhead] at h2
    exact ⟨h2 _ (List.mem_cons_self _ _), fun c hc => h2 c (List.mem_cons_of_mem _ hc)⟩

theorem triedNodup_iterate {g : Grid} {k : Nat} {s : State}
    (h : iterate k (start g) = some s) : TriedNodup s :=
  iterate_invariant TriedNodup (fun _ _ ha hab => triedNodup_step ha hab) k (start g) s
    ⟨List.nodup_nil, fun b hb => by simp [start] at hb⟩ h

/-- The stack grows in a run through the loop body only by a guess, and the guess is new. -/
theorem push_is_new_guess {s : State}
    (h : (iteration s).state.head.length = s.head.length + 1) :
    ∃ t b, (iteration s).state.head = b :: s.head ∧ b.arr = s.current.arr ∧
      b.tried = t :: s.current.tried ∧ t ∉ s.current.tried ∧
      (iteration s).state.current.arr = s.current.arr.set t.x t.y t.value ∧
      (iteration s).state.current.tried = [] ∧ iteration s = .again (iteration s).state := by
  have hspec := iteration_spec s
  revert h hspec
  generalize iteration s = r
  intro h hspec
  cases hspec with
  | solved _ n h1 _ _ _ =>
    simp only [outcome.state, h1] at h
    omega
  | progress _ n h1 _ _ =>
    simp only [outcome.state, h1] at h
    omega
  | guess s' x y v b _ _ _ _ _ hnew hhead harr htried hcur hcurt =>
    exact ⟨⟨x, y, v⟩, b, hhead, harr, htried, hnew, hcur, hcurt, rfl⟩
  | pop _ hhead _ =>
    simp only [outcome.state, hhead, List.length_cons] at h
    omega
  | invalid _ h1 h2 _ =>
    simp only [outcome.state, h2, List.length_nil] at h
    omega

/-- What a completed sweep did to the grid. -/
theorem pass_completed {head : List board} {cur cur' : board} {l' : locals} {sx sy : Nat}
    (h : pass head cells cur ⟨true, false, 10, sx, sy⟩ = .completed cur' l') :
    ∃ n, ForcedN n cur.arr cur'.arr ∧ (l'.taken = true ↔ 0 < n) := by
  have hp := pass_spec head cells cur ⟨true, false, 10, sx, sy⟩ cells_nodup cells_lt
    ⟨by simp, by simp⟩
  rw [h] at hp
  obtain ⟨_, ⟨n, h2, h3⟩, _, _⟩ := hp
  refine ⟨n, h2, ?_⟩
  rw [h3]
  simp

/-! ## The selected cell -/

theorem cells_sorted : cells.Pairwise (fun a b => rank a < rank b) := by decide

theorem rank_inj {a b : Nat × Nat} (ha : a.2 < 9) (hb : b.2 < 9) (h : rank a = rank b) :
    a = b := by
  unfold rank at h
  apply Prod.ext <;> omega

/-- The locals keep track of the first cell with the fewest available values. -/
theorem pass_min (head : List board) (cs : List (Nat × Nat)) :
    ∀ (V : List (Nat × Nat)) (cur : board) (l : locals),
      (∀ v ∈ V, ∀ c ∈ cs, rank v < rank c) → cs.Pairwise (fun a b => rank a < rank b) →
      MinInv V cur l → ∀ cur' l', pass head cs cur l = .completed cur' l' →
        MinInv (V ++ cs) cur' l' := by
  induction cs with
  | nil =>
    intro V cur l _ _ hinv cur' l' h
    rw [pass] at h
    simp only [sweep.completed.injEq] at h
    obtain ⟨rfl, rfl⟩ := h
    simpa using hinv
  | cons c cs ih =>
    obtain ⟨x, y⟩ := c
    intro V cur l hV hs hinv cur' l' h
    obtain ⟨i1, i2, i3⟩ := hinv
    have hs' : cs.Pairwise (fun a b => rank a < rank b) := (List.pairwise_cons.mp hs).2
    have hxy : ∀ c ∈ cs, rank (x, y) < rank c := (List.pairwise_cons.mp hs).1
    have hV' : ∀ v ∈ V ++ [(x, y)], ∀ c ∈ cs, rank v < rank c := by
      intro v hv c hc
      rcases List.mem_append.mp hv with hv | hv
      · exact hV v hv c (List.mem_cons_of_mem _ hc)
      · rw [List.mem_singleton] at hv
        subst hv
        exact hxy c hc
    have happ : V ++ (x, y) :: cs = (V ++ [(x, y)]) ++ cs := by simp
    rw [happ]
    rw [pass] at h
    by_cases h0 : cur.arr x y = 0
    · rw [if_pos h0] at h
      simp only [setmoves_same] at h
      by_cases h1 : (getmoves cur.arr x y).num = 1
      · rw [if_pos h1] at h
        refine ih _ _ { l with taken := true } hV' hs' ⟨i1, ?_, ?_⟩ cur' l' h
        · intro hsol
          exact List.mem_append_left _ (i2 hsol)
        · intro ht
          simp at ht
      · rw [if_neg h1] at h
        by_cases h2 : (getmoves cur.arr x y).num = 0
        · rw [if_pos h2] at h
          cases head <;> simp at h
        · rw [if_neg h2] at h
          have hnum9 := getmoves_num_le cur.arr x y
          by_cases h3 : (getmoves cur.arr x y).num < l.small
          · simp only [h3, if_true] at h
            refine ih _ _ _ hV' hs' ⟨by simp, ?_, ?_⟩ cur' l' h
            · intro _
              simp
            · intro ht c hc hc0
              simp only at ht hc0 ⊢
              rcases List.mem_append.mp hc with hc | hc
              · obtain ⟨j1, j2, _⟩ := i3 ht c hc hc0
                refine ⟨trivial, by omega, ?_⟩
                intro he
                omega
              · rw [List.mem_singleton] at hc
                subst hc
                exact ⟨trivial, le_refl _, fun _ => le_refl _⟩
          · simp only [h3, if_false] at h
            have hsolved : l.solved = false := by
              cases hls : l.solved with
              | false => rfl
              | true =>
                have := i1 hls
                omega
            refine ih _ _ _ hV' hs' ⟨by simp, ?_, ?_⟩ cur' l' h
            · intro _
              exact List.mem_append_left _ (i2 hsolved)
            · intro ht c hc hc0
              simp only at ht hc0 ⊢
              rcases List.mem_append.mp hc with hc | hc
              · obtain ⟨_, j2, j3⟩ := i3 ht c hc hc0
                exact ⟨trivial, j2, j3⟩
              · rw [List.mem_singleton] at hc
                subst hc
                refine ⟨trivial, by show l.small ≤ (getmoves cur.arr x y).num; omega, ?_⟩
                intro _
                exact le_of_lt (hV _ (i2 hsolved) (x, y) (List.mem_cons_self _ _))
    · rw [if_neg h0] at h
      refine ih _ _ _ hV' hs' ⟨i1, ?_, ?_⟩ cur' l' h
      · intro hsol
        exact List.mem_append_left _ (i2 hsol)
      · intro ht c hc hc0
        rcases List.mem_append.mp hc with hc | hc
        · exact i3 ht c hc hc0
        · rw [List.mem_singleton] at hc
          subst hc
          exact absurd hc0 h0

/-- On a grid whose empty cells all have two or more available values the sweep runs to
its end and writes nothing. -/
theorem pass_of_stalled (head : List board) (cs : List (Nat × Nat)) :
    ∀ (cur : board) (l : locals),
      (∀ c ∈ cs, cur.arr c.1 c.2 = 0 → 2 ≤ (getmoves cur.arr c.1 c.2).num) →
      ∃ cur' l', pass head cs cur l = .completed cur' l' ∧ cur'.arr = cur.arr ∧
        cur'.tried = cur.tried ∧ l'.taken = l.taken ∧ (l.solved = false → l'.solved = false) ∧
        ((∃ c ∈ cs, cur.arr c.1 c.2 = 0) → l'.solved = false) := by
  induction cs with
  | nil =>
    intro cur l _
    refine ⟨cur, l, by rw [pass], rfl, rfl, rfl, fun h => h, ?_⟩
    rintro ⟨c, hc, _⟩
    simp at hc
  | cons c cs ih =>
    obtain ⟨x, y⟩ := c
    intro cur l hall
    have hall' : ∀ c ∈ cs, cur.arr c.1 c.2 = 0 → 2 ≤ (getmoves cur.arr c.1 c.2).num :=
      fun c hc => hall c (List.mem_cons_of_mem _ hc)
    rw [pass]
    by_cases h0 : cur.arr x y = 0
    · have h2 := hall (x, y) (List.mem_cons_self _ _) h0
      simp only at h2
      rw [if_pos h0]
      simp only [setmoves_same]
      rw [if_neg (by omega), if_neg (by omega)]
      have key : ∀ l2 : locals, l2.solved = false → l2.taken = l.taken →
          ∃ cur' l', pass head cs
              { arr := cur.arr, moves := setmoves cur.moves x y (getmoves cur.arr x y),
                tried := cur.tried } l2 = .completed cur' l' ∧ cur'.arr = cur.arr ∧
            cur'.tried = cur.tried ∧ l'.taken = l.taken ∧ (l.solved = false → l'.solved = false) ∧
            ((∃ c ∈ (x, y) :: cs, cur.arr c.1 c.2 = 0) → l'.solved = false) := by
        intro l2 hs2 ht2
        obtain ⟨cur', l', e1, e2, e3, e4, e5, _⟩ := ih
          { arr := cur.arr, moves := setmoves cur.moves x y (getmoves cur.arr x y),
            tried := cur.tried } l2 hall'
        exact ⟨cur', l', e1, e2, e3, by rw [e4, ht2], fun _ => e5 hs2, fun _ => e5 hs2⟩
      by_cases h3 : (getmoves cur.arr x y).num < l.small
      · simp only [h3, if_true]
        exact key _ rfl rfl
      · simp only [h3, if_false]
        exact key _ rfl rfl
    · rw [if_neg h0]
      obtain ⟨cur', l', e1, e2, e3, e4, e5, e6⟩ := ih cur l hall'
      refine ⟨cur', l', e1, e2, e3, e4, e5, ?_⟩
      rintro ⟨c, hc, hc0⟩
      rcases List.mem_cons.mp hc with rfl | hc
      · exact absurd hc0 h0
      · exact e6 ⟨c, hc, hc0⟩

/-- What a sweep that ran to its end without writing and left a cell open has selected. -/
theorem stalled_selection {head : List board} {cur : board} {sx sy : Nat}
    (hc : (pass head cells cur ⟨true, false, 10, sx, sy⟩).isCompleted = true)
    (hs : (pass head cells cur ⟨true, false, 10, sx, sy⟩).locals.solved = false)
    (ht : (pass head cells cur ⟨true, false, 10, sx, sy⟩).locals.taken = false) :
    (pass head cells cur ⟨true, false, 10, sx, sy⟩).board.arr = cur.arr ∧
      (pass head cells cur ⟨true, false, 10, sx, sy⟩).board.tried = cur.tried ∧
      IsSel cur.arr (pass head cells cur ⟨true, false, 10, sx, sy⟩).locals.smallx
        (pass head cells cur ⟨true, false, 10, sx, sy⟩).locals.smally ∧
      (pass head cells cur ⟨true, false, 10, sx, sy⟩).board.moves
          (pass head cells cur ⟨true, false, 10, sx, sy⟩).locals.smallx
          (pass head cells cur ⟨true, false, 10, sx, sy⟩).locals.smally =
        getmoves cur.arr (pass head cells cur ⟨true, false, 10, sx, sy⟩).locals.smallx
          (pass head cells cur ⟨true, false, 10, sx, sy⟩).locals.smally ∧
      (getmoves cur.arr (pass head cells cur ⟨true, false, 10, sx, sy⟩).locals.smallx
          (pass head cells cur ⟨true, false, 10, sx, sy⟩).locals.smally).num =
        (pass head cells cur ⟨true, false, 10, sx, sy⟩).locals.small ∧
      2 ≤ (pass head cells cur ⟨true, false, 10, sx, sy⟩).locals.small ∧
      (pass head cells cur ⟨true, false, 10, sx, sy⟩).locals.small ≤ 9 := by
  have he := sweep.eq_completed_of_isCompleted hc
  revert hs ht he
  generalize (pass head cells cur ⟨true, false, 10, sx, sy⟩).board = cur'
  generalize (pass head cells cur ⟨true, false, 10, sx, sy⟩).locals = l'
  intro hs ht he
  have hp := pass_spec head cells cur ⟨true, false, 10, sx, sy⟩ cells_nodup cells_lt
    ⟨by simp, by simp⟩
  rw [he] at hp
  obtain ⟨p1, ⟨n, p2, p3⟩, _, p5⟩ := hp
  have hn : n = 0 := by
    rw [ht] at p3
    simpa using p3.symm
  subst hn
  have harr : cur'.arr = cur.arr := p2.zero_eq
  obtain ⟨a1, a2, a3, _, a5, a6⟩ := p5.2 hs
  obtain ⟨a7, a8⟩ := a6 ht
  have hmin := pass_min head cells [] cur ⟨true, false, 10, sx, sy⟩ (by simp) cells_sorted
    ⟨by simp, by simp, by simp⟩ cur' l' he
  simp only [List.nil_append] at hmin
  have h3 := hmin.2.2 ht
  rw [harr] at a7 a8 h3
  have hnum : (getmoves cur.arr l'.smallx l'.smally).num = l'.small := by
    rw [← a8]
    exact a5
  refine ⟨harr, p1, ⟨a1, a2, a7, ?_⟩, a8, hnum, a3, ?_⟩
  · intro a ha b hb hab
    obtain ⟨_, m2, m3⟩ := h3 (a, b) (mem_cells a b ha hb) hab
    rw [hnum]
    exact ⟨m2, m3⟩
  · rw [← hnum]
    exact getmoves_num_le _ _ _

/-- A sweep ends without writing and with a cell left open exactly on the grids whose
empty cells, of which there is one, all have two or more available values. -/
theorem stalled_iff (head : List board) (cur : board) (sx sy : Nat) :
    ((pass head cells cur ⟨true, false, 10, sx, sy⟩).isCompleted = true ∧
      (pass head cells cur ⟨true, false, 10, sx, sy⟩).locals.solved = false ∧
      (pass head cells cur ⟨true, false, 10, sx, sy⟩).locals.taken = false) ↔
      StalledGrid cur.arr := by
  constructor
  · rintro ⟨hc, hs, ht⟩
    obtain ⟨_, _, ⟨s1, s2, s3, s4⟩, _, s6, s7, _⟩ := stalled_selection hc hs ht
    refine ⟨?_, _, s1, _, s2, s3⟩
    intro x hx y hy hxy
    have := (s4 x hx y hy hxy).1
    omega
  · rintro ⟨h1, x, hx, y, hy, hxy⟩
    obtain ⟨cur', l', e1, _, _, e4, _, e6⟩ := pass_of_stalled head cells cur
      ⟨true, false, 10, sx, sy⟩ (fun c hc => h1 _ (cells_lt c hc).1 _ (cells_lt c hc).2)
    rw [e1]
    exact ⟨rfl, e6 ⟨(x, y), mem_cells x y hx hy, hxy⟩, e4⟩

theorem IsSel.unique_cell {g : Grid} {x y a b : Nat} (h1 : IsSel g x y) (h2 : IsSel g a b) :
    x = a ∧ y = b := by
  obtain ⟨x1, x2, x3, x4⟩ := h1
  obtain ⟨a1, a2, a3, a4⟩ := h2
  obtain ⟨p1, p2⟩ := x4 a a1 b a2 a3
  obtain ⟨q1, q2⟩ := a4 x x1 y x2 x3
  have hr := @rank_inj (x, y) (a, b) x2 a2
    (le_antisymm (p2 (by omega)) (q2 (by omega)))
  exact ⟨congrArg Prod.fst hr, congrArg Prod.snd hr⟩

/-! ## The loop body, branch by branch -/

theorem sweepOf_spec (s : State) :
    PassSpec s.head cells s.current ⟨true, false, 10, s.smallx, s.smally⟩ (sweepOf s) :=
  pass_spec s.head cells s.current ⟨true, false, 10, s.smallx, s.smally⟩ cells_nodup cells_lt
    ⟨by simp, by simp⟩

theorem iteration_eq (s : State) :
    iteration s =
      match sweepOf s with
      | .invalid current l => .invalid ⟨current, [], l.smallx, l.smally⟩
      | .popped top rest l => .again ⟨top, rest, l.smallx, l.smally⟩
      | .completed current l =>
        if !l.solved && !l.taken then
          match pickGuess current l.smallx l.smally l.small 0 with
          | none => backtrack current s.head l
          | some guess => .again (takeGuess current s.head l guess)
        else if l.solved then
          .solved ⟨current, s.head, l.smallx, l.smally⟩
        else
          .again ⟨current, s.head, l.smallx, l.smally⟩ := rfl

/-- When the current board is given up, the loop body ends in the branch that pops the
stack or reports "Invalid Board!". -/
theorem iteration_of_gaveUp {s : State} (h : gaveUp s = true) :
    iteration s = backtrack (sweepOf s).board s.head (sweepOf s).locals := by
  have hp := sweepOf_spec s
  rw [iteration_eq]
  unfold gaveUp at h
  revert h hp
  generalize sweepOf s = r
  intro h hp
  cases r with
  | invalid cur l =>
    obtain ⟨h1, _⟩ := hp
    simp only [sweep.board, sweep.locals, h1, backtrack]
  | popped top rest l =>
    obtain ⟨h1, _⟩ := hp
    simp only [sweep.board, sweep.locals, h1, backtrack]
  | completed cur l =>
    simp only [sweep.isCompleted, sweep.board, sweep.locals, Bool.not_true, Bool.false_or,
      Bool.and_eq_true, Option.isNone_iff_eq_none] at h
    obtain ⟨hf, hn⟩ := h
    simp only [sweep.board, sweep.locals]
    rw [if_pos (by simpa using hf), hn]

theorem iteration_of_guess {s : State} {v : Nat}
    (hc : (sweepOf s).isCompleted = true) (hs : (sweepOf s).locals.solved = false)
    (ht : (sweepOf s).locals.taken = false)
    (hp : pickGuess (sweepOf s).board (sweepOf s).locals.smallx (sweepOf s).locals.smally
      (sweepOf s).locals.small 0 = some v) :
    iteration s = .again (takeGuess (sweepOf s).board s.head (sweepOf s).locals v) := by
  rw [iteration_eq]
  revert hc hs ht hp
  generalize sweepOf s = r
  intro hc hs ht hp
  cases r with
  | invalid cur l => simp [sweep.isCompleted] at hc
  | popped top rest l => simp [sweep.isCompleted] at hc
  | completed cur l =>
    simp only [sweep.board, sweep.locals] at hs ht hp ⊢
    rw [if_pos (by simp [hs, ht]), hp]

theorem iteration_of_progress {s : State}
    (hc : (sweepOf s).isCompleted = true) (hs : (sweepOf s).locals.solved = false)
    (ht : (sweepOf s).locals.taken = true) :
    iteration s =
      .again ⟨(sweepOf s).board, s.head, (sweepOf s).locals.smallx, (sweepOf s).locals.smally⟩ := by
  rw [iteration_eq]
  revert hc hs ht
  generalize sweepOf s = r
  intro hc hs ht
  cases r with
  | invalid cur l => simp [sweep.isCompleted] at hc
  | popped top rest l => simp [sweep.isCompleted] at hc
  | completed cur l =>
    simp only [sweep.board, sweep.locals] at hs ht ⊢
    rw [if_neg (by simp [hs, ht]), if_neg (by simp [hs])]

theorem iteration_of_solved {s : State}
    (hc : (sweepOf s).isCompleted = true) (hs : (sweepOf s).locals.solved = true) :
    iteration s =
      .solved ⟨(sweepOf s).board, s.head, (sweepOf s).locals.smallx, (sweepOf s).locals.smally⟩ := by
  rw [iteration_eq]
  revert hc hs
  generalize sweepOf s = r
  intro hc hs
  cases r with
  | invalid cur l => simp [sweep.isCompleted] at hc
  | popped top rest l => simp [sweep.isCompleted] at hc
  | completed cur l =>
    simp only [sweep.board, sweep.locals] at hs ⊢
    rw [if_neg (by simp [hs]), if_pos hs]

/-- The four branches of the loop body. -/
theorem iteration_branches (s : State) :
    gaveUp s = true ∨
      ((sweepOf s).isCompleted = true ∧ (sweepOf s).locals.solved = false ∧
        (sweepOf s).locals.taken = false ∧
        ∃ v, pickGuess (sweepOf s).board (sweepOf s).locals.smallx (sweepOf s).locals.smally
          (sweepOf s).locals.small 0 = some v) ∨
      ((sweepOf s).isCompleted = true ∧ (sweepOf s).locals.solved = false ∧
        (sweepOf s).locals.taken = true) ∨
      ((sweepOf s).isCompleted = true ∧ (sweepOf s).locals.solved = true) := by
  unfold gaveUp
  cases hc : (sweepOf s).isCompleted with
  | false => simp
  | true =>
    cases hs : (sweepOf s).locals.solved with
    | true => simp
    | false =>
      cases ht : (sweepOf s).locals.taken with
      | true => simp
      | false =>
        cases hp : pickGuess (sweepOf s).board (sweepOf s).locals.smallx
            (sweepOf s).locals.smally (sweepOf s).locals.small 0 with
        | none => simp
        | some v => simp

theorem backtrack_nil (cur : board) (l : locals) :
    backtrack cur [] l = .invalid ⟨cur, [], l.smallx, l.smally⟩ := rfl

theorem backtrack_cons (cur top : board) (rest : List board) (l : locals) :
    backtrack cur (top :: rest) l = .again ⟨top, rest, l.smallx, l.smally⟩ := rfl

/-- "Invalid Board!" is reported only when the current board is given up while the stack
is empty. -/
theorem gaveUp_of_invalid {s : State} (h : (iteration s).isInvalid = true) :
    gaveUp s = true ∧ s.head = [] := by
  rcases iteration_branches s with hg | ⟨hc, hs, ht, v, hp⟩ | ⟨hc, hs, ht⟩ | ⟨hc, hs⟩
  · refine ⟨hg, ?_⟩
    rw [iteration_of_gaveUp hg] at h
    cases hh : s.head with
    | nil => rfl
    | cons top rest =>
      rw [hh, backtrack_cons] at h
      simp [outcome.isInvalid] at h
  · rw [iteration_of_guess hc hs ht hp] at h
    simp [outcome.isInvalid] at h
  · rw [iteration_of_progress hc hs ht] at h
    simp [outcome.isInvalid] at h
  · rw [iteration_of_solved hc hs] at h
    simp [outcome.isInvalid] at h

/-- Why a board is given up. -/
theorem dead_of_gaveUp {s : State} (h : gaveUp s = true) : Dead s.current := by
  have hspec := iteration_spec s
  rw [iteration_of_gaveUp h] at hspec
  cases hh : s.head with
  | nil =>
    rw [hh, backtrack_nil] at hspec
    cases hspec with
    | invalid _ _ _ hd => exact hd
  | cons top rest =>
    rw [hh, backtrack_cons] at hspec
    generalize hs' : (⟨top, rest, (sweepOf s).locals.smallx, (sweepOf s).locals.smally⟩ : State)
      = s' at hspec
    have e1 : s'.head = rest := by rw [← hs']
    cases hspec with
    | progress _ n h1 _ _ =>
      rw [e1, hh] at h1
      exact absurd (congrArg List.length h1) (by simp)
    | guess _ x y v b _ _ _ _ _ _ hhead _ _ _ _ =>
      rw [e1, hh] at hhead
      exact absurd (congrArg List.length hhead) (by simp; omega)
    | pop _ _ hd => exact hd

/-! ## The order of the available values -/

theorem maskOf_filter (Z : Nat → Bool) :
    (maskOf Z).filter (fun v => v != 0) =
      [1, 2, 3, 4, 5, 6, 7, 8, 9].filter (fun w => !Z w) := by
  unfold maskOf
  rw [List.filter_map]
  have h1 : ∀ w ∈ [1, 2, 3, 4, 5, 6, 7, 8, 9],
      ((fun v => v != 0) ∘ fun w => if Z w = true then 0 else w) w = !Z w := by
    intro w hw
    have hw0 : w ≠ 0 := by
      simp only [List.mem_cons, List.mem_singleton, List.not_mem_nil, or_false] at hw
      omega
    cases hZ : Z w <;> simp [hZ, hw0]
  rw [List.filter_congr h1]
  have h2 : ∀ w ∈ [1, 2, 3, 4, 5, 6, 7, 8, 9].filter (fun w => !Z w),
      (fun w => if Z w = true then 0 else w) w = id w := by
    intro w hw
    have := (List.mem_filter.mp hw).2
    simp only [Bool.not_eq_true'] at this
    simp [this]
  rw [List.map_congr_left h2, List.map_id]

/-- The function `getmoves` returns the available values in strictly ascending order. -/
theorem getmoves_sorted (arr : Grid) (x y : Nat) :
    (getmoves arr x y).array.Pairwise (fun a b => a < b) := by
  unfold getmoves
  simp only []
  rw [getmovesContains_eq, maskOf_filter]
  exact List.Pairwise.sublist (List.filter_sublist _) (by decide)

/-- The guess the loop leaves with is the smallest available value that is not in the
list of tried guesses. -/
theorem pickGuess_least {cur : board} {sx sy v n : Nat}
    (hlen : (cur.moves sx sy).array.length = n)
    (hsorted : (cur.moves sx sy).array.Pairwise (fun a b => a < b))
    (h : pickGuess cur sx sy n 0 = some v) :
    v ∈ (cur.moves sx sy).array ∧ (⟨sx, sy, v⟩ : tried) ∉ cur.tried ∧
      ∀ w ∈ (cur.moves sx sy).array, (⟨sx, sy, w⟩ : tried) ∉ cur.tried → v ≤ w := by
  obtain ⟨i, _, hi, hv, hc, hbefore⟩ := pickGuess_some cur sx sy n 0 v h
  have hi' : i < (cur.moves sx sy).array.length := by omega
  refine ⟨by rw [hv]; exact mem_of_getD hi', ?_, ?_⟩
  · rw [← contains_iff]
    simp [hc]
  · intro w hw hnot
    obtain ⟨j, hj, rfl⟩ := exists_getD_of_mem hw
    have hji : ¬ j < i := by
      intro hlt
      have := hbefore j (Nat.zero_le _) hlt
      rw [contains_iff] at this
      exact hnot this
    rw [hv]
    by_cases hij : i = j
    · subst hij
      exact le_refl _
    · have hlt : i < j := by omega
      rw [List.getD_eq_getElem _ _ hi', List.getD_eq_getElem _ _ hj]
      exact le_of_lt (List.pairwise_iff_getElem.mp hsorted i j hi' hj hlt)

/-- The loop finds no guess exactly when every available value was tried. -/
theorem pickGuess_none_iff {cur : board} {sx sy n : Nat}
    (hlen : (cur.moves sx sy).array.length = n) :
    pickGuess cur sx sy n 0 = none ↔
      ∀ w ∈ (cur.moves sx sy).array, (⟨sx, sy, w⟩ : tried) ∈ cur.tried := by
  constructor
  · intro h w hw
    obtain ⟨j, hj, rfl⟩ := exists_getD_of_mem hw
    have := pickGuess_none cur sx sy n 0 h j (Nat.zero_le _) (by omega)
    rwa [contains_iff] at this
  · intro hall
    cases hp : pickGuess cur sx sy n 0 with
    | none => rfl
    | some v =>
      obtain ⟨i, _, hi, hv, hc, _⟩ := pickGuess_some cur sx sy n 0 v hp
      have hmem : v ∈ (cur.moves sx sy).array := by
        rw [hv]
        exact mem_of_getD (by omega)
      have := (contains_iff cur sx sy v).mpr (hall v hmem)
      rw [hc] at this
      simp at this

/-! ## Boards that were branched on -/

theorem sweepOf_completed_tried {s : State} (hc : (sweepOf s).isCompleted = true) :
    (sweepOf s).board.tried = s.current.tried := by
  have hp := sweepOf_spec s
  rw [sweep.eq_completed_of_isCompleted hc] at hp
  exact hp.1

/-- The candidates the guess loop walks through are those of `getmoves` on the current
grid, and the guess it finds is among them. -/
theorem guess_mem_getmoves {s : State} {v : Nat}
    (hc : (sweepOf s).isCompleted = true) (hs : (sweepOf s).locals.solved = false)
    (ht : (sweepOf s).locals.taken = false)
    (hp : pickGuess (sweepOf s).board (sweepOf s).locals.smallx (sweepOf s).locals.smally
      (sweepOf s).locals.small 0 = some v) :
    v ∈ (getmoves s.current.arr (sweepOf s).locals.smallx (sweepOf s).locals.smally).array ∧
      (⟨(sweepOf s).locals.smallx, (sweepOf s).locals.smally, v⟩ : tried) ∉ s.current.tried ∧
      ∀ w ∈ (getmoves s.current.arr (sweepOf s).locals.smallx (sweepOf s).locals.smally).array,
        (⟨(sweepOf s).locals.smallx, (sweepOf s).locals.smally, w⟩ : tried) ∉ s.current.tried →
          v ≤ w := by
  obtain ⟨_, s2, _, s4, s5, _, _⟩ := stalled_selection hc hs ht
  have hlen : ((sweepOf s).board.moves (sweepOf s).locals.smallx
      (sweepOf s).locals.smally).array.length = (sweepOf s).locals.small := by
    rw [sweepOf, s4, ← getmoves_num]
    exact s5
  have hsorted : ((sweepOf s).board.moves (sweepOf s).locals.smallx
      (sweepOf s).locals.smally).array.Pairwise (fun a b => a < b) := by
    rw [sweepOf, s4]
    exact getmoves_sorted _ _ _
  have h := pickGuess_least hlen hsorted hp
  rw [show (sweepOf s).board.tried = s.current.tried from s2] at h
  rw [show (sweepOf s).board.moves (sweepOf s).locals.smallx (sweepOf s).locals.smally =
    getmoves s.current.arr (sweepOf s).locals.smallx (sweepOf s).locals.smally from s4] at h
  exact h

theorem branchInv_step {s s' : State} (hinv : BranchInv s) (h : iteration s = .again s') :
    BranchInv s' := by
  obtain ⟨i1, i2⟩ := hinv
  rcases iteration_branches s with hg | ⟨hc, hs, ht, v, hp⟩ | ⟨hc, hs, ht⟩ | ⟨hc, hs⟩
  · rw [iteration_of_gaveUp hg] at h
    cases hh : s.head with
    | nil =>
      rw [hh, backtrack_nil] at h
      simp at h
    | cons top rest =>
      rw [hh, backtrack_cons] at h
      simp only [outcome.again.injEq] at h
      subst h
      rw [hh] at i2
      exact ⟨fun _ => (i2 top (List.mem_cons_self _ _)).1,
        fun b hb => i2 b (List.mem_cons_of_mem _ hb)⟩
  · rw [iteration_of_guess hc hs ht hp] at h
    simp only [outcome.again.injEq] at h
    subst h
    obtain ⟨s1, s2, s3, _, _, _, _⟩ := stalled_selection hc hs ht
    obtain ⟨g1, _, _⟩ := guess_mem_getmoves hc hs ht hp
    have hst : StalledGrid s.current.arr := (stalled_iff _ _ _ _).mp ⟨hc, hs, ht⟩
    refine ⟨fun hne => absurd rfl hne, ?_⟩
    intro b hb
    simp only [takeGuess] at hb
    rcases List.mem_cons.mp hb with rfl | hb
    · refine ⟨⟨by rw [show (sweepOf s).board.arr = s.current.arr from s1]; exact hst, ?_⟩,
        by simp⟩
      intro t ht'
      simp only at ht' ⊢
      rw [show (sweepOf s).board.arr = s.current.arr from s1]
      rcases List.mem_cons.mp ht' with rfl | ht'
      · exact ⟨s3, g1⟩
      · rw [show (sweepOf s).board.tried = s.current.tried from s2] at ht'
        exact (i1 (List.ne_nil_of_mem ht')).2 t ht'
    · exact i2 b hb
  · rw [iteration_of_progress hc hs ht] at h
    simp only [outcome.again.injEq] at h
    subst h
    refine ⟨?_, i2⟩
    intro hne
    simp only at hne
    rw [sweepOf_completed_tried hc] at hne
    have hst := (i1 hne).1
    have := ((stalled_iff s.head s.current s.smallx s.smally).mpr hst).2.2
    rw [show pass s.head cells s.current ⟨true, false, 10, s.smallx, s.smally⟩ = sweepOf s
      from rfl, ht] at this
    simp at this
  · rw [iteration_of_solved hc hs] at h
    simp at h

theorem branchInv_iterate {g : Grid} {k : Nat} {s : State}
    (h : iterate k (start g) = some s) : BranchInv s :=
  iterate_invariant BranchInv (fun _ _ ha hab => branchInv_step ha hab) k (start g) s
    ⟨fun hne => absurd rfl hne, fun b hb => by simp [start] at hb⟩ h

/-- A sweep over a board that was branched on changes nothing and selects the cell of
the guesses the board holds. -/
theorem Branched.sweep_again {b : board} (hb : Branched b) (hs : List board) (sx sy : Nat) :
    (pass hs cells b ⟨true, false, 10, sx, sy⟩).isCompleted = true ∧
      (pass hs cells b ⟨true, false, 10, sx, sy⟩).locals.solved = false ∧
      (pass hs cells b ⟨true, false, 10, sx, sy⟩).locals.taken = false ∧
      (pass hs cells b ⟨true, false, 10, sx, sy⟩).board.arr = b.arr ∧
      (pass hs cells b ⟨true, false, 10, sx, sy⟩).board.tried = b.tried ∧
      (pass hs cells b ⟨true, false, 10, sx, sy⟩).board.moves
          (pass hs cells b ⟨true, false, 10, sx, sy⟩).locals.smallx
          (pass hs cells b ⟨true, false, 10, sx, sy⟩).locals.smally =
        getmoves b.arr (pass hs cells b ⟨true, false, 10, sx, sy⟩).locals.smallx
          (pass hs cells b ⟨true, false, 10, sx, sy⟩).locals.smally ∧
      ∀ t ∈ b.tried,
        t.x = (pass hs cells b ⟨true, false, 10, sx, sy⟩).locals.smallx ∧
        t.y = (pass hs cells b ⟨true, false, 10, sx, sy⟩).locals.smally ∧
        t.value ∈ ((pass hs cells b ⟨true, false, 10, sx, sy⟩).board.moves
          (pass hs cells b ⟨true, false, 10, sx, sy⟩).locals.smallx
          (pass hs cells b ⟨true, false, 10, sx, sy⟩).locals.smally).array := by
  obtain ⟨h1, h2, h3⟩ := (stalled_iff hs b sx sy).mpr hb.1
  obtain ⟨s1, s2, s3, s4, _, _, _⟩ := stalled_selection h1 h2 h3
  refine ⟨h1, h2, h3, s1, s2, s4, ?_⟩
  intro t ht
  obtain ⟨t1, t2⟩ := hb.2 t ht
  obtain ⟨e1, e2⟩ := t1.unique_cell s3
  refine ⟨e1, e2, ?_⟩
  rw [s4, ← e1, ← e2]
  exact t2

/-! ## Empty cells along the stack -/

theorem descending_mono {e e' : Nat} (h : e' ≤ e) :
    ∀ {l : List board}, Descending e l → Descending e' l := by
  intro l hl
  cases l with
  | nil => trivial
  | cons b rest => exact ⟨lt_of_le_of_lt h hl.1, hl.2⟩

theorem descending_step {s s' : State} (hinv : Descending (emptyCount s.current.arr) s.head)
    (h : iteration s = .again s') : Descending (emptyCount s'.current.arr) s'.head := by
  have hspec := iteration_spec s
  rw [h] at hspec
  cases hspec with
  | progress _ n h1 _ h3 =>
    rw [h1]
    exact descending_mono (by have := h3.emptyCount_add; omega) hinv
  | guess _ x y v b hx hy h0 hv _ _ hhead harr _ hcur _ =>
    have hv' := (mem_getmoves _ _ _ _).mp hv
    have he := emptyCount_set s.current.arr x y v hx hy h0 (by omega)
    rw [hhead, hcur]
    refine ⟨by rw [harr]; omega, ?_⟩
    rw [harr]
    exact hinv
  | pop _ hhead _ =>
    rw [hhead] at hinv
    exact hinv.2

theorem descending_iterate {g : Grid} {k : Nat} {s : State}
    (h : iterate k (start g) = some s) : Descending (emptyCount s.current.arr) s.head :=
  iterate_invariant (fun s => Descending (emptyCount s.current.arr) s.head)
    (fun _ _ ha hab => descending_step ha hab) k (start g) s trivial h

theorem descending_length_le {M : Nat} :
    ∀ {l : List board} {e : Nat}, Descending e l → e ≤ M →
      (∀ b ∈ l, emptyCount b.arr ≤ M) → e + l.length ≤ M := by
  intro l
  induction l with
  | nil =>
    intro e _ he _
    simpa using he
  | cons b rest ih =>
    intro e hd _ hall
    have := ih hd.2 (hall b (List.mem_cons_self _ _))
      (fun c hc => hall c (List.mem_cons_of_mem _ hc))
    have := hd.1
    simp only [List.length_cons]
    omega

theorem emptyCount_le (g : Grid) : emptyCount g ≤ 81 := by
  unfold emptyCount
  calc cells.countP _ ≤ cells.length := List.countP_le_length _
    _ = 81 := by decide

theorem emptyCount_set_step (g0 : Grid) :
    ∀ g x y v, x < 9 → y < 9 → g x y = 0 → v ∈ (getmoves g x y).array →
      emptyCount g ≤ emptyCount g0 → emptyCount (g.set x y v) ≤ emptyCount g0 := by
  intro g x y v hx hy h0 hv hle
  have hv' := (mem_getmoves _ _ _ _).mp hv
  have := emptyCount_set g x y v hx hy h0 (by omega)
  omega

/-! ## Writes -/

theorem writesInto_refl (g : Grid) : WritesInto g g := fun _ _ => Or.inl rfl

theorem writesInto_trans {g1 g2 g3 : Grid} (h12 : WritesInto g1 g2) (h23 : WritesInto g2 g3) :
    WritesInto g1 g3 := by
  intro x y
  rcases h12 x y with a | ⟨a1, a2, a3⟩ <;> rcases h23 x y with b | ⟨b1, b2, b3⟩
  · exact Or.inl (b.trans a)
  · exact Or.inr ⟨by rw [← a]; exact b1, b2, b3⟩
  · exact Or.inr ⟨a1, by rw [b]; exact a2, by rw [b]; exact a3⟩
  · omega

theorem writesInto_set (g : Grid) {x y v : Nat} (h0 : g x y = 0) (h1 : 1 ≤ v)
    (h9 : v ≤ 9) : WritesInto g (g.set x y v) := by
  intro i j
  by_cases hij : i = x ∧ j = y
  · obtain ⟨rfl, rfl⟩ := hij
    exact Or.inr ⟨h0, by rw [Grid.set_same]; exact h1, by rw [Grid.set_same]; exact h9⟩
  · exact Or.inl (Grid.set_other _ _ _ _ _ _ hij)

theorem ForcedN.writesInto {n : Nat} {g g' : Grid} (h : ForcedN n g g') : WritesInto g g' := by
  induction h with
  | refl => exact writesInto_refl _
  | step h1 _ ih =>
    obtain ⟨x, y, _, _, h0, hn, rfl⟩ := h1
    have hm := (mem_getmoves _ _ _ _).mp (getmoves_single_mem _ x y hn)
    exact writesInto_trans (writesInto_set _ h0 hm.1 hm.2.1) ih

/-- The grid at the end of a sweep that was not cut short by a pop arises from the grid
at its start by writes of values 1..9 into empty cells. -/
theorem sweepOf_writesInto (s : State) :
    (sweepOf s).isCompleted = true ∨ s.head = [] →
      WritesInto s.current.arr (sweepOf s).board.arr := by
  have hp := sweepOf_spec s
  revert hp
  generalize sweepOf s = r
  intro hp h
  cases r with
  | completed cur l =>
    obtain ⟨_, ⟨n, h2, _⟩, _, _⟩ := hp
    exact h2.writesInto
  | invalid cur l =>
    obtain ⟨_, _, n, h2, _⟩ := hp
    exact h2.writesInto
  | popped top rest l =>
    obtain ⟨h1, _⟩ := hp
    rcases h with h | h
    · simp [sweep.isCompleted] at h
    · rw [h] at h1
      simp at h1

/-- A run through the loop body either pops the stack or reaches its new current grid
from the old one by writes of values 1..9 into empty cells. -/
theorem iteration_writesInto {s s' : State}
    (h : iteration s = .again s' ∨ iteration s = .solved s') :
    WritesInto s.current.arr s'.current.arr ∨ s.head = s'.current :: s'.head := by
  have hspec := iteration_spec s
  rcases h with h | h
  · rw [h] at hspec
    cases hspec with
    | progress _ n _ _ h3 => exact Or.inl h3.writesInto
    | guess _ x y v b _ _ h0 hv _ _ _ _ _ hcur _ =>
      have hm := (mem_getmoves _ _ _ _).mp hv
      rw [hcur]
      exact Or.inl (writesInto_set _ h0 hm.1 hm.2.1)
    | pop _ hhead _ => exact Or.inr hhead
  · rw [h] at hspec
    cases hspec with
    | solved _ n _ _ h3 _ => exact Or.inl h3.writesInto

/-! ## Cells and units -/

theorem noClash_of_consistent {g : Grid} (h : Consistent g) : NoClash g := by
  intro x y x' y' hx hy hx' hy' hne hsame hnz
  rcases hsame with rfl | rfl | ⟨h1, h2⟩
  · exact h.rowOK x y y' hx hy hy' (fun e => hne ⟨rfl, e⟩) hnz
  · exact h.colOK x x' y hx hx' hy (fun e => hne ⟨e, rfl⟩) hnz
  · exact h.boxOK (x / 3) (y / 3) x y x' y' hx hy hx' hy' rfl rfl h1.symm h2.symm hne hnz

theorem consistent_of_noClash {g : Grid} (h : NoClash g) : Consistent g := by
  intro u hu
  unfold unitValues
  rw [List.filter_map]
  apply List.Nodup.map_on
  · intro p hp q hq hpq
    have hp' := List.mem_filter.mp hp
    have hq' := List.mem_filter.mp hq
    obtain ⟨p1, p2⟩ := units_lt u hu p hp'.1
    obtain ⟨q1, q2⟩ := units_lt u hu q hq'.1
    by_contra hne
    have hnz : g p.1 p.2 ≠ 0 := by simpa using hp'.2
    refine h p.1 p.2 q.1 q.2 p1 p2 q1 q2 ?_ (units_same u hu p hp'.1 q hq'.1) hnz hpq
    rintro ⟨e1, e2⟩
    exact hne (Prod.ext e1 e2)
  · exact (units_nodup u hu).filter _

theorem iterate_one {s : State} (h1 : (iteration s).isSolved = false)
    (h2 : (iteration s).isInvalid = false) : iterate 1 s = some (iteration s).state := by
  rw [iterate]
  cases hi : iteration s with
  | again t => rfl
  | solved t => simp [hi, outcome.isSolved] at h1
  | invalid t => simp [hi, outcome.isInvalid] at h2

/-! ## Giving a board up -/

/-- A board is given up after a sweep that ran to its end only when the sweep wrote
nothing, left a cell open, and every value available at the selected cell is in the
list of tried guesses. -/
theorem exhausted_of_gaveUp {s : State} (h : gaveUp s = true)
    (hc : (sweepOf s).isCompleted = true) :
    (sweepOf s).locals.solved = false ∧ (sweepOf s).locals.taken = false ∧
      ∀ w ∈ (getmoves s.current.arr (sweepOf s).locals.smallx (sweepOf s).locals.smally).array,
        (⟨(sweepOf s).locals.smallx, (sweepOf s).locals.smally, w⟩ : tried) ∈ s.current.tried := by
  unfold gaveUp at h
  rw [hc] at h
  simp only [Bool.not_true, Bool.false_or, Bool.and_eq_true, Bool.not_eq_true',
    Option.isNone_iff_eq_none] at h
  obtain ⟨⟨hs, ht⟩, hp⟩ := h
  obtain ⟨_, s2, _, s4, s5, _, _⟩ := stalled_selection hc hs ht
  have hlen : ((sweepOf s).board.moves (sweepOf s).locals.smallx
      (sweepOf s).locals.smally).array.length = (sweepOf s).locals.small := by
    rw [sweepOf, s4, ← getmoves_num]
    exact s5
  have hnone := (@pickGuess_none_iff (sweepOf s).board _ _ _ hlen).mp hp
  rw [show (sweepOf s).board.tried = s.current.tried from s2,
    show (sweepOf s).board.moves (sweepOf s).locals.smallx (sweepOf s).locals.smally =
      getmoves s.current.arr (sweepOf s).locals.smallx (sweepOf s).locals.smally from s4]
    at hnone
  exact ⟨hs, ht, hnone⟩

/-- A sweep is cut short only at a cell that is empty and without available value in the
grid as the forced placements before it left it. -/
theorem stuck_of_not_completed {s : State} (hc : (sweepOf s).isCompleted = false) :
    ∃ n g', ForcedN n s.current.arr g' ∧ Stuck g' := by
  have hp := sweepOf_spec s
  revert hp hc
  generalize sweepOf s = r
  intro hc hp
  cases r with
  | completed cur l => simp [sweep.isCompleted] at hc
  | invalid cur l =>
    obtain ⟨_, _, n, h2, h3⟩ := hp
    exact ⟨n, _, h2, h3⟩
  | popped top rest l =>
    obtain ⟨_, n, g', h2, h3⟩ := hp
    exact ⟨n, g', h2, h3⟩

/-! ## Arithmetic of the box scan -/

theorem box_test_pass {x i : Nat} (hx : x < 9) (h3 : x ≠ 3) (hi : i / 3 = x / 3)
    (hne : i ≠ x) : x / 3 + (i - x / 3 * 3) ≠ x := by
  omega

theorem box_cell_bound {x loop : Nat} (hx : x < 9) (hl : loop < 3) :
    x / 3 * 3 + loop < 9 ∧ (x / 3 * 3 + loop) / 3 = x / 3 := by
  omega

/-! ## The claims -/

/-- C1 (the code departs from the claim): in `boxSlipGrid` the cell (3,0) is empty and the
cell (5,1), which lies in the same 3*3 box (top-left corner (3,0)), holds 7; `getmoves(3, 0)`
nevertheless returns all nine values, 7 among them. The box scan skips the third row of
the box for every cell of row 3. -/
theorem getmoves_row3_misses_box_value :
    boxSlipGrid 3 0 = 0 ∧ boxSlipGrid 5 1 = 7 ∧ 3 - 3 % 3 = 5 - 5 % 3 ∧ 0 - 0 % 3 = 1 - 1 % 3 ∧
      (getmoves boxSlipGrid 3 0).array = [1, 2, 3, 4, 5, 6, 7, 8, 9] ∧
      7 ∈ (getmoves boxSlipGrid 3 0).array := by
  decide

/-- C2, counterexample: the claim fails for inputs that already hold a value twice. The
full grid of ones has its entries in 0..9 and `solveboard` returns on it at once, yet its
rows are not permutations of 1..9. -/
theorem solved_need_not_be_valid :
    ¬ ∀ (g : Grid) (n : Nat) (s : State), InRange g →
      solveboard n (start g) = some (.solved s) → Valid s.current.arr := by
  intro h
  have hi := iteration_full (start onesGrid) (by decide)
  have hs : solveboard 1 (start onesGrid) = some (.solved (start onesGrid)) := by
    rw [solveboard_succ_of_stop (by rw [hi]; simp) 0, hi]
  have hv := h onesGrid 1 (start onesGrid) (by decide) hs
  exact absurd hv (by decide)

/-- C2, amended: for every input grid with entries in 0..9 in which no row, column or
3*3 box holds the same non-zero value twice, if `solveboard` returns (Solved), then in the
final grid every row, every column and every 3*3 box holds a permutation of 1..9. -/
theorem solved_is_valid_of_consistent (g : Grid) (n : Nat) (s : State) (hr : InRange g)
    (hc : Consistent g) (h : solveboard n (start g) = some (.solved s)) :
    Valid s.current.arr :=
  solved_valid hr hc h

/-- Witness for C2: the reference grid with the cell (0,0) emptied. -/
theorem solved_is_valid_of_consistent_witness :
    InRange forcedSingleGrid ∧ Consistent forcedSingleGrid ∧
      solveboard 1 (start forcedSingleGrid) =
        some (.solved (iteration (start forcedSingleGrid)).state) ∧
      Valid (iteration (start forcedSingleGrid)).state.current.arr :=
  have h : solveboard 1 (start forcedSingleGrid) =
      some (.solved (iteration (start forcedSingleGrid)).state) :=
    solveboard_one_of_isSolved (by decide!)
  ⟨by decide, by decide, h,
    solved_is_valid_of_consistent forcedSingleGrid 1 _ (by decide) (by decide) h⟩

/-- C3 (the code departs from the claim): `rowThreeGrid` holds no value twice in any row,
column or box, its cell (3,0) is empty and its cell (5,1), in the same box, holds 1. The
first sweep of `solveboard` writes 1 into (3,0) as a forced value, so the current grid
then holds 1 twice in one box. -/
theorem forced_placement_repeats_box_value :
    Consistent rowThreeGrid ∧ rowThreeGrid 3 0 = 0 ∧ rowThreeGrid 5 1 = 1 ∧
      getmoves rowThreeGrid 3 0 = ⟨1, [1]⟩ ∧
      (iteration (start rowThreeGrid)).isSolved = false ∧
      (iteration (start rowThreeGrid)).isInvalid = false ∧
      (iteration (start rowThreeGrid)).state.current.arr 3 0 = 1 ∧
      (iteration (start rowThreeGrid)).state.current.arr 5 1 = 1 ∧
      ¬ Consistent (iteration (start rowThreeGrid)).state.current.arr := by
  decide!

/-- C4, counterexample: a repeated value in the input does not make `solveboard` end in
"Invalid Board!". `twoFivesGrid` holds 5 twice in row 0 and `solveboard` returns on it
(Solved) after one sweep. -/
theorem duplicate_input_can_end_solved :
    ¬ ∀ (g : Grid), InRange g → ¬ Consistent g →
      (∃ n s, solveboard n (start g) = some (.invalid s)) ∧
        ∀ n s, solveboard n (start g) ≠ some (.solved s) := by
  intro h
  have hi := iteration_full (start twoFivesGrid) (by decide)
  have hs : solveboard 1 (start twoFivesGrid) = some (.solved (start twoFivesGrid)) := by
    rw [solveboard_succ_of_stop (by rw [hi]; simp) 0, hi]
  exact (h twoFivesGrid (by decide) (by decide)).2 1 _ hs

/-- C4, amended: for every input grid with entries in 0..9 in which some row, column or
3*3 box holds the same non-zero value twice, `solveboard` terminates, as Solved or with
"Invalid Board!"; when it terminates as Solved, the final grid keeps every filled cell
of the input, so it still holds a value twice and is not a solved Sudoku. -/
theorem duplicate_input_outcome (g : Grid) (_hr : InRange g) (hd : ¬ Consistent g) :
    ∃ n r, solveboard n (start g) = some r ∧ (r.isSolved = true ∨ r.isInvalid = true) ∧
      (r.isSolved = true →
        Keeps g r.state.current.arr ∧ ¬ Consistent r.state.current.arr ∧
          ¬ Valid r.state.current.arr) := by
  obtain ⟨n, r, h⟩ := solveboard_terminates (start g)
  refine ⟨n, r, h, outcome.stopped h, ?_⟩
  intro hs
  rw [outcome.eq_solved_of_isSolved hs] at h
  have hk := solved_keeps h
  have hnc : ¬ Consistent r.state.current.arr := fun hc => hd (hc.of_keeps hk)
  exact ⟨hk, hnc, fun hv => hnc hv.consistent⟩

/-- Witness for C4: the reference grid with a second 5 in row 0. -/
theorem duplicate_input_outcome_witness :
    InRange twoFivesGrid ∧ ¬ Consistent twoFivesGrid ∧
      ∃ n r, solveboard n (start twoFivesGrid) = some r ∧
        (r.isSolved = true ∨ r.isInvalid = true) ∧
        (r.isSolved = true →
          Keeps twoFivesGrid r.state.current.arr ∧ ¬ Consistent r.state.current.arr ∧
            ¬ Valid r.state.current.arr) :=
  ⟨by decide, by decide, duplicate_input_outcome twoFivesGrid (by decide) (by decide)⟩

/-- C5: for every input grid with entries in 0..9, `solveboard` reaches a terminal state
(Solved or "Invalid Board!") after finitely many runs through its loop body, and no two
states of the run at the label `Done` have the same current grid, list of tried guesses
and stack. -/
theorem solveboard_halts_without_revisit (g : Grid) (_hr : InRange g) :
    (∃ n r, solveboard n (start g) = some r ∧ (r.isSolved = true ∨ r.isInvalid = true)) ∧
      ∀ i j si sj, i < j → iterate i (start g) = some si → iterate j (start g) = some sj →
        config si ≠ config sj := by
  constructor
  · obtain ⟨n, r, h⟩ := solveboard_terminates (start g)
    exact ⟨n, r, h, outcome.stopped h⟩
  · intro i j si sj hij hi hj heq
    have := potential_iterate_lt hij hi hj
    rw [heq] at this
    exact lt_irrefl _ this

/-- Witness for C5: the example input of the header comment. -/
theorem solveboard_halts_without_revisit_witness :
    InRange classicGrid ∧
      ((∃ n r, solveboard n (start classicGrid) = some r ∧
          (r.isSolved = true ∨ r.isInvalid = true)) ∧
        ∀ i j si sj, i < j → iterate i (start classicGrid) = some si →
          iterate j (start classicGrid) = some sj → config si ≠ config sj) :=
  ⟨by decide, solveboard_halts_without_revisit classicGrid (by decide)⟩

/-- C6: on the reference grid with the cell (0,0) emptied, `getmoves(0, 0)` returns exactly
`[5]`, and `solveboard` returns after a single run through its loop body, with the
reference grid as the current grid, an empty stack and an empty list of tried guesses. -/
theorem forced_single_scenario :
    getmoves forcedSingleGrid 0 0 = ⟨1, [5]⟩ ∧
      solveboard 1 (start forcedSingleGrid) =
        some (.solved (iteration (start forcedSingleGrid)).state) ∧
      (∀ x, x < 9 → ∀ y, y < 9 →
        (iteration (start forcedSingleGrid)).state.current.arr x y = referenceGrid x y) ∧
      (iteration (start forcedSingleGrid)).state.head = [] ∧
      (iteration (start forcedSingleGrid)).state.current.tried = [] := by
  have h : (iteration (start forcedSingleGrid)).isSolved = true := by decide!
  refine ⟨by decide!, solveboard_one_of_isSolved h, by decide!, ?_, by decide!⟩
  have hl : (iteration (start forcedSingleGrid)).state.head.length = 0 := by decide!
  exact List.length_eq_zero.mp hl

/-- C7: on the example input of the header comment `solveboard` returns (Solved), the
final grid has no empty cell and every row, column and 3*3 box of it is a permutation of
1..9, and a guess is taken on the way: after the first run through the loop body the
stack holds a board. -/
theorem classic_puzzle_solved_with_guess :
    (∃ n s, solveboard n (start classicGrid) = some (.solved s) ∧ Full s.current.arr ∧
        Valid s.current.arr) ∧
      ∃ s, iterate 1 (start classicGrid) = some s ∧ s.head.length = 1 := by
  constructor
  · obtain ⟨n, s, h⟩ :=
      @solves_of_solution classicSolution classicGrid (by decide!) (by decide)
    obtain ⟨k, s0, _, _, hit, _⟩ := solveboard_some h
    exact ⟨n, s, h, solved_full hit, solved_valid (by decide) (by decide) h⟩
  · have h1 : ((iterate 1 (start classicGrid)).map (fun s => s.head.length)) = some 1 := by
      decide!
    cases hs : iterate 1 (start classicGrid) with
    | none =>
      rw [hs] at h1
      simp at h1
    | some s =>
      rw [hs] at h1
      exact ⟨s, rfl, by simpa using h1⟩

/-- C8: on a board without empty cells (all 81 entries in 1..9) `solveboard` runs through
its loop body once and returns; the state it returns with is the state it started from,
so no cell was written, no guess was recorded and the stack is unchanged. -/
theorem full_grid_solved_at_once (s : State)
    (h : ∀ x, x < 9 → ∀ y, y < 9 → 1 ≤ s.current.arr x y ∧ s.current.arr x y ≤ 9) :
    iteration s = .solved s ∧ solveboard 1 s = some (.solved s) := by
  have hf : Full s.current.arr := by
    intro x hx y hy
    have := h x hx y hy
    omega
  have hi := iteration_full s hf
  refine ⟨hi, ?_⟩
  rw [solveboard_succ_of_stop (by rw [hi]; simp) 0, hi]

/-- Witness for C8: the reference grid, started with an empty stack. -/
theorem full_grid_solved_at_once_witness :
    (∀ x, x < 9 → ∀ y, y < 9 →
        1 ≤ (start referenceGrid).current.arr x y ∧ (start referenceGrid).current.arr x y ≤ 9) ∧
      iteration (start referenceGrid) = .solved (start referenceGrid) ∧
      solveboard 1 (start referenceGrid) = some (.solved (start referenceGrid)) :=
  ⟨by decide, full_grid_solved_at_once (start referenceGrid) (by decide)⟩

/-- C9: a sweep of `solveboard` that runs to its end (meets no cell without available
value) leaves every filled cell as it is, so the number of empty cells does not grow, and
the number is strictly smaller when the sweep reports progress (`taken == 1`). -/
theorem sweep_progress (head : List board) (cur : board) (sx sy : Nat)
    (h : (pass head cells cur ⟨true, false, 10, sx, sy⟩).isCompleted = true) :
    (∀ x y, cur.arr x y ≠ 0 →
        (pass head cells cur ⟨true, false, 10, sx, sy⟩).board.arr x y = cur.arr x y) ∧
      emptyCount (pass head cells cur ⟨true, false, 10, sx, sy⟩).board.arr ≤ emptyCount cur.arr ∧
      ((pass head cells cur ⟨true, false, 10, sx, sy⟩).locals.taken = true →
        emptyCount (pass head cells cur ⟨true, false, 10, sx, sy⟩).board.arr <
          emptyCount cur.arr) := by
  have he := sweep.eq_completed_of_isCompleted h
  obtain ⟨n, h1, h2⟩ := pass_completed he
  have h3 := h1.emptyCount_add
  refine ⟨fun x y hxy => h1.frame x y hxy, by omega, ?_⟩
  intro ht
  have := h2.mp ht
  omega

/-- Witness for C9: the sweep over the reference grid with the cell (0,0) emptied fills
that cell. -/
theorem sweep_progress_witness :
    (pass [] cells (start forcedSingleGrid).current ⟨true, false, 10, 0, 0⟩).isCompleted = true ∧
      (pass [] cells (start forcedSingleGrid).current ⟨true, false, 10, 0, 0⟩).locals.taken = true ∧
      emptyCount (pass [] cells (start forcedSingleGrid).current ⟨true, false, 10, 0, 0⟩).board.arr <
        emptyCount (start forcedSingleGrid).current.arr :=
  have h : (pass [] cells (start forcedSingleGrid).current ⟨true, false, 10, 0, 0⟩).isCompleted
      = true := by decide!
  have ht : (pass [] cells (start forcedSingleGrid).current ⟨true, false, 10, 0, 0⟩).locals.taken
      = true := by decide!
  ⟨h, ht, (sweep_progress [] (start forcedSingleGrid).current 0 0 h).2.2 ht⟩

/-- C10: in every run of `solveboard`, when a run through the loop body pushes a board
(takes a guess), the pushed board is the current board with the guess `(x, y, v)` put in
front of its list of tried guesses, the guess was not in that list before, and the new
current grid is the old one with `v` written at `(x, y)`. Hence no board of any state of
the run, current or on the stack, holds a guess twice in its list. -/
theorem guess_is_never_repeated (g : Grid) (k : Nat) (s : State)
    (hk : iterate k (start g) = some s) :
    TriedNodup s ∧
      ((iteration s).state.head.length = s.head.length + 1 →
        ∃ t b, (iteration s).state.head = b :: s.head ∧ b.arr = s.current.arr ∧
          b.tried = t :: s.current.tried ∧ t ∉ s.current.tried ∧
          (iteration s).state.current.arr = s.current.arr.set t.x t.y t.value ∧
          (iteration s).state.current.tried = []) := by
  refine ⟨triedNodup_iterate hk, ?_⟩
  intro h
  obtain ⟨t, b, h1, h2, h3, h4, h5, h6, _⟩ := push_is_new_guess h
  exact ⟨t, b, h1, h2, h3, h4, h5, h6⟩

/-- Witness for C10: the first run through the loop body on the example input of the
header comment takes a guess. -/
theorem guess_is_never_repeated_witness :
    iterate 0 (start classicGrid) = some (start classicGrid) ∧
      (iteration (start classicGrid)).state.head.length = (start classicGrid).head.length + 1 ∧
      ∃ t b, (iteration (start classicGrid)).state.head = b :: (start classicGrid).head ∧
        b.arr = (start classicGrid).current.arr ∧
        b.tried = t :: (start classicGrid).current.tried ∧
        t ∉ (start classicGrid).current.tried ∧
        (iteration (start classicGrid)).state.current.arr =
          (start classicGrid).current.arr.set t.x t.y t.value ∧
        (iteration (start classicGrid)).state.current.tried = [] :=
  ⟨rfl, by decide!,
    (guess_is_never_repeated classicGrid 0 (start classicGrid) rfl).2 (by decide!)⟩

/-- C11: whenever a sweep ends with `!solved && !taken` (the guess step is reached), the
cell `(smallx, smally)` is an empty cell of the current grid, its number of available
values is `small`, lies between 2 and 9 and is the least among all empty cells, and it is
the first cell in row-major order with that number; no other cell has these properties.
Its `moves` entry is the result of `getmoves` on the current grid, whatever the entry and
the locals `smallx`, `smally` were before the sweep: the cell was selected in this sweep. -/
theorem selected_cell_is_first_minimal (s : State)
    (hc : (sweepOf s).isCompleted = true) (hs : (sweepOf s).locals.solved = false)
    (ht : (sweepOf s).locals.taken = false) :
    IsSel s.current.arr (sweepOf s).locals.smallx (sweepOf s).locals.smally ∧
      (getmoves s.current.arr (sweepOf s).locals.smallx (sweepOf s).locals.smally).num =
        (sweepOf s).locals.small ∧
      2 ≤ (sweepOf s).locals.small ∧ (sweepOf s).locals.small ≤ 9 ∧
      (sweepOf s).board.moves (sweepOf s).locals.smallx (sweepOf s).locals.smally =
        getmoves s.current.arr (sweepOf s).locals.smallx (sweepOf s).locals.smally ∧
      ∀ a b, IsSel s.current.arr a b →
        a = (sweepOf s).locals.smallx ∧ b = (sweepOf s).locals.smally := by
  obtain ⟨_, _, s3, s4, s5, s6, s7⟩ := stalled_selection hc hs ht
  exact ⟨s3, s5, s6, s7, s4, fun a b hab => hab.unique_cell s3⟩

/-- Witness for C11: the first sweep over the example input of the header comment selects
the cell (2,6), which has two available values. -/
theorem selected_cell_is_first_minimal_witness :
    (sweepOf (start classicGrid)).isCompleted = true ∧
      (sweepOf (start classicGrid)).locals.solved = false ∧
      (sweepOf (start classicGrid)).locals.taken = false ∧
      (sweepOf (start classicGrid)).locals.smallx = 2 ∧
      (sweepOf (start classicGrid)).locals.smally = 6 ∧
      (sweepOf (start classicGrid)).locals.small = 2 ∧
      IsSel (start classicGrid).current.arr (sweepOf (start classicGrid)).locals.smallx
        (sweepOf (start classicGrid)).locals.smally :=
  have h : (sweepOf (start classicGrid)).isCompleted = true ∧
      (sweepOf (start classicGrid)).locals.solved = false ∧
      (sweepOf (start classicGrid)).locals.taken = false ∧
      (sweepOf (start classicGrid)).locals.smallx = 2 ∧
      (sweepOf (start classicGrid)).locals.smally = 6 ∧
      (sweepOf (start classicGrid)).locals.small = 2 := by decide!
  ⟨h.1, h.2.1, h.2.2.1, h.2.2.2.1, h.2.2.2.2.1, h.2.2.2.2.2,
    (selected_cell_is_first_minimal (start classicGrid) h.1 h.2.1 h.2.2.1).1⟩

/-- C12: at the guess step the available values of the selected cell are in strictly
ascending order; the current board is given up exactly when each of them is in the list
of tried guesses of the current board (for that cell), and then the loop body ends in the
branch that pops the stack; otherwise the guess taken is the smallest of them that is not
in the list. -/
theorem guess_is_least_untried (s : State)
    (hc : (sweepOf s).isCompleted = true) (hs : (sweepOf s).locals.solved = false)
    (ht : (sweepOf s).locals.taken = false) :
    (getmoves s.current.arr (sweepOf s).locals.smallx (sweepOf s).locals.smally).array.Pairwise
        (fun a b => a < b) ∧
      (gaveUp s = true ↔
        ∀ w ∈ (getmoves s.current.arr (sweepOf s).locals.smallx (sweepOf s).locals.smally).array,
          (⟨(sweepOf s).locals.smallx, (sweepOf s).locals.smally, w⟩ : tried) ∈ s.current.tried) ∧
      (gaveUp s = true →
        iteration s = backtrack (sweepOf s).board s.head (sweepOf s).locals) ∧
      ∀ v, v ∈ (getmoves s.current.arr (sweepOf s).locals.smallx (sweepOf s).locals.smally).array →
        (⟨(sweepOf s).locals.smallx, (sweepOf s).locals.smally, v⟩ : tried) ∉ s.current.tried →
        (∀ w ∈ (getmoves s.current.arr (sweepOf s).locals.smallx
            (sweepOf s).locals.smally).array,
          (⟨(sweepOf s).locals.smallx, (sweepOf s).locals.smally, w⟩ : tried) ∉ s.current.tried →
            v ≤ w) →
        iteration s = .again (takeGuess (sweepOf s).board s.head (sweepOf s).locals v) := by
  obtain ⟨_, s2, _, s4, s5, _, _⟩ := stalled_selection hc hs ht
  have hlen : ((sweepOf s).board.moves (sweepOf s).locals.smallx
      (sweepOf s).locals.smally).array.length = (sweepOf s).locals.small := by
    rw [sweepOf, s4, ← getmoves_num]
    exact s5
  have hnone := @pickGuess_none_iff (sweepOf s).board _ _ _ hlen
  rw [show (sweepOf s).board.tried = s.current.tried from s2,
    show (sweepOf s).board.moves (sweepOf s).locals.smallx (sweepOf s).locals.smally =
      getmoves s.current.arr (sweepOf s).locals.smallx (sweepOf s).locals.smally from s4]
    at hnone
  have hgave : gaveUp s = true ↔
      pickGuess (sweepOf s).board (sweepOf s).locals.smallx (sweepOf s).locals.smally
        (sweepOf s).locals.small 0 = none := by
    unfold gaveUp
    rw [hc, hs, ht]
    simp [Option.isNone_iff_eq_none]
  refine ⟨getmoves_sorted _ _ _, hgave.trans hnone, iteration_of_gaveUp, ?_⟩
  intro v hv hnew hleast
  cases hp : pickGuess (sweepOf s).board (sweepOf s).locals.smallx (sweepOf s).locals.smally
      (sweepOf s).locals.small 0 with
  | none => exact absurd (hnone.mp hp v hv) hnew
  | some v' =>
    obtain ⟨g1, g2, g3⟩ := guess_mem_getmoves hc hs ht hp
    have e : v' = v := le_antisymm (g3 v hv hnew) (hleast v' g1 g2)
    rw [iteration_of_guess hc hs ht hp, e]

/-- Witness for C12: on the example input of the header comment the first sweep ends at
the guess step, the selected cell (2,6) has the available values 2 and 3, and nothing
was tried yet. -/
theorem guess_is_least_untried_witness :
    (sweepOf (start classicGrid)).isCompleted = true ∧
      (sweepOf (start classicGrid)).locals.solved = false ∧
      (sweepOf (start classicGrid)).locals.taken = false ∧
      gaveUp (start classicGrid) = false ∧
      (getmoves (start classicGrid).current.arr (sweepOf (start classicGrid)).locals.smallx
        (sweepOf (start classicGrid)).locals.smally).array.Pairwise (fun a b => a < b) :=
  have h : (sweepOf (start classicGrid)).isCompleted = true ∧
      (sweepOf (start classicGrid)).locals.solved = false ∧
      (sweepOf (start classicGrid)).locals.taken = false ∧
      gaveUp (start classicGrid) = false := by decide!
  ⟨h.1, h.2.1, h.2.2.1, h.2.2.2,
    (guess_is_least_untried (start classicGrid) h.1 h.2.1 h.2.2.1).1⟩

/-- C13: a guess step with the guess `v` at the selected cell `(x, y)` on the current
board `P` ends the loop body at `Done` in this state: the stack is the old stack with one
board pushed, which has the cell values of `P` and the list of tried guesses of `P` with
the record `(x, y, v)` put in front (the record was not in the list); the new current
grid holds `v` at `(x, y)` and agrees with `P` in every other cell, and its list of tried
guesses is empty. -/
theorem guess_step_frame (s : State) (v : Nat)
    (hc : (sweepOf s).isCompleted = true) (hs : (sweepOf s).locals.solved = false)
    (ht : (sweepOf s).locals.taken = false)
    (hp : pickGuess (sweepOf s).board (sweepOf s).locals.smallx (sweepOf s).locals.smally
      (sweepOf s).locals.small 0 = some v) :
    iteration s = .again (iteration s).state ∧
      (∃ b, (iteration s).state.head = b :: s.head ∧ b.arr = s.current.arr ∧
        b.tried =
          ⟨(sweepOf s).locals.smallx, (sweepOf s).locals.smally, v⟩ :: s.current.tried) ∧
      (⟨(sweepOf s).locals.smallx, (sweepOf s).locals.smally, v⟩ : tried) ∉ s.current.tried ∧
      (iteration s).state.current.arr (sweepOf s).locals.smallx (sweepOf s).locals.smally = v ∧
      (∀ i j, ¬ (i = (sweepOf s).locals.smallx ∧ j = (sweepOf s).locals.smally) →
        (iteration s).state.current.arr i j = s.current.arr i j) ∧
      (iteration s).state.current.tried = [] := by
  obtain ⟨s1, s2, _, _, _, _, _⟩ := stalled_selection hc hs ht
  obtain ⟨_, g2, _⟩ := guess_mem_getmoves hc hs ht hp
  have hi := iteration_of_guess hc hs ht hp
  have harr : (sweepOf s).board.arr = s.current.arr := s1
  have htried : (sweepOf s).board.tried = s.current.tried := s2
  rw [hi]
  refine ⟨rfl, ⟨_, rfl, harr, by rw [← htried]⟩, g2, ?_, ?_, rfl⟩
  · simp only [outcome.state, takeGuess, boardcopy, Grid.set_same]
  · intro i j hij
    simp only [outcome.state, takeGuess, boardcopy, Grid.set_other _ _ _ _ _ _ hij, harr]

/-- Witness for C13: the first run through the loop body on the example input of the
header comment guesses 2 at the cell (2,6). -/
theorem guess_step_frame_witness :
    pickGuess (sweepOf (start classicGrid)).board (sweepOf (start classicGrid)).locals.smallx
        (sweepOf (start classicGrid)).locals.smally (sweepOf (start classicGrid)).locals.small 0
        = some 2 ∧
      (iteration (start classicGrid)).state.current.arr
        (sweepOf (start classicGrid)).locals.smallx (sweepOf (start classicGrid)).locals.smally
        = 2 ∧
      (iteration (start classicGrid)).state.current.tried = [] :=
  have h : (sweepOf (start classicGrid)).isCompleted = true ∧
      (sweepOf (start classicGrid)).locals.solved = false ∧
      (sweepOf (start classicGrid)).locals.taken = false ∧
      pickGuess (sweepOf (start classicGrid)).board (sweepOf (start classicGrid)).locals.smallx
        (sweepOf (start classicGrid)).locals.smally (sweepOf (start classicGrid)).locals.small 0
        = some 2 := by decide!
  have h' := guess_step_frame (start classicGrid) 2 h.1 h.2.1 h.2.2.1 h.2.2.2
  ⟨h.2.2.2, h'.2.2.2.1, h'.2.2.2.2.2⟩

/-- C14: a sweep that meets an empty cell without available value stops there (the cells
after it are not swept). When the current board is given up, which happens only by such
a sweep or because every available value of the selected cell was tried, then with a
non-empty stack the top board, as it stands on the stack, becomes the current board and
the rest of the stack stays, and with an empty stack the run ends with "Invalid Board!".
That end is reached only in this way. -/
theorem giving_up_pops_or_ends (s : State)
    (h : gaveUp s = true ∨ (iteration s).isInvalid = true) :
    gaveUp s = true ∧
      ((sweepOf s).isCompleted = false → ∃ n g', ForcedN n s.current.arr g' ∧ Stuck g') ∧
      ((sweepOf s).isCompleted = true →
        (sweepOf s).locals.solved = false ∧ (sweepOf s).locals.taken = false ∧
        ∀ w ∈ (getmoves s.current.arr (sweepOf s).locals.smallx
            (sweepOf s).locals.smally).array,
          (⟨(sweepOf s).locals.smallx, (sweepOf s).locals.smally, w⟩ : tried) ∈
            s.current.tried) ∧
      ((s.head = [] ∧
          iteration s = .invalid
            ⟨(sweepOf s).board, [], (sweepOf s).locals.smallx, (sweepOf s).locals.smally⟩) ∨
        (∃ top rest, s.head = top :: rest ∧
          iteration s =
            .again ⟨top, rest, (sweepOf s).locals.smallx, (sweepOf s).locals.smally⟩)) ∧
      ∀ (hd : List board) (cs : List (Nat × Nat)) (cur : board) (l : locals) (x y : Nat),
        cur.arr x y = 0 → (getmoves cur.arr x y).num = 0 →
          pass hd ((x, y) :: cs) cur l = pass hd [(x, y)] cur l ∧
            (pass hd ((x, y) :: cs) cur l).isCompleted = false := by
  have hg : gaveUp s = true := by
    rcases h with h | h
    · exact h
    · exact (gaveUp_of_invalid h).1
  refine ⟨hg, stuck_of_not_completed, exhausted_of_gaveUp hg, ?_, ?_⟩
  · have hi := iteration_of_gaveUp hg
    cases hh : s.head with
    | nil =>
      rw [hh, backtrack_nil] at hi
      exact Or.inl ⟨rfl, hi⟩
    | cons top rest =>
      rw [hh, backtrack_cons] at hi
      exact Or.inr ⟨top, rest, rfl, hi⟩
  · intro hd cs cur l x y h0 hn
    have h1 : ¬ (getmoves cur.arr x y).num = 1 := by omega
    constructor
    · rw [pass, pass, if_pos h0, if_pos h0]
      simp only [setmoves_same]
      rw [if_neg h1, if_pos hn, if_neg h1, if_pos hn]
    · rw [pass, if_pos h0]
      simp only [setmoves_same]
      rw [if_neg h1, if_pos hn]
      cases hd <;> rfl

/-- Witness for C14: on `stuckGrid` the first cell swept has no available value and the
stack is empty, so the run ends with "Invalid Board!". -/
theorem giving_up_pops_or_ends_witness :
    gaveUp (start stuckGrid) = true ∧ (iteration (start stuckGrid)).isInvalid = true ∧
      (start stuckGrid).head = [] ∧ (sweepOf (start stuckGrid)).isCompleted = false ∧
      ∃ n g', ForcedN n (start stuckGrid).current.arr g' ∧ Stuck g' :=
  have h : gaveUp (start stuckGrid) = true ∧ (iteration (start stuckGrid)).isInvalid = true ∧
      (sweepOf (start stuckGrid)).isCompleted = false := by
    decide!
  ⟨h.1, h.2.1, rfl, h.2.2,
    (giving_up_pops_or_ends (start stuckGrid) (Or.inl h.1)).2.1 h.2.2⟩

/-- C15: for every input grid with entries in 0..9 in which no two filled cells that share
a row, a column or a 3*3 box hold the same value, if `solveboard` returns (Solved), the
final grid is a solved Sudoku: it is full, every row, column and 3*3 box of it is a
permutation of 1..9, no two of its cells in one row, column or box are equal, and it
keeps the filled cells of the input. The box scan of `getmoves` is not exact for cells of
row 3 and column 3; rows, columns and corner boxes decide the other boxes of a full grid. -/
theorem solved_grid_is_sudoku (g : Grid) (n : Nat) (s : State) (hr : InRange g)
    (hn : NoClash g) (h : solveboard n (start g) = some (.solved s)) :
    Full s.current.arr ∧ Valid s.current.arr ∧ NoClash s.current.arr ∧
      Keeps g s.current.arr := by
  have hv := solved_valid hr (consistent_of_noClash hn) h
  obtain ⟨k, s0, _, _, hit, _⟩ := solveboard_some h
  exact ⟨solved_full hit, hv, noClash_of_consistent hv.consistent, solved_keeps h⟩

/-- Witness for C15: the reference grid with the cell (0,0) emptied. -/
theorem solved_grid_is_sudoku_witness :
    InRange forcedSingleGrid ∧ NoClash forcedSingleGrid ∧
      solveboard 1 (start forcedSingleGrid) =
        some (.solved (iteration (start forcedSingleGrid)).state) ∧
      Full (iteration (start forcedSingleGrid)).state.current.arr ∧
      Valid (iteration (start forcedSingleGrid)).state.current.arr :=
  have h : solveboard 1 (start forcedSingleGrid) =
      some (.solved (iteration (start forcedSingleGrid)).state) :=
    solveboard_one_of_isSolved (by decide!)
  have hn : NoClash forcedSingleGrid := noClash_of_consistent (by decide)
  have h' := solved_grid_is_sudoku forcedSingleGrid 1 _ (by decide) hn h
  ⟨by decide, hn, h, h'.1, h'.2.1⟩

/-- C16: for every input grid with entries in 0..9 that some solved Sudoku fills (the
solution agrees with the input on its filled cells), `solveboard` never ends with
"Invalid Board!", and it does return (Solved). -/
theorem completable_input_is_solved (g S : Grid) (_hr : InRange g) (hS : Valid S)
    (hk : Keeps g S) :
    (∀ n r, solveboard n (start g) = some r → r.isInvalid = false) ∧
      ∃ n s, solveboard n (start g) = some (.solved s) := by
  refine ⟨?_, solves_of_solution hS hk⟩
  intro n r h
  cases r with
  | invalid t => exact absurd rfl (not_invalid_of_solution hS hk h t)
  | again t => rfl
  | solved t => rfl

/-- Witness for C16: the example input of the header comment and a solved Sudoku that
fills it. -/
theorem completable_input_is_solved_witness :
    InRange classicGrid ∧ Valid classicSolution ∧ Keeps classicGrid classicSolution ∧
      ∃ n s, solveboard n (start classicGrid) = some (.solved s) :=
  ⟨by decide, by decide!, by decide,
    (completable_input_is_solved classicGrid classicSolution (by decide) (by decide!)
      (by decide)).2⟩

/-- C17: for every grid with entries in 0..9 and every empty cell `(x, y)`, `getmoves(x, y)`
returns every value of 1..9 that stands in no cell of the row, the column and the 3*3
box of the cell; it returns no value that stands in row `x` or in column `y`; and for
`x != 3` and `y != 3` it returns exactly the values of 1..9 that stand in no cell of the
row, the column and the box. -/
theorem getmoves_bounds (g : Grid) (x y : Nat) (_hr : InRange g) (hx : x < 9) (hy : y < 9)
    (h0 : g x y = 0) :
    (∀ v, 1 ≤ v → v ≤ 9 → Absent g x y v → v ∈ (getmoves g x y).array) ∧
      (∀ v ∈ (getmoves g x y).array,
        1 ≤ v ∧ v ≤ 9 ∧ (∀ j, j < 9 → g x j ≠ v) ∧ (∀ i, i < 9 → g i y ≠ v)) ∧
      (x ≠ 3 → y ≠ 3 →
        ∀ v, v ∈ (getmoves g x y).array ↔ 1 ≤ v ∧ v ≤ 9 ∧ Absent g x y v) := by
  have hrowcol : ∀ v ∈ (getmoves g x y).array,
      1 ≤ v ∧ v ≤ 9 ∧ (∀ j, j < 9 → g x j ≠ v) ∧ (∀ i, i < 9 → g i y ≠ v) := by
    intro v hv
    obtain ⟨v1, v9, hr, hc, _⟩ := (mem_getmoves _ _ _ _).mp hv
    refine ⟨v1, v9, ?_, ?_⟩
    · intro j hj
      by_cases hjy : j = y
      · subst hjy
        omega
      · exact hr j hj hjy
    · intro i hi
      by_cases hix : i = x
      · subst hix
        omega
      · exact hc i hi hix
  have hall : ∀ v, 1 ≤ v → v ≤ 9 → Absent g x y v → v ∈ (getmoves g x y).array := by
    intro v v1 v9 ⟨a1, a2, a3⟩
    rw [mem_getmoves]
    refine ⟨v1, v9, fun loop hl _ => a1 loop hl, fun loop hl _ => a2 loop hl, ?_⟩
    intro loop hl inn hi _ _
    obtain ⟨b1, b2⟩ := box_cell_bound hx hl
    obtain ⟨c1, c2⟩ := box_cell_bound hy hi
    exact a3 _ b1 _ c1 b2 c2
  refine ⟨hall, hrowcol, ?_⟩
  intro hx3 hy3 v
  constructor
  · intro hv
    obtain ⟨v1, v9, r1, r2⟩ := hrowcol v hv
    obtain ⟨_, _, _, _, hb⟩ := (mem_getmoves _ _ _ _).mp hv
    refine ⟨v1, v9, r1, r2, ?_⟩
    intro i hi j hj hi3 hj3
    by_cases hix : i = x
    · subst hix
      exact r1 j hj
    · by_cases hjy : j = y
      · subst hjy
        exact r2 i hi
      · have o1 := box_offset (rfl : x / 3 = x / 3) hi3
        have o2 := box_offset (rfl : y / 3 = y / 3) hj3
        have := hb (i - x / 3 * 3) o1.1 (j - y / 3 * 3) o2.1
          (box_test_pass hx hx3 hi3 hix) (box_test_pass hy hy3 hj3 hjy)
        rw [o1.2, o2.2] at this
        exact this
  · rintro ⟨v1, v9, ha⟩
    exact hall v v1 v9 ha

/-- Witness for C17: the cell (0,0) of the reference grid with that cell emptied. -/
theorem getmoves_bounds_witness :
    InRange forcedSingleGrid ∧ forcedSingleGrid 0 0 = 0 ∧
      ∀ v, v ∈ (getmoves forcedSingleGrid 0 0).array ↔
        1 ≤ v ∧ v ≤ 9 ∧ Absent forcedSingleGrid 0 0 v :=
  ⟨by decide, by decide,
    (getmoves_bounds forcedSingleGrid 0 0 (by decide) (by decide) (by decide) (by decide)).2.2
      (by decide) (by decide)⟩

/-- C18: for every input grid with entries in 0..9, at every state of the run the current
grid and the grids on the stack keep every filled cell of the input, and so does the grid
`solveboard` returns with; the grid at the end of a sweep (unless the sweep popped the
stack) and the current grid after a run through the loop body (unless it popped the
stack) differ from the current grid before only in cells that were empty there and now
hold a value of 1..9. -/
theorem input_cells_are_kept (g : Grid) (k : Nat) (s : State) (_hr : InRange g)
    (hk : iterate k (start g) = some s) :
    Keeps g s.current.arr ∧ (∀ b ∈ s.head, Keeps g b.arr) ∧
      (∀ s', iteration s = .solved s' → Keeps g s'.current.arr) ∧
      ((sweepOf s).isCompleted = true ∨ s.head = [] →
        WritesInto s.current.arr (sweepOf s).board.arr) ∧
      (∀ s', iteration s = .again s' ∨ iteration s = .solved s' →
        WritesInto s.current.arr s'.current.arr ∨ s.head = s'.current :: s'.head) := by
  have hinv := gridInv_iterate (Keeps g) (keeps_set_step g) (Keeps.refl g) hk
  refine ⟨hinv.1, hinv.2, ?_, sweepOf_writesInto s, fun s' h => iteration_writesInto h⟩
  intro s' hs'
  exact (gridInv_step (Keeps g) (keeps_set_step g) hinv (Or.inr hs')).1

/-- Witness for C18: the state after the first guess on the example input of the header
comment. -/
theorem input_cells_are_kept_witness :
    InRange classicGrid ∧
      iterate 1 (start classicGrid) = some (iteration (start classicGrid)).state ∧
      Keeps classicGrid (iteration (start classicGrid)).state.current.arr ∧
      ∀ b ∈ (iteration (start classicGrid)).state.head, Keeps classicGrid b.arr :=
  have h : (iteration (start classicGrid)).isSolved = false ∧
      (iteration (start classicGrid)).isInvalid = false := by decide!
  have hk := iterate_one h.1 h.2
  have h' := input_cells_are_kept classicGrid 1 _ (by decide) hk
  ⟨by decide, hk, h'.1, h'.2.1⟩

/-- C19: at every state of a run, every board on the stack holds at least one tried guess
and is a fixed point of the sweep: a sweep over it, with whatever stack and locals, runs
to its end, writes no cell, leaves a cell open and selects the cell of every guess in the
board's list of tried guesses; the values it finds available there are those of
`getmoves` on the board's grid, and the values of these guesses are among them. The same holds for the sweep over a current board that holds a tried
guess, which is a board that came back from the stack. -/
theorem stacked_board_is_fixed_point (g : Grid) (k : Nat) (s : State)
    (hk : iterate k (start g) = some s) :
    (∀ b ∈ s.head, b.tried ≠ [] ∧ ∀ (hs : List board) (sx sy : Nat),
      (pass hs cells b ⟨true, false, 10, sx, sy⟩).isCompleted = true ∧
        (pass hs cells b ⟨true, false, 10, sx, sy⟩).locals.solved = false ∧
        (pass hs cells b ⟨true, false, 10, sx, sy⟩).locals.taken = false ∧
        (pass hs cells b ⟨true, false, 10, sx, sy⟩).board.arr = b.arr ∧
        (pass hs cells b ⟨true, false, 10, sx, sy⟩).board.tried = b.tried ∧
        (pass hs cells b ⟨true, false, 10, sx, sy⟩).board.moves
            (pass hs cells b ⟨true, false, 10, sx, sy⟩).locals.smallx
            (pass hs cells b ⟨true, false, 10, sx, sy⟩).locals.smally =
          getmoves b.arr (pass hs cells b ⟨true, false, 10, sx, sy⟩).locals.smallx
            (pass hs cells b ⟨true, false, 10, sx, sy⟩).locals.smally ∧
        ∀ t ∈ b.tried,
          t.x = (pass hs cells b ⟨true, false, 10, sx, sy⟩).locals.smallx ∧
          t.y = (pass hs cells b ⟨true, false, 10, sx, sy⟩).locals.smally ∧
          t.value ∈ ((pass hs cells b ⟨true, false, 10, sx, sy⟩).board.moves
            (pass hs cells b ⟨true, false, 10, sx, sy⟩).locals.smallx
            (pass hs cells b ⟨true, false, 10, sx, sy⟩).locals.smally).array) ∧
      (s.current.tried ≠ [] →
        (sweepOf s).isCompleted = true ∧ (sweepOf s).locals.solved = false ∧
          (sweepOf s).locals.taken = false ∧ (sweepOf s).board.arr = s.current.arr ∧
          ∀ t ∈ s.current.tried,
            t.x = (sweepOf s).locals.smallx ∧ t.y = (sweepOf s).locals.smally ∧
            t.value ∈ ((sweepOf s).board.moves (sweepOf s).locals.smallx
              (sweepOf s).locals.smally).array) := by
  obtain ⟨i1, i2⟩ := branchInv_iterate hk
  constructor
  · intro b hb
    exact ⟨(i2 b hb).2, fun hs sx sy => (i2 b hb).1.sweep_again hs sx sy⟩
  · intro hne
    obtain ⟨h1, h2, h3, h4, _, _, h6⟩ := (i1 hne).sweep_again s.head s.smallx s.smally
    exact ⟨h1, h2, h3, h4, h6⟩

/-- Witness for C19: the state after the first guess on the example input of the header
comment; its stack holds the input board with the guess 2 at (2,6) in its list. -/
theorem stacked_board_is_fixed_point_witness :
    iterate 1 (start classicGrid) = some (iteration (start classicGrid)).state ∧
      (iteration (start classicGrid)).state.head.length = 1 ∧
      ∀ b ∈ (iteration (start classicGrid)).state.head, b.tried ≠ [] :=
  have h : (iteration (start classicGrid)).isSolved = false ∧
      (iteration (start classicGrid)).isInvalid = false ∧
      (iteration (start classicGrid)).state.head.length = 1 := by decide!
  have hk := iterate_one h.1 h.2.1
  ⟨hk, h.2.2, fun b hb => ((stacked_board_is_fixed_point classicGrid 1 _ hk).1 b hb).1⟩

/-- C20: at every state of a run the numbers of empty cells grow strictly from the
current grid to the top of the stack and on down the stack; the number of empty cells of
the current grid plus the depth of the stack is at most the number of empty cells of the
input, which is at most 81. -/
theorem stack_depth_bounded (g : Grid) (k : Nat) (s : State)
    (hk : iterate k (start g) = some s) :
    Descending (emptyCount s.current.arr) s.head ∧
      emptyCount s.current.arr + s.head.length ≤ emptyCount g ∧
      s.head.length ≤ emptyCount g ∧ emptyCount g ≤ 81 := by
  have hd := descending_iterate hk
  have hb := gridInv_iterate (fun g' => emptyCount g' ≤ emptyCount g) (emptyCount_set_step g)
    (le_refl _) hk
  have hl := descending_length_le hd hb.1 hb.2
  exact ⟨hd, hl, by omega, emptyCount_le g⟩

/-- Witness for C20: the state after the first guess on the example input of the header
comment. -/
theorem stack_depth_bounded_witness :
    iterate 1 (start classicGrid) = some (iteration (start classicGrid)).state ∧
      Descending (emptyCount (iteration (start classicGrid)).state.current.arr)
        (iteration (start classicGrid)).state.head ∧
      (iteration (start classicGrid)).state.head.length ≤ emptyCount classicGrid :=
  have h : (iteration (start classicGrid)).isSolved = false ∧
      (iteration (start classicGrid)).isInvalid = false := by decide!
  have hk := iterate_one h.1 h.2
  have h' := stack_depth_bounded classicGrid 1 _ hk
  ⟨hk, h'.1, h'.2.2.1⟩

end SudokuSolver
